import Mathlib

/-!
Verification development for the kami2 puzzle core
(`src/core/GameGrid.ts`, `src/core/GraphSolver` and `src/stores/gameStore.ts`).

Embedding conventions:
* JavaScript `Map`s and `Set`s are modelled as insertion-ordered association
  lists resp. duplicate-free lists (`setAdd` appends when absent, mirroring
  `Set.add`; `Map.set` updates in place or appends).
* In-place mutation becomes explicit state passing.
* Numbers that the code only ever uses as non-negative integers are `Nat`;
  the solver's caller-supplied depth cap is `Int` because callers may pass
  negative values.
* `x!` dereferences in the TypeScript source (asserting presence) are modelled
  as no-ops on the `none` branch; the graph well-formedness invariant proved
  below shows those branches are unreachable for graphs the program builds.
-/

namespace Kami2

/-! ### JS `Set` as ordered duplicate-free list -/

/-- Additive update of a JS `Set`: appends the element if absent (`Set.add`). -/
def setAdd (s : List Nat) (x : Nat) : List Nat :=
  if x ∈ s then s else s ++ [x]

/-- Removal from a JS `Set` (`Set.delete`). -/
def setDelete (s : List Nat) (x : Nat) : List Nat :=
  s.filter (fun y => y != x)

theorem mem_setAdd {s : List Nat} {x y : Nat} :
    y ∈ setAdd s x ↔ y ∈ s ∨ y = x := by
  unfold setAdd
  by_cases h : x ∈ s
  · simp only [if_pos h]
    constructor
    · exact Or.inl
    · rintro (hy | rfl) <;> [exact hy; exact h]
  · simp [if_neg h]

theorem mem_setDelete {s : List Nat} {x y : Nat} :
    y ∈ setDelete s x ↔ y ∈ s ∧ y ≠ x := by
  simp [setDelete, List.mem_filter]

theorem nodup_setAdd {s : List Nat} {x : Nat} (h : s.Nodup) :
    (setAdd s x).Nodup := by
  unfold setAdd
  by_cases hx : x ∈ s
  · simpa [hx]
  · simp [hx, List.nodup_append, h]

theorem nodup_setDelete {s : List Nat} {x : Nat} (h : s.Nodup) :
    (setDelete s x).Nodup :=
  h.filter _

/-! ### Union-Find

Modelled from the spec: the repository imports `./UnionFind`, whose source file
is not under `src/`.  Spec §2 and §4.1 say the structure owns a parent array
and a live root-count; `find(i)` returns the canonical representative of the
component containing `i` (path compression permitted but not required),
`union(i, j)` merges the components of `i` and `j`, is a no-op if already
merged, and decrements the live root-count exactly once per successful merge;
`count` is the current number of distinct components.  We keep the parent
array in fully-compressed form: `parent[i]` is directly the canonical
representative of `i`. -/

structure UnionFind where
  size : Nat
  parent : List Nat
  count : Nat
deriving Repr, DecidableEq

/-- Modelled from the spec: `new UnionFind(n)` with `n` singleton components. -/
def UnionFind.init (n : Nat) : UnionFind := ⟨n, List.range n, n⟩

/-- Modelled from the spec: canonical representative of `i`'s component. -/
def UnionFind.find (u : UnionFind) (i : Nat) : Nat := u.parent.getD i i

/-- Modelled from the spec: merge the components of `i` and `j`; no-op when
already merged, otherwise the live count decrements by one. -/
def UnionFind.union (u : UnionFind) (i j : Nat) : UnionFind :=
  let ri := u.find i
  let rj := u.find j
  if ri = rj then u
  else ⟨u.size, u.parent.map (fun p => if p = rj then ri else p), u.count - 1⟩

/-- Same-component relation induced by a Union-Find state. -/
def UnionFind.rel (u : UnionFind) (a b : Nat) : Prop := u.find a = u.find b

/-- Well-formedness: the parent array has the right length, representatives are
in-range idempotent, and the live count is the number of distinct
representatives (spec §3: "root-count equals the number of distinct connected
components"). -/
def UnionFind.WF (u : UnionFind) : Prop :=
  u.parent.length = u.size ∧
  (∀ i, i < u.size → u.find i < u.size ∧ u.find (u.find i) = u.find i) ∧
  u.count = ((Finset.range u.size).image u.find).card

theorem UnionFind.init_find (n i : Nat) : (UnionFind.init n).find i = i := by
  unfold UnionFind.init UnionFind.find
  by_cases h : i < n
  · simp [List.getD, List.getElem?_range h]
  · rw [List.getD_eq_default]
    simpa using Nat.le_of_not_lt h

theorem UnionFind.init_WF (n : Nat) : (UnionFind.init n).WF := by
  refine ⟨by simp [UnionFind.init], fun i hi => ?_, ?_⟩
  · simp [UnionFind.init_find, hi]
  · have himg : (Finset.range n).image (UnionFind.init n).find = Finset.range n := by
      ext x
      simp only [Finset.mem_image, Finset.mem_range]
      constructor
      · rintro ⟨a, ha, rfl⟩; simpa [UnionFind.init_find] using ha
      · intro hx; exact ⟨x, hx, UnionFind.init_find n x⟩
    show (UnionFind.init n).count
      = ((Finset.range (UnionFind.init n).size).image (UnionFind.init n).find).card
    have hsz : (UnionFind.init n).size = n := rfl
    rw [hsz, himg]
    simp [UnionFind.init]

theorem UnionFind.find_of_ge {u : UnionFind} (hWF : u.WF) {i : Nat}
    (h : u.size ≤ i) : u.find i = i := by
  unfold UnionFind.find
  rw [List.getD_eq_default]
  rw [hWF.1]; exact h

theorem UnionFind.find_lt {u : UnionFind} (hWF : u.WF) {i : Nat}
    (h : i < u.size) : u.find i < u.size :=
  (hWF.2.1 i h).1

theorem UnionFind.find_idem {u : UnionFind} (hWF : u.WF) {i : Nat}
    (h : i < u.size) : u.find (u.find i) = u.find i :=
  (hWF.2.1 i h).2

theorem UnionFind.union_size (u : UnionFind) (i j : Nat) :
    (u.union i j).size = u.size := by
  unfold UnionFind.union
  by_cases h : u.find i = u.find j <;> simp [h]

/-- Pointwise characterisation of `find` after a `union`. -/
theorem UnionFind.union_find {u : UnionFind} (hWF : u.WF) {j : Nat}
    (hj : j < u.size) (i x : Nat) :
    (u.union i j).find x =
      if u.find x = u.find j then u.find i else u.find x := by
  unfold UnionFind.union
  by_cases h : u.find i = u.find j
  · simp only [if_pos h]
    by_cases hx : u.find x = u.find j
    · rw [if_pos hx, hx, h]
    · rw [if_neg hx]
  · simp only [if_neg h]
    show (u.parent.map fun p => if p = u.find j then u.find i else p).getD x x = _
    rw [List.getD_eq_getElem?_getD, List.getElem?_map]
    unfold UnionFind.find
    rw [List.getD_eq_getElem?_getD]
    cases hp : u.parent[x]? with
    | none =>
      have hxge : u.parent.length ≤ x := List.getElem?_eq_none_iff.1 hp
      have hxge' : u.size ≤ x := hWF.1 ▸ hxge
      have hne : x ≠ u.parent[j]?.getD j := by
        have hlt := UnionFind.find_lt hWF hj
        unfold UnionFind.find at hlt
        rw [List.getD_eq_getElem?_getD] at hlt
        omega
      simp [hp, hne]
    | some p => simp [hp]

theorem UnionFind.union_WF {u : UnionFind} (hWF : u.WF) {i j : Nat}
    (hi : i < u.size) (hj : j < u.size) : (u.union i j).WF := by
  have hfind := UnionFind.union_find hWF hj i
  by_cases hroot : u.find i = u.find j
  · unfold UnionFind.union; simp only [if_pos hroot]; exact hWF
  · refine ⟨?_, ?_, ?_⟩
    · show (u.union i j).parent.length = (u.union i j).size
      unfold UnionFind.union
      simp only [if_neg hroot, List.length_map]
      exact hWF.1
    · intro x hx
      rw [UnionFind.union_size] at hx
      rw [UnionFind.union_size]
      rcases hWF.2.1 x hx with ⟨hb, hidem⟩
      by_cases hcase : u.find x = u.find j
      · rw [hfind x, if_pos hcase, hfind (u.find i),
          if_neg (by rw [UnionFind.find_idem hWF hi]; exact hroot),
          UnionFind.find_idem hWF hi]
        exact ⟨UnionFind.find_lt hWF hi, rfl⟩
      · rw [hfind x, if_neg hcase, hfind (u.find x), if_neg (by rw [hidem]; exact hcase), hidem]
        exact ⟨hb, rfl⟩
    · have himg : (Finset.range u.size).image (u.union i j).find
          = ((Finset.range u.size).image u.find).erase (u.find j) := by
        ext w
        simp only [Finset.mem_image, Finset.mem_erase, Finset.mem_range]
        constructor
        · rintro ⟨a, ha, rfl⟩
          rw [hfind a]
          by_cases hcase : u.find a = u.find j
          · rw [if_pos hcase]
            refine ⟨?_, i, hi, rfl⟩
            intro hc
            exact hroot hc
          · rw [if_neg hcase]
            exact ⟨hcase, a, ha, rfl⟩
        · rintro ⟨hw, a, ha, rfl⟩
          exact ⟨a, ha, by rw [hfind a, if_neg hw]⟩
      have hjmem : u.find j ∈ (Finset.range u.size).image u.find :=
        Finset.mem_image.2 ⟨j, Finset.mem_range.2 hj, rfl⟩
      have hcard := Finset.card_erase_of_mem hjmem
      have hcount : (u.union i j).count = u.count - 1 := by
        unfold UnionFind.union
        simp [hroot]
      show (u.union i j).count
        = ((Finset.range (u.union i j).size).image (u.union i j).find).card
      rw [UnionFind.union_size, himg, hcard, ← hWF.2.2, hcount]

theorem UnionFind.union_count_le (u : UnionFind) (i j : Nat) :
    (u.union i j).count ≤ u.count := by
  unfold UnionFind.union
  by_cases h : u.find i = u.find j <;> simp [h]

/-- Relation after a union: the join of the old relation with the new pair. -/
theorem UnionFind.rel_union_iff {u : UnionFind} (hWF : u.WF) {i j : Nat}
    (hi : i < u.size) (hj : j < u.size) (a b : Nat) :
    (u.union i j).rel a b ↔
      u.rel a b ∨ (u.rel a i ∧ u.rel j b) ∨ (u.rel a j ∧ u.rel i b) := by
  have hfind := UnionFind.union_find hWF hj i
  unfold UnionFind.rel
  rw [hfind a, hfind b]
  by_cases ha : u.find a = u.find j <;> by_cases hb : u.find b = u.find j
  · rw [if_pos ha, if_pos hb]
    constructor
    · intro _
      exact Or.inl (ha.trans hb.symm)
    · intro _
      rfl
  · rw [if_pos ha, if_neg hb]
    constructor
    · intro h
      exact Or.inr (Or.inr ⟨ha, h⟩)
    · rintro (h | ⟨h1, h2⟩ | ⟨h1, h2⟩)
      · exact absurd (h.symm.trans ha) hb
      · exact absurd h2.symm hb
      · exact h2
  · rw [if_neg ha, if_pos hb]
    constructor
    · intro h
      exact Or.inr (Or.inl ⟨h, hb.symm⟩)
    · rintro (h | ⟨h1, h2⟩ | ⟨h1, h2⟩)
      · exact absurd (h.trans hb) ha
      · exact h1
      · exact absurd h1 ha
  · rw [if_neg ha, if_neg hb]
    constructor
    · exact Or.inl
    · rintro (h | ⟨h1, h2⟩ | ⟨h1, h2⟩)
      · exact h
      · exact absurd h2.symm hb
      · exact absurd h1 ha

theorem UnionFind.rel_union_of_rel {u : UnionFind} (hWF : u.WF) {i j : Nat}
    (hi : i < u.size) (hj : j < u.size) {a b : Nat} (h : u.rel a b) :
    (u.union i j).rel a b :=
  (UnionFind.rel_union_iff hWF hi hj a b).2 (Or.inl h)

theorem UnionFind.rel_union_self {u : UnionFind} (hWF : u.WF) {i j : Nat}
    (hi : i < u.size) (hj : j < u.size) : (u.union i j).rel i j :=
  (UnionFind.rel_union_iff hWF hi hj i j).2 (Or.inr (Or.inl ⟨rfl, rfl⟩))

theorem UnionFind.rel_refl (u : UnionFind) (a : Nat) : u.rel a a := rfl

theorem UnionFind.rel_symm {u : UnionFind} {a b : Nat} (h : u.rel a b) :
    u.rel b a := h.symm

theorem UnionFind.rel_trans {u : UnionFind} {a b c : Nat} (h1 : u.rel a b)
    (h2 : u.rel b c) : u.rel a c := h1.trans h2

/-- Upper bound: the relation after one union stays inside any equivalence
containing the old relation and the new pair. -/
theorem UnionFind.rel_union_subset {u : UnionFind} (hWF : u.WF) {i j : Nat}
    (hi : i < u.size) (hj : j < u.size) {E : Nat → Nat → Prop}
    (hsymm : ∀ a b, E a b → E b a) (htrans : ∀ a b c, E a b → E b c → E a c)
    (hrel : ∀ a b, u.rel a b → E a b) (hpair : E i j) :
    ∀ a b, (u.union i j).rel a b → E a b := by
  intro a b h
  rcases (UnionFind.rel_union_iff hWF hi hj a b).1 h with h | ⟨h1, h2⟩ | ⟨h1, h2⟩
  · exact hrel a b h
  · exact htrans a i b (hrel _ _ h1) (htrans i j b hpair (hrel _ _ h2))
  · exact htrans a j b (hrel _ _ h1) (htrans j i b (hsymm _ _ hpair) (hrel _ _ h2))

/-! ### Folding unions over a pair list -/

/-- Applying a list of `union` calls in order. -/
def unionPairs (u : UnionFind) (ps : List (Nat × Nat)) : UnionFind :=
  ps.foldl (fun v p => v.union p.1 p.2) u

theorem unionPairs_nil (u : UnionFind) : unionPairs u [] = u := rfl

theorem unionPairs_cons (u : UnionFind) (p : Nat × Nat) (ps : List (Nat × Nat)) :
    unionPairs u (p :: ps) = unionPairs (u.union p.1 p.2) ps := rfl

theorem unionPairs_size (u : UnionFind) (ps : List (Nat × Nat)) :
    (unionPairs u ps).size = u.size := by
  induction ps generalizing u with
  | nil => rfl
  | cons p ps ih => rw [unionPairs_cons, ih, UnionFind.union_size]

theorem unionPairs_WF {u : UnionFind} (hWF : u.WF) {ps : List (Nat × Nat)}
    (hps : ∀ p ∈ ps, p.1 < u.size ∧ p.2 < u.size) : (unionPairs u ps).WF := by
  induction ps generalizing u with
  | nil => exact hWF
  | cons p ps ih =>
    rw [unionPairs_cons]
    rcases hps p (List.mem_cons_self _ _) with ⟨h1, h2⟩
    refine ih (UnionFind.union_WF hWF h1 h2) ?_
    intro q hq
    rw [UnionFind.union_size]
    exact hps q (List.mem_cons_of_mem _ hq)

theorem unionPairs_rel_of_rel {u : UnionFind} (hWF : u.WF)
    {ps : List (Nat × Nat)} (hps : ∀ p ∈ ps, p.1 < u.size ∧ p.2 < u.size)
    {a b : Nat} (h : u.rel a b) : (unionPairs u ps).rel a b := by
  induction ps generalizing u with
  | nil => exact h
  | cons p ps ih =>
    rw [unionPairs_cons]
    rcases hps p (List.mem_cons_self _ _) with ⟨h1, h2⟩
    refine ih (UnionFind.union_WF hWF h1 h2) ?_ ?_
    · intro q hq
      rw [UnionFind.union_size]
      exact hps q (List.mem_cons_of_mem _ hq)
    · exact UnionFind.rel_union_of_rel hWF h1 h2 h

theorem unionPairs_rel_of_mem {u : UnionFind} (hWF : u.WF)
    {ps : List (Nat × Nat)} (hps : ∀ p ∈ ps, p.1 < u.size ∧ p.2 < u.size)
    {p : Nat × Nat} (hp : p ∈ ps) : (unionPairs u ps).rel p.1 p.2 := by
  induction ps generalizing u with
  | nil => cases hp
  | cons q ps ih =>
    rw [unionPairs_cons]
    rcases hps q (List.mem_cons_self _ _) with ⟨h1, h2⟩
    have hWF' := UnionFind.union_WF hWF h1 h2
    have hps' : ∀ r ∈ ps, r.1 < (u.union q.1 q.2).size ∧ r.2 < (u.union q.1 q.2).size := by
      intro r hr
      rw [UnionFind.union_size]
      exact hps r (List.mem_cons_of_mem _ hr)
    rcases List.mem_cons.1 hp with rfl | hp'
    · exact unionPairs_rel_of_rel hWF' hps' (UnionFind.rel_union_self hWF h1 h2)
    · exact ih hWF' hps' hp'

theorem unionPairs_rel_subset {u : UnionFind} (hWF : u.WF)
    {ps : List (Nat × Nat)} (hps : ∀ p ∈ ps, p.1 < u.size ∧ p.2 < u.size)
    {E : Nat → Nat → Prop}
    (hsymm : ∀ a b, E a b → E b a) (htrans : ∀ a b c, E a b → E b c → E a c)
    (hrel : ∀ a b, u.rel a b → E a b) (hpairs : ∀ p ∈ ps, E p.1 p.2) :
    ∀ a b, (unionPairs u ps).rel a b → E a b := by
  induction ps generalizing u with
  | nil => exact hrel
  | cons p ps ih =>
    rw [unionPairs_cons]
    rcases hps p (List.mem_cons_self _ _) with ⟨h1, h2⟩
    refine ih (UnionFind.union_WF hWF h1 h2) ?_ ?_ ?_
    · intro q hq
      rw [UnionFind.union_size]
      exact hps q (List.mem_cons_of_mem _ hq)
    · exact UnionFind.rel_union_subset hWF h1 h2 hsymm htrans hrel
        (hpairs p (List.mem_cons_self _ _))
    · exact fun q hq => hpairs q (List.mem_cons_of_mem _ hq)

/-- Two well-formed Union-Find states of the same size inducing the same
partition have the same live count. -/
theorem UnionFind.count_eq_of_equiv {u v : UnionFind} (hu : u.WF) (hv : v.WF)
    (hsize : u.size = v.size)
    (hrel : ∀ a b, a < u.size → b < u.size → (u.rel a b ↔ v.rel a b)) :
    u.count = v.count := by
  have hvu : ∀ x, x < u.size → v.find x = v.find (u.find x) := by
    intro x hx
    exact (hrel x (u.find x) hx (UnionFind.find_lt hu hx)).1
      (UnionFind.find_idem hu hx).symm
  have himg : (Finset.range u.size).image v.find
      = ((Finset.range u.size).image u.find).image v.find := by
    ext w
    simp only [Finset.mem_image, Finset.mem_range]
    constructor
    · rintro ⟨x, hx, rfl⟩
      exact ⟨u.find x, ⟨x, hx, rfl⟩, (hvu x hx).symm⟩
    · rintro ⟨a, ⟨x, hx, rfl⟩, rfl⟩
      exact ⟨x, hx, hvu x hx⟩
  have hinj : Set.InjOn v.find ((Finset.range u.size).image u.find) := by
    intro a ha b hb hab
    simp only [Finset.coe_image, Finset.coe_range, Set.mem_image, Set.mem_Iio] at ha hb
    rcases ha with ⟨x, hx, rfl⟩
    rcases hb with ⟨y, hy, rfl⟩
    have h1 : v.rel (u.find x) (u.find y) := hab
    have h2 : u.rel (u.find x) (u.find y) :=
      (hrel _ _ (UnionFind.find_lt hu hx) (UnionFind.find_lt hu hy)).2 h1
    unfold UnionFind.rel at h2
    rw [UnionFind.find_idem hu hx, UnionFind.find_idem hu hy] at h2
    exact h2
  rw [hu.2.2, hv.2.2, ← hsize, himg, Finset.card_image_of_injOn hinj]

/-! ### The triangular grid -/

/-- Cell coordinate `(r, c)`. -/
abbrev Cell := Nat × Nat

/-- Translation of `GameGrid.getNeighbors`: vertical neighbours when in range,
and one horizontal neighbour selected by the parity of `r + c`. -/
def getNeighbors (rows cols : Nat) (x : Cell) : List Cell :=
  (if x.1 > 0 then [(x.1 - 1, x.2)] else []) ++
  (if x.1 < rows - 1 then [(x.1 + 1, x.2)] else []) ++
  (if (x.1 + x.2) % 2 = 0 then
    (if x.2 > 0 then [(x.1, x.2 - 1)] else [])
  else
    (if x.2 < cols - 1 then [(x.1, x.2 + 1)] else []))

/-- Bounds predicate for a cell. -/
def inBounds (rows cols : Nat) (x : Cell) : Prop := x.1 < rows ∧ x.2 < cols

instance (rows cols : Nat) (x : Cell) : Decidable (inBounds rows cols x) := by
  unfold inBounds
  infer_instance

theorem mem_getNeighbors_iff {rows cols : Nat} {x y : Cell} :
    y ∈ getNeighbors rows cols x ↔
      (0 < x.1 ∧ y.1 = x.1 - 1 ∧ y.2 = x.2) ∨
      (x.1 < rows - 1 ∧ y.1 = x.1 + 1 ∧ y.2 = x.2) ∨
      ((x.1 + x.2) % 2 = 0 ∧ 0 < x.2 ∧ y.1 = x.1 ∧ y.2 = x.2 - 1) ∨
      ((x.1 + x.2) % 2 ≠ 0 ∧ x.2 < cols - 1 ∧ y.1 = x.1 ∧ y.2 = x.2 + 1) := by
  unfold getNeighbors
  by_cases h1 : 0 < x.1 <;> by_cases h2 : x.1 < rows - 1 <;>
    by_cases h3 : (x.1 + x.2) % 2 = 0 <;>
    by_cases h4 : 0 < x.2 <;> by_cases h5 : x.2 < cols - 1 <;>
    simp [h1, h2, h3, h4, h5, Prod.ext_iff] <;> tauto

theorem getNeighbors_inBounds {rows cols : Nat} {x y : Cell}
    (hx : inBounds rows cols x) (hy : y ∈ getNeighbors rows cols x) :
    inBounds rows cols y := by
  rcases hx with ⟨hr, hc⟩
  rcases mem_getNeighbors_iff.1 hy with ⟨h, e1, e2⟩ | ⟨h, e1, e2⟩ | ⟨h, h', e1, e2⟩ | ⟨h, h', e1, e2⟩ <;>
    exact ⟨by omega, by omega⟩

theorem getNeighbors_ne_self {rows cols : Nat} {x y : Cell}
    (hy : y ∈ getNeighbors rows cols x) : y ≠ x := by
  rcases mem_getNeighbors_iff.1 hy with ⟨h, e1, e2⟩ | ⟨h, e1, e2⟩ | ⟨h, h', e1, e2⟩ | ⟨h, h', e1, e2⟩ <;>
    (intro hcon; rw [hcon] at e1 e2; omega)

/-- Adjacency is symmetric on in-bounds cells. -/
theorem getNeighbors_symm {rows cols : Nat} {x y : Cell}
    (hx : inBounds rows cols x) (hy : inBounds rows cols y)
    (h : y ∈ getNeighbors rows cols x) : x ∈ getNeighbors rows cols y := by
  rcases hx with ⟨hr, hc⟩
  rcases hy with ⟨hr', hc'⟩
  rw [mem_getNeighbors_iff] at h
  rw [mem_getNeighbors_iff]
  rcases h with ⟨h, e1, e2⟩ | ⟨h, e1, e2⟩ | ⟨h, h', e1, e2⟩ | ⟨h, h', e1, e2⟩
  · exact Or.inr (Or.inl (by omega))
  · exact Or.inl (by omega)
  · exact Or.inr (Or.inr (Or.inr (by omega)))
  · exact Or.inr (Or.inr (Or.inl (by omega)))

/-! ### Colors, encoding and the same-region relation -/

/-- Optional color read, `grid[c]?.[r]` in the source (`none` is `undefined`). -/
def cellColor? (grid : List (List Nat)) (r c : Nat) : Option Nat :=
  grid[c]?.bind (fun col => col[r]?)

/-- Total color read defaulting to 0, used for stating connectivity. -/
def colorAt (grid : List (List Nat)) (x : Cell) : Nat :=
  (cellColor? grid x.1 x.2).getD 0

/-- Translation of `GameGrid.getColorIndex`: `this.grid[c]?.[r] ?? 0` with
arbitrary (possibly negative) `Int` coordinates; a JS array read at a negative
or too-large index is `undefined`, hence the `?? 0` default. -/
def getColorIndex (grid : List (List Nat)) (r c : Int) : Nat :=
  if 0 ≤ r ∧ 0 ≤ c then (cellColor? grid r.toNat c.toNat).getD 0 else 0

/-- Shape well-formedness of a color array: `colCount` columns of `rowCount`
entries each (spec §3). -/
def GridWF (rows cols : Nat) (grid : List (List Nat)) : Prop :=
  grid.length = cols ∧ ∀ col ∈ grid, col.length = rows

theorem cellColor?_eq_some {rows cols : Nat} {grid : List (List Nat)}
    (hWF : GridWF rows cols grid) {x : Cell} (hx : inBounds rows cols x) :
    ∃ v, cellColor? grid x.1 x.2 = some v := by
  rcases hx with ⟨hr, hc⟩
  have hc' : x.2 < grid.length := by rw [hWF.1]; exact hc
  rcases List.getElem?_eq_getElem hc' with hcol
  refine ⟨grid[x.2].getD x.1 0, ?_⟩
  unfold cellColor?
  rw [hcol]
  have hlen : grid[x.2].length = rows := hWF.2 _ (List.getElem_mem hc')
  have hr' : x.1 < grid[x.2].length := by rw [hlen]; exact hr
  simp [List.getElem?_eq_getElem hr', List.getD_eq_getElem?_getD,
    List.getElem?_eq_getElem hr']

theorem colorAt_eq_of_cellColor {grid : List (List Nat)} {x : Cell} {v : Nat}
    (h : cellColor? grid x.1 x.2 = some v) : colorAt grid x = v := by
  unfold colorAt
  rw [h]
  rfl

/-- Cell index used by `GameGrid` (`idx = r * cols + c`). -/
def encodeCell (cols : Nat) (x : Cell) : Nat := x.1 * cols + x.2

/-- Inverse of `encodeCell` on in-bounds cells. -/
def decodeCell (cols : Nat) (i : Nat) : Cell := (i / cols, i % cols)

theorem decode_encode {cols : Nat} {x : Cell} (hx : x.2 < cols) :
    decodeCell cols (encodeCell cols x) = x := by
  have hcols : 0 < cols := by omega
  unfold decodeCell encodeCell
  have h1 : (x.1 * cols + x.2) / cols = x.1 := by
    rw [Nat.mul_comm x.1 cols, Nat.mul_add_div hcols, Nat.div_eq_of_lt hx]
    omega
  have h3 : (x.1 * cols + x.2) % cols = x.2 := by
    rw [Nat.add_mod, Nat.mul_mod_left]
    simp [Nat.mod_eq_of_lt hx]
  rw [h1, h3]

theorem encode_lt {rows cols : Nat} {x : Cell} (hx : inBounds rows cols x) :
    encodeCell cols x < rows * cols := by
  rcases hx with ⟨hr, hc⟩
  unfold encodeCell
  calc x.1 * cols + x.2 < x.1 * cols + cols := by omega
  _ = (x.1 + 1) * cols := by ring
  _ ≤ rows * cols := Nat.mul_le_mul_right _ (by omega)

theorem decode_inBounds {rows cols i : Nat} (h : i < rows * cols) :
    inBounds rows cols (decodeCell cols i) := by
  have hcols : 0 < cols := by
    rcases Nat.eq_zero_or_pos cols with rfl | h' <;> [omega; exact h']
  constructor
  · show i / cols < rows
    exact Nat.div_lt_of_lt_mul (by rw [Nat.mul_comm]; exact h)
  · exact Nat.mod_lt _ hcols

theorem encode_decode {cols i : Nat} (hcols : 0 < cols) :
    encodeCell cols (decodeCell cols i) = i := by
  show (i / cols) * cols + i % cols = i
  rw [Nat.mul_comm]
  exact Nat.div_add_mod i cols

/-- Generator of same-region connectivity: an in-bounds equal-color
neighbour step. -/
def adjSame (rows cols : Nat) (grid : List (List Nat)) (x y : Cell) : Prop :=
  inBounds rows cols x ∧ inBounds rows cols y ∧ y ∈ getNeighbors rows cols x ∧
    colorAt grid x = colorAt grid y

/-- Two cells lie in the same maximal same-color region (spec glossary:
"maximal set of same-color, edge-connected cells"). -/
def sameRegion (rows cols : Nat) (grid : List (List Nat)) : Cell → Cell → Prop :=
  Relation.EqvGen (adjSame rows cols grid)

theorem sameRegion.refl (rows cols : Nat) (grid : List (List Nat)) (x : Cell) :
    sameRegion rows cols grid x x := Relation.EqvGen.refl x

theorem sameRegion.symm {rows cols : Nat} {grid : List (List Nat)} {x y : Cell}
    (h : sameRegion rows cols grid x y) : sameRegion rows cols grid y x :=
  Relation.EqvGen.symm x y h

theorem sameRegion.trans {rows cols : Nat} {grid : List (List Nat)} {x y z : Cell}
    (h1 : sameRegion rows cols grid x y) (h2 : sameRegion rows cols grid y z) :
    sameRegion rows cols grid x z := Relation.EqvGen.trans x y z h1 h2

theorem sameRegion_color {rows cols : Nat} {grid : List (List Nat)} {x y : Cell}
    (h : sameRegion rows cols grid x y) : colorAt grid x = colorAt grid y := by
  induction h with
  | rel a b hab => exact hab.2.2.2
  | refl a => rfl
  | symm a b _ ih => exact ih.symm
  | trans a b c _ _ ih1 ih2 => exact ih1.trans ih2

theorem sameRegion_bounds {rows cols : Nat} {grid : List (List Nat)} {x y : Cell}
    (h : sameRegion rows cols grid x y) :
    x = y ∨ (inBounds rows cols x ∧ inBounds rows cols y) := by
  induction h with
  | rel a b hab => exact Or.inr ⟨hab.1, hab.2.1⟩
  | refl a => exact Or.inl rfl
  | symm a b _ ih => rcases ih with h | ⟨h1, h2⟩ <;> [exact Or.inl h.symm; exact Or.inr ⟨h2, h1⟩]
  | trans a b c _ _ ih1 ih2 =>
    rcases ih1 with rfl | ⟨h1, h2⟩
    · exact ih2
    · rcases ih2 with rfl | ⟨h3, h4⟩
      · exact Or.inr ⟨h1, h2⟩
      · exact Or.inr ⟨h1, h4⟩

/-! ### `GameGrid.buildUnionFind` -/

/-- Union calls issued by `GameGrid.buildUnionFind`'s scan, in scan order: for
every cell `(r, c)` (row-major), for every neighbour `n` that is in bounds and
defined, a union when the colors agree.  The source interleaves the `union`
calls with this scan; the scan reads only the immutable grid, so folding the
unions over this explicit list is the same sequence of calls. -/
def ufPairs (rows cols : Nat) (grid : List (List Nat)) : List (Nat × Nat) :=
  (List.range rows).flatMap (fun r =>
    (List.range cols).flatMap (fun c =>
      match cellColor? grid r c with
      | none => []
      | some col =>
        (getNeighbors rows cols (r, c)).filterMap (fun n =>
          if n.1 < rows ∧ n.2 < cols then
            match cellColor? grid n.1 n.2 with
            | none => none
            | some ncol =>
              if col = ncol then some (r * cols + c, n.1 * cols + n.2) else none
          else none)))

/-- Translation of `GameGrid.buildUnionFind` (defensive guard included). -/
def buildUF (rows cols : Nat) (grid : List (List Nat)) : UnionFind :=
  if grid.length = 0 ∨ grid.length < cols ∨
      (grid.headD []).length = 0 ∨ (grid.headD []).length < rows then
    UnionFind.init (rows * cols)
  else
    unionPairs (UnionFind.init (rows * cols)) (ufPairs rows cols grid)

theorem mem_ufPairs_iff {rows cols : Nat} {grid : List (List Nat)} {p : Nat × Nat} :
    p ∈ ufPairs rows cols grid ↔
      ∃ x n : Cell, x.1 < rows ∧ x.2 < cols ∧ n.1 < rows ∧ n.2 < cols ∧
        n ∈ getNeighbors rows cols x ∧
        (∃ col, cellColor? grid x.1 x.2 = some col ∧ cellColor? grid n.1 n.2 = some col) ∧
        p = (encodeCell cols x, encodeCell cols n) := by
  unfold ufPairs
  simp only [List.mem_flatMap, List.mem_range]
  constructor
  · rintro ⟨r, hr, c, hc, hp⟩
    rcases hcol : cellColor? grid r c with _ | col <;> rw [hcol] at hp
    · exact absurd hp (List.not_mem_nil p)
    · rcases List.mem_filterMap.1 hp with ⟨n, hn, hsome⟩
      by_cases hb : n.1 < rows ∧ n.2 < cols
      · rw [if_pos hb] at hsome
        rcases hncol : cellColor? grid n.1 n.2 with _ | ncol <;> rw [hncol] at hsome
        · exact Option.noConfusion hsome
        · have hsome2 : (if col = ncol then
              some (r * cols + c, n.1 * cols + n.2) else none) = some p := hsome
          by_cases heq : col = ncol
          · rw [if_pos heq] at hsome2
            refine ⟨(r, c), n, hr, hc, hb.1, hb.2, hn, ⟨col, hcol, ?_⟩, ?_⟩
            · rw [hncol, heq]
            · exact (Option.some_inj.1 hsome2).symm
          · rw [if_neg heq] at hsome2
            exact Option.noConfusion hsome2
      · rw [if_neg hb] at hsome
        exact Option.noConfusion hsome
  · rintro ⟨x, n, hxr, hxc, hnr, hnc, hn, ⟨col, hcol, hncol⟩, rfl⟩
    refine ⟨x.1, hxr, x.2, hxc, ?_⟩
    rw [hcol]
    refine List.mem_filterMap.2 ⟨n, hn, ?_⟩
    rw [if_pos ⟨hnr, hnc⟩, hncol]
    show (if col = col then
        some (x.1 * cols + x.2, n.1 * cols + n.2) else none) = some _
    rw [if_pos rfl]
    rfl

/-! ### The `GameGrid` class -/

/-- Translation of the `GameGrid` class state: dimensions, color count, the
column-major color array `grid[c][r]`, and the maintained Union-Find. -/
structure GameGrid where
  vside_rows : Nat
  cols : Nat
  colorCount : Nat
  grid : List (List Nat)
  uf : UnionFind
deriving Repr, DecidableEq

/-- Derived row count `2 * vside_rows + 1`. -/
def GameGrid.rows (g : GameGrid) : Nat := 2 * g.vside_rows + 1

/-- Translation of the `GameGrid` constructor: optional initial array
(otherwise zero-filled), `colorCount` clamped to at least 1, and the
Union-Find rebuilt from scratch by `buildUnionFind`. -/
def GameGrid.make (vside_rows cols colorCount : Nat)
    (grid? : Option (List (List Nat))) : GameGrid :=
  let rows := 2 * vside_rows + 1
  let grid := grid?.getD (List.replicate cols (List.replicate rows 0))
  { vside_rows := vside_rows, cols := cols, colorCount := max 1 colorCount,
    grid := grid, uf := buildUF rows cols grid }

/-- Method form of `buildUnionFind`. -/
def GameGrid.buildUnionFind (g : GameGrid) : UnionFind :=
  buildUF g.rows g.cols g.grid

/-- Translation of `GameGrid.getRegionCount`: the maintained Union-Find's
live count. -/
def GameGrid.getRegionCount (g : GameGrid) : Nat := g.uf.count

/-- Serialized snapshot shape (§6): either `colorCount` (current format) or
`colors` (legacy format) may be present. -/
structure GridSnapshot where
  rows : Nat
  cols : Nat
  colorCount : Option Nat
  colors : Option (List String)
  grid : List (List Nat)
deriving Repr

/-- Translation of `GameGrid.toJSON`: emits `rows`, `cols`, `colorCount` and a
copy of `grid`; never emits `colors`. -/
def GameGrid.toJSON (g : GameGrid) : GridSnapshot :=
  { rows := g.rows, cols := g.cols, colorCount := some g.colorCount,
    colors := none, grid := g.grid.map (fun col => col.map (fun v => v)) }

/-- Translation of `GameGrid.fromJSON`: `vside_rows = (rows - 1) >> 1` and
`colorCount = colors?.length ?? colorCount ?? 1`. -/
def GameGrid.fromJSON (d : GridSnapshot) : GameGrid :=
  let vside := (d.rows - 1) / 2
  let colorCount :=
    match d.colors with
    | some cs => cs.length
    | none => d.colorCount.getD 1
  GameGrid.make vside d.cols colorCount (some (d.grid.map (fun col => col.map (fun v => v))))

/-! ### Union-Find / grid consistency -/

/-- A Union-Find state is consistent with a color array when it is well
formed, has one element per cell, and its partition is exactly same-color
connectivity (spec §3: "always consistent with the current color array"). -/
def UFConsistent (rows cols : Nat) (grid : List (List Nat)) (u : UnionFind) : Prop :=
  u.WF ∧ u.size = rows * cols ∧
  ∀ x y : Cell, inBounds rows cols x → inBounds rows cols y →
    (u.rel (encodeCell cols x) (encodeCell cols y) ↔ sameRegion rows cols grid x y)

theorem ufPairs_bounded {rows cols : Nat} {grid : List (List Nat)} {p : Nat × Nat}
    (hp : p ∈ ufPairs rows cols grid) : p.1 < rows * cols ∧ p.2 < rows * cols := by
  rcases mem_ufPairs_iff.1 hp with ⟨x, n, hxr, hxc, hnr, hnc, _, _, rfl⟩
  exact ⟨encode_lt ⟨hxr, hxc⟩, encode_lt ⟨hnr, hnc⟩⟩

/-- The Union-Find built by `buildUnionFind` is consistent with the grid. -/
theorem buildUF_consistent {rows cols : Nat} {grid : List (List Nat)}
    (hWF : GridWF rows cols grid) : UFConsistent rows cols grid (buildUF rows cols grid) := by
  by_cases hdeg : rows = 0 ∨ cols = 0
  · have htot : rows * cols = 0 := by rcases hdeg with rfl | rfl <;> simp
    have hvac : ∀ x : Cell, inBounds rows cols x → False := by
      rintro x ⟨h1, h2⟩
      rcases hdeg with rfl | rfl <;> omega
    constructor
    · unfold buildUF
      by_cases hguard : grid.length = 0 ∨ grid.length < cols ∨
          (grid.headD []).length = 0 ∨ (grid.headD []).length < rows
      · rw [if_pos hguard]; exact UnionFind.init_WF _
      · rw [if_neg hguard]
        exact unionPairs_WF (UnionFind.init_WF _)
          (fun p hp => by
            have := ufPairs_bounded hp
            constructor <;> simp [UnionFind.init] <;> omega)
    · constructor
      · unfold buildUF
        by_cases hguard : grid.length = 0 ∨ grid.length < cols ∨
            (grid.headD []).length = 0 ∨ (grid.headD []).length < rows
        · rw [if_pos hguard]; rfl
        · rw [if_neg hguard]
          rw [unionPairs_size]
          rfl
      · intro x y hx hy
        exact absurd hx (fun h => hvac x h)
  · push_neg at hdeg
    have hrows : 0 < rows := Nat.pos_of_ne_zero hdeg.1
    have hcols : 0 < cols := Nat.pos_of_ne_zero hdeg.2
    have hguard : ¬(grid.length = 0 ∨ grid.length < cols ∨
        (grid.headD []).length = 0 ∨ (grid.headD []).length < rows) := by
      have hlen : grid.length = cols := hWF.1
      have hhead : (grid.headD []).length = rows := by
        have hne : grid ≠ [] := by
          intro hcon
          rw [hcon] at hlen
          simp at hlen
          omega
        rcases grid with _ | ⟨c0, rest⟩
        · exact absurd rfl hne
        · exact hWF.2 c0 (List.mem_cons_self _ _)
      push_neg
      refine ⟨by omega, by omega, by omega, by omega⟩
    unfold buildUF
    rw [if_neg hguard]
    have hinitWF := UnionFind.init_WF (rows * cols)
    have hbounded : ∀ p ∈ ufPairs rows cols grid,
        p.1 < (UnionFind.init (rows * cols)).size ∧
        p.2 < (UnionFind.init (rows * cols)).size := by
      intro p hp
      have := ufPairs_bounded hp
      constructor <;> simp [UnionFind.init] <;> omega
    refine ⟨unionPairs_WF hinitWF hbounded, by rw [unionPairs_size]; rfl, ?_⟩
    intro x y hx hy
    constructor
    · intro hrel
      have hsub := unionPairs_rel_subset hinitWF hbounded
        (E := fun a b => sameRegion rows cols grid (decodeCell cols a) (decodeCell cols b))
        (fun a b h => sameRegion.symm h)
        (fun a b c h1 h2 => sameRegion.trans h1 h2)
        (fun a b h => by
          have : a = b := by
            have := UnionFind.init_find (rows * cols) a
            have := UnionFind.init_find (rows * cols) b
            unfold UnionFind.rel at h
            omega
          rw [this]
          exact sameRegion.refl _ _ _ _)
        (fun p hp => by
          rcases mem_ufPairs_iff.1 hp with ⟨a, n, har, hac, hnr, hnc, hn, ⟨col, hcol, hncol⟩, rfl⟩
          have hda : decodeCell cols (encodeCell cols a) = a := decode_encode hac
          have hdn : decodeCell cols (encodeCell cols n) = n := decode_encode hnc
          show sameRegion rows cols grid (decodeCell cols (encodeCell cols a))
            (decodeCell cols (encodeCell cols n))
          rw [hda, hdn]
          exact Relation.EqvGen.rel _ _ ⟨⟨har, hac⟩, ⟨hnr, hnc⟩, hn,
            by rw [colorAt_eq_of_cellColor hcol, colorAt_eq_of_cellColor hncol]⟩)
      have hthis : sameRegion rows cols grid (decodeCell cols (encodeCell cols x))
          (decodeCell cols (encodeCell cols y)) := hsub _ _ hrel
      rwa [decode_encode hx.2, decode_encode hy.2] at hthis
    · intro hsame
      clear hx hy
      induction hsame with
      | rel a b hab =>
        have hpmem : (encodeCell cols a, encodeCell cols b) ∈ ufPairs rows cols grid := by
          rcases cellColor?_eq_some hWF hab.1 with ⟨ca, hca⟩
          rcases cellColor?_eq_some hWF hab.2.1 with ⟨cb, hcb⟩
          refine mem_ufPairs_iff.2 ⟨a, b, hab.1.1, hab.1.2, hab.2.1.1, hab.2.1.2,
            hab.2.2.1, ⟨ca, hca, ?_⟩, rfl⟩
          have h1 : colorAt grid a = ca := colorAt_eq_of_cellColor hca
          have h2 : colorAt grid b = cb := colorAt_eq_of_cellColor hcb
          have h3 := hab.2.2.2
          rw [hcb]
          congr 1
          omega
        exact unionPairs_rel_of_mem hinitWF hbounded hpmem
      | refl a => exact UnionFind.rel_refl _ _
      | symm a b _ ih => exact UnionFind.rel_symm ih
      | trans a b c _ _ ih1 ih2 => exact UnionFind.rel_trans ih1 ih2

/-- Method form of `getColorIndex` on a `GameGrid`. -/
def GameGrid.getColorIndex (g : GameGrid) (r c : Int) : Nat :=
  Kami2.getColorIndex g.grid r c

/-- Spec §3 Grid invariants: exact array shape, and a Union-Find consistent
with the current color array. -/
def GameGrid.WF (g : GameGrid) : Prop :=
  GridWF g.rows g.cols g.grid ∧ UFConsistent g.rows g.cols g.grid g.uf

/-- Out-of-bounds reads default to color index 0. -/
theorem getColorIndex_oob {g : GameGrid} (hWF : GridWF g.rows g.cols g.grid)
    {r c : Int} (h : r < 0 ∨ (g.rows : Int) ≤ r ∨ c < 0 ∨ (g.cols : Int) ≤ c) :
    g.getColorIndex r c = 0 := by
  unfold GameGrid.getColorIndex Kami2.getColorIndex
  by_cases hpos : 0 ≤ r ∧ 0 ≤ c
  · rw [if_pos hpos]
    rcases h with h | h | h | h
    · omega
    · -- row index too large: the column (if any) has length `rows`
      have hr : g.rows ≤ r.toNat := by omega
      unfold cellColor?
      rcases hcol : g.grid[c.toNat]? with _ | col
      · rfl
      · have hmem : col ∈ g.grid := by
          rcases List.getElem?_eq_some_iff.1 hcol with ⟨hlt, hget⟩
          rw [← hget]
          exact List.getElem_mem hlt
        have hlen : col.length = g.rows := hWF.2 col hmem
        have : col[r.toNat]? = none := by
          rw [List.getElem?_eq_none_iff, hlen]
          exact hr
        simp [this]
    · omega
    · have hc : g.grid.length ≤ c.toNat := by rw [hWF.1]; omega
      unfold cellColor?
      have : g.grid[c.toNat]? = none := List.getElem?_eq_none_iff.2 hc
      simp [this]
  · rw [if_neg hpos]

/-- Two Union-Find states consistent with the same grid have equal counts. -/
theorem consistent_count_eq {rows cols : Nat} {grid : List (List Nat)}
    {u v : UnionFind} (hu : UFConsistent rows cols grid u)
    (hv : UFConsistent rows cols grid v) : u.count = v.count := by
  refine UnionFind.count_eq_of_equiv hu.1 hv.1 (hu.2.1.trans hv.2.1.symm) ?_
  intro a b ha hb
  rw [hu.2.1] at ha hb
  by_cases hcols : 0 < cols
  · have hda := decode_inBounds ha
    have hdb := decode_inBounds hb
    have hea : encodeCell cols (decodeCell cols a) = a := encode_decode hcols
    have heb : encodeCell cols (decodeCell cols b) = b := encode_decode hcols
    rw [← hea, ← heb, hu.2.2 _ _ hda hdb, hv.2.2 _ _ hda hdb]
  · have hc0 : cols = 0 := by omega
    rw [hc0, Nat.mul_zero] at ha
    omega

theorem map_self_id (l : List (List Nat)) : l.map (fun col => col.map (fun v => v)) = l := by
  simp

/-- Field-level description of the serialization round trip. -/
theorem fromJSON_toJSON_fields (g : GameGrid) :
    (GameGrid.fromJSON (GameGrid.toJSON g)).grid = g.grid ∧
    (GameGrid.fromJSON (GameGrid.toJSON g)).vside_rows = g.vside_rows ∧
    (GameGrid.fromJSON (GameGrid.toJSON g)).cols = g.cols ∧
    (GameGrid.fromJSON (GameGrid.toJSON g)).colorCount = max 1 g.colorCount ∧
    (GameGrid.fromJSON (GameGrid.toJSON g)).uf = buildUF g.rows g.cols g.grid := by
  have hvside : (2 * g.vside_rows + 1 - 1) / 2 = g.vside_rows := by omega
  unfold GameGrid.fromJSON GameGrid.toJSON GameGrid.make GameGrid.rows
  simp [map_self_id, hvside]

/-- A freshly constructed grid (with a well-shaped initial array) satisfies the
data-model invariants. -/
theorem make_WF_of_grid {v cols cc : Nat} {grid : List (List Nat)}
    (hg : GridWF (2 * v + 1) cols grid) : (GameGrid.make v cols cc (some grid)).WF := by
  refine ⟨hg, ?_⟩
  exact buildUF_consistent hg

theorem replicate_GridWF (rows cols : Nat) :
    GridWF rows cols (List.replicate cols (List.replicate rows 0)) := by
  constructor
  · simp
  · intro col hcol
    rw [List.eq_of_mem_replicate hcol]
    simp

/-- A freshly constructed default (all-zero) grid satisfies the invariants. -/
theorem make_WF_default (v cols cc : Nat) : (GameGrid.make v cols cc none).WF :=
  make_WF_of_grid (replicate_GridWF (2 * v + 1) cols)

/-! ### `GameGrid.floodFill` -/

/-- Enumeration of all in-bounds cells. -/
def allCells (rows cols : Nat) : List Cell :=
  (List.range rows).flatMap (fun r => (List.range cols).map (fun c => (r, c)))

theorem mem_allCells {rows cols : Nat} {x : Cell} :
    x ∈ allCells rows cols ↔ inBounds rows cols x := by
  unfold allCells inBounds
  simp only [List.mem_flatMap, List.mem_range, List.mem_map]
  constructor
  · rintro ⟨r, hr, c, hc, rfl⟩
    exact ⟨hr, hc⟩
  · rintro ⟨h1, h2⟩
    exact ⟨x.1, h1, x.2, h2, rfl⟩

theorem filter_length_mono {α : Type} (l : List α) (p q : α → Bool)
    (himp : ∀ x, q x = true → p x = true) :
    (l.filter q).length ≤ (l.filter p).length := by
  induction l with
  | nil => exact Nat.le_refl _
  | cons a l ih =>
    by_cases hq : q a = true
    · rw [List.filter_cons_of_pos hq, List.filter_cons_of_pos (himp a hq)]
      simpa using ih
    · rw [List.filter_cons_of_neg (by simpa using hq)]
      by_cases hp : p a = true
      · rw [List.filter_cons_of_pos hp]
        exact Nat.le_succ_of_le ih
      · rw [List.filter_cons_of_neg (by simpa using hp)]
        exact ih

theorem filter_length_lt {α : Type} (l : List α) (p q : α → Bool)
    (himp : ∀ x, q x = true → p x = true) (n : α) (hn : n ∈ l)
    (hpn : p n = true) (hqn : ¬q n = true) :
    (l.filter q).length < (l.filter p).length := by
  induction l with
  | nil => cases hn
  | cons a l ih =>
    rcases List.mem_cons.1 hn with rfl | hmem
    · rw [List.filter_cons_of_pos hpn, List.filter_cons_of_neg (by simpa using hqn)]
      exact Nat.lt_succ_of_le (filter_length_mono l p q himp)
    · by_cases hq : q a = true
      · rw [List.filter_cons_of_pos hq, List.filter_cons_of_pos (himp a hq)]
        simpa using ih hmem
      · rw [List.filter_cons_of_neg (by simpa using hq)]
        by_cases hp : p a = true
        · rw [List.filter_cons_of_pos hp]
          exact Nat.lt_succ_of_le (Nat.le_of_lt (ih hmem))
        · rw [List.filter_cons_of_neg (by simpa using hp)]
          exact ih hmem

/-- Working state of `floodFill`'s BFS: the mutated grid and Union-Find, the
`visited` set, and the cells pushed while scanning the current cell's
neighbours. -/
structure FFState where
  grid : List (List Nat)
  uf : UnionFind
  visited : List Cell
  pushed : List Cell

/-- In-place write `g[c][r] = v` (no-op out of range; the source only writes
in-bounds cells of a well-formed grid). -/
def setCell (grid : List (List Nat)) (x : Cell) (v : Nat) : List (List Nat) :=
  grid.set x.2 ((grid.getD x.2 []).set x.1 v)

/-- Discovery branch of `floodFill`'s BFS: recolor `n` to the new color, union
it with the current cell and then with every neighbour currently holding the
new color, and mark and push it. -/
def ffPush (rows cols newC : Nat) (curr : Cell) (st : FFState) (n : Cell) : FFState :=
  let g2 := setCell st.grid n newC
  let u2 := st.uf.union (encodeCell cols curr) (encodeCell cols n)
  let u3 := (getNeighbors rows cols n).foldl (fun uu nb =>
    if (nb.1 < rows ∧ nb.2 < cols) ∧ cellColor? g2 nb.1 nb.2 = some newC then
      uu.union (encodeCell cols n) (encodeCell cols nb)
    else uu) u2
  ⟨g2, u3, st.visited ++ [n], st.pushed ++ [n]⟩

/-- Body of `floodFill`'s BFS for one neighbour `n` of the current cell: skip
when visited, out of bounds, undefined, or not the old color; otherwise
discover `n` via `ffPush`. -/
def ffVisit (rows cols oldC newC : Nat) (curr : Cell) (st : FFState) (n : Cell) : FFState :=
  if n ∈ st.visited then st
  else if ¬(n.1 < rows ∧ n.2 < cols) then st
  else
    match cellColor? st.grid n.1 n.2 with
    | none => st
    | some colN => if colN = oldC then ffPush rows cols newC curr st n else st

theorem ffVisit_eq_push {rows cols oldC newC : Nat} {curr : Cell} {st : FFState}
    {n : Cell} (h1 : n ∉ st.visited) (h2 : n.1 < rows ∧ n.2 < cols)
    (hc : cellColor? st.grid n.1 n.2 = some oldC) :
    ffVisit rows cols oldC newC curr st n = ffPush rows cols newC curr st n := by
  unfold ffVisit
  rw [if_neg h1, if_neg (by tauto), hc]
  show (if oldC = oldC then ffPush rows cols newC curr st n else st) = _
  rw [if_pos rfl]

theorem ffVisit_eq_skip_visited {rows cols oldC newC : Nat} {curr : Cell}
    {st : FFState} {n : Cell} (h1 : n ∈ st.visited) :
    ffVisit rows cols oldC newC curr st n = st := by
  unfold ffVisit
  rw [if_pos h1]

theorem ffVisit_eq_skip_oob {rows cols oldC newC : Nat} {curr : Cell}
    {st : FFState} {n : Cell} (h1 : n ∉ st.visited) (h2 : ¬(n.1 < rows ∧ n.2 < cols)) :
    ffVisit rows cols oldC newC curr st n = st := by
  unfold ffVisit
  rw [if_neg h1, if_pos h2]

theorem ffVisit_eq_skip_none {rows cols oldC newC : Nat} {curr : Cell}
    {st : FFState} {n : Cell} (h1 : n ∉ st.visited) (h2 : n.1 < rows ∧ n.2 < cols)
    (hc : cellColor? st.grid n.1 n.2 = none) :
    ffVisit rows cols oldC newC curr st n = st := by
  unfold ffVisit
  rw [if_neg h1, if_neg (by tauto), hc]

theorem ffVisit_eq_skip_color {rows cols oldC newC : Nat} {curr : Cell}
    {st : FFState} {n : Cell} (h1 : n ∉ st.visited) (h2 : n.1 < rows ∧ n.2 < cols)
    {colN : Nat} (hc : cellColor? st.grid n.1 n.2 = some colN) (h3 : colN ≠ oldC) :
    ffVisit rows cols oldC newC curr st n = st := by
  unfold ffVisit
  rw [if_neg h1, if_neg (by tauto), hc]
  show (if colN = oldC then ffPush rows cols newC curr st n else st) = _
  rw [if_neg h3]

/-- Exhaustive case description of one `ffVisit` step. -/
theorem ffVisit_cases (rows cols oldC newC : Nat) (curr : Cell) (st : FFState)
    (n : Cell) :
    ffVisit rows cols oldC newC curr st n = st ∨
      (n ∉ st.visited ∧ (n.1 < rows ∧ n.2 < cols) ∧
        cellColor? st.grid n.1 n.2 = some oldC ∧
        ffVisit rows cols oldC newC curr st n = ffPush rows cols newC curr st n) := by
  by_cases h1 : n ∈ st.visited
  · exact Or.inl (ffVisit_eq_skip_visited h1)
  · by_cases h2 : n.1 < rows ∧ n.2 < cols
    · rcases hc : cellColor? st.grid n.1 n.2 with _ | colN
      · exact Or.inl (ffVisit_eq_skip_none h1 h2 hc)
      · by_cases h3 : colN = oldC
        · subst h3
          exact Or.inr ⟨h1, h2, rfl, ffVisit_eq_push h1 h2 hc⟩
        · exact Or.inl (ffVisit_eq_skip_color h1 h2 hc h3)
    · exact Or.inl (ffVisit_eq_skip_oob h1 h2)

/-- Search-budget measure for the BFS: unvisited in-bounds cells plus the
pending pushes. -/
def ffMeasure (rows cols : Nat) (st : FFState) : Nat :=
  ((allCells rows cols).filter (fun x => decide (¬x ∈ st.visited))).length + st.pushed.length

theorem ffVisit_measure (rows cols oldC newC : Nat) (curr : Cell) (st : FFState) (n : Cell) :
    ffMeasure rows cols (ffVisit rows cols oldC newC curr st n) ≤ ffMeasure rows cols st := by
  rcases ffVisit_cases rows cols oldC newC curr st n with heq | ⟨h1, h2, hc, heq⟩
  · rw [heq]
  · rw [heq]
    show ffMeasure rows cols ⟨_, _, st.visited ++ [n], st.pushed ++ [n]⟩ ≤ _
    unfold ffMeasure
    simp only [List.length_append, List.length_cons, List.length_nil]
    have hlt : ((allCells rows cols).filter
          (fun x => decide (¬x ∈ st.visited ++ [n]))).length
        < ((allCells rows cols).filter (fun x => decide (¬x ∈ st.visited))).length := by
      refine filter_length_lt _ _ _ ?_ n ?_ ?_ ?_
      · intro x hx
        simp only [decide_eq_true_eq] at hx ⊢
        intro hmem
        exact hx (List.mem_append_left _ hmem)
      · rw [mem_allCells]
        exact ⟨by omega, by omega⟩
      · simpa using h1
      · simp
    omega

theorem ffFold_measure (rows cols oldC newC : Nat) (curr : Cell) (ns : List Cell)
    (st : FFState) :
    ffMeasure rows cols (ns.foldl (ffVisit rows cols oldC newC curr) st)
      ≤ ffMeasure rows cols st := by
  induction ns generalizing st with
  | nil => exact Nat.le_refl _
  | cons a ns ih =>
    rw [List.foldl_cons]
    exact Nat.le_trans (ih _) (ffVisit_measure rows cols oldC newC curr st a)

/-- BFS work-queue loop of `floodFill` (the `while (queue.length > 0)` loop). -/
def ffLoop (rows cols oldC newC : Nat) (grid : List (List Nat)) (uf : UnionFind)
    (visited : List Cell) (queue : List Cell) : List (List Nat) × UnionFind :=
  match queue with
  | [] => (grid, uf)
  | curr :: rest =>
    let st := (getNeighbors rows cols curr).foldl (ffVisit rows cols oldC newC curr)
      ⟨grid, uf, visited, []⟩
    ffLoop rows cols oldC newC st.grid st.uf st.visited (rest ++ st.pushed)
termination_by
  ((allCells rows cols).filter (fun x => decide (¬x ∈ visited))).length + queue.length
decreasing_by
  have hfold := ffFold_measure rows cols oldC newC curr (getNeighbors rows cols curr)
    ⟨grid, uf, visited, []⟩
  unfold ffMeasure at hfold
  simp only [List.length_nil, Nat.add_zero, List.length_append, List.length_cons] at hfold ⊢
  omega

/-- Translation of `GameGrid.floodFill`: recolor the start cell's connected
region to `newColorIndex`, updating grid and Union-Find together (in-place
mutation modelled by returning the updated `GameGrid`). -/
def GameGrid.floodFill (g : GameGrid) (startR startC newColorIndex : Nat) : GameGrid :=
  let oldColorIndex := g.getColorIndex (startR : Int) (startC : Int)
  if oldColorIndex = newColorIndex then g
  else
    let start : Cell := (startR, startC)
    let g1 := setCell g.grid start newColorIndex
    let u1 := (getNeighbors g.rows g.cols start).foldl (fun uu nb =>
      if (nb.1 < g.rows ∧ nb.2 < g.cols) ∧ cellColor? g1 nb.1 nb.2 = some newColorIndex then
        uu.union (encodeCell g.cols start) (encodeCell g.cols nb)
      else uu) g.uf
    let res := ffLoop g.rows g.cols oldColorIndex newColorIndex g1 u1 [start] [start]
    { g with grid := res.1, uf := res.2 }

/-! ### Facts about `setCell` -/

theorem GridWF_setCell {rows cols : Nat} {grid : List (List Nat)}
    (hWF : GridWF rows cols grid) (x : Cell) (v : Nat) :
    GridWF rows cols (setCell grid x v) := by
  constructor
  · show (grid.set x.2 _).length = cols
    rw [List.length_set]
    exact hWF.1
  · intro col hcol
    by_cases hx2 : x.2 < grid.length
    · rcases List.mem_or_eq_of_mem_set hcol with h | rfl
      · exact hWF.2 _ h
      · rw [List.length_set]
        have hmem : grid.getD x.2 [] ∈ grid := by
          rw [List.getD_eq_getElem?_getD, List.getElem?_eq_getElem hx2]
          exact List.getElem_mem hx2
        exact hWF.2 _ hmem
    · have hid : grid.set x.2 ((grid.getD x.2 []).set x.1 v) = grid :=
        List.set_eq_of_length_le (by omega)
      show col.length = rows
      have hcol' : col ∈ grid := by
        have : col ∈ grid.set x.2 ((grid.getD x.2 []).set x.1 v) := hcol
        rwa [hid] at this
      exact hWF.2 _ hcol'

theorem colorAt_setCell_self {rows cols : Nat} {grid : List (List Nat)}
    (hWF : GridWF rows cols grid) {x : Cell} (hx : inBounds rows cols x) (v : Nat) :
    colorAt (setCell grid x v) x = v := by
  rcases hx with ⟨hr, hc⟩
  have hc' : x.2 < grid.length := by rw [hWF.1]; exact hc
  have hcol : grid.getD x.2 [] ∈ grid := by
    rw [List.getD_eq_getElem?_getD, List.getElem?_eq_getElem hc']
    exact List.getElem_mem hc'
  have hr' : x.1 < (grid.getD x.2 []).length := by rw [hWF.2 _ hcol]; exact hr
  unfold colorAt cellColor? setCell
  rw [List.getElem?_set_eq_of_lt _ hc']
  show ((grid.getD x.2 []).set x.1 v)[x.1]?.getD 0 = v
  rw [List.getElem?_set_eq_of_lt _ hr']
  rfl

theorem cellColor?_setCell_ne {rows cols : Nat} {grid : List (List Nat)}
    (hWF : GridWF rows cols grid) {x : Cell} (hx : inBounds rows cols x) (v : Nat)
    {y : Cell} (hne : y ≠ x) :
    cellColor? (setCell grid x v) y.1 y.2 = cellColor? grid y.1 y.2 := by
  rcases x with ⟨xr, xc⟩
  rcases y with ⟨yr, yc⟩
  unfold cellColor? setCell
  have hc' : xc < grid.length := by rw [hWF.1]; exact hx.2
  by_cases hcc : xc = yc
  · subst hcc
    show ((grid.set xc ((grid.getD xc []).set xr v))[xc]?.bind (fun col => col[yr]?)) = _
    rw [List.getElem?_set_eq_of_lt _ hc']
    have hgd : grid.getD xc [] = grid[xc] := by
      rw [List.getD_eq_getElem?_getD, List.getElem?_eq_getElem hc']
      rfl
    have hrr : xr ≠ yr := by
      intro hcon
      exact hne (by rw [hcon])
    rw [hgd, List.getElem?_eq_getElem hc']
    show (grid[xc].set xr v)[yr]? = grid[xc][yr]?
    rw [List.getElem?_set_ne hrr]
  · show ((grid.set xc ((grid.getD xc []).set xr v))[yc]?.bind (fun col => col[yr]?)) = _
    rw [List.getElem?_set_ne (by omega)]

theorem colorAt_setCell_ne {rows cols : Nat} {grid : List (List Nat)}
    (hWF : GridWF rows cols grid) {x : Cell} (hx : inBounds rows cols x) (v : Nat)
    {y : Cell} (hne : y ≠ x) :
    colorAt (setCell grid x v) y = colorAt grid y := by
  unfold colorAt
  rw [cellColor?_setCell_ne hWF hx v hne]

/-- In-bounds cells of a well-formed grid always read `some` of `colorAt`. -/
theorem cellColor?_eq_colorAt {rows cols : Nat} {grid : List (List Nat)}
    (hWF : GridWF rows cols grid) {x : Cell} (hx : inBounds rows cols x) :
    cellColor? grid x.1 x.2 = some (colorAt grid x) := by
  rcases cellColor?_eq_some hWF hx with ⟨v, hv⟩
  rw [hv, colorAt_eq_of_cellColor hv]

/-! ### Flood-fill reachability -/

/-- Reachability from the start cell through in-bounds cells still holding the
old color (the region `floodFill` repaints). -/
def reachOld (rows cols : Nat) (gPre : List (List Nat)) (oldC : Nat) (s x : Cell) : Prop :=
  Relation.ReflTransGen
    (fun a b => b ∈ getNeighbors rows cols a ∧ inBounds rows cols b ∧ colorAt gPre b = oldC)
    s x

theorem reachOld_bounds_color {rows cols : Nat} {gPre : List (List Nat)}
    {oldC : Nat} {s x : Cell} (hs : inBounds rows cols s) (hold : colorAt gPre s = oldC)
    (h : reachOld rows cols gPre oldC s x) :
    inBounds rows cols x ∧ colorAt gPre x = oldC := by
  induction h with
  | refl => exact ⟨hs, hold⟩
  | tail _ hstep ih => exact ⟨hstep.2.1, hstep.2.2⟩

theorem reachOld_step {rows cols : Nat} {gPre : List (List Nat)} {oldC : Nat}
    {s x n : Cell} (h : reachOld rows cols gPre oldC s x)
    (hn : n ∈ getNeighbors rows cols x) (hb : inBounds rows cols n)
    (hc : colorAt gPre n = oldC) : reachOld rows cols gPre oldC s n :=
  Relation.ReflTransGen.tail h ⟨hn, hb, hc⟩

theorem reachOld_sameRegion {rows cols : Nat} {gPre : List (List Nat)}
    {oldC : Nat} {s x : Cell} (hs : inBounds rows cols s)
    (hold : colorAt gPre s = oldC) (h : reachOld rows cols gPre oldC s x) :
    sameRegion rows cols gPre s x := by
  induction h with
  | refl => exact sameRegion.refl _ _ _ _
  | tail hpath hstep ih =>
    refine sameRegion.trans ih (Relation.EqvGen.rel _ _ ?_)
    have hprev := reachOld_bounds_color hs hold hpath
    exact ⟨hprev.1, hstep.2.1, hstep.1, by rw [hprev.2, hstep.2.2]⟩

/-- Flattening for `EqvGen`: if every generator maps into `EqvGen t`, the whole
closure does. -/
theorem eqvGen_mono_closure {α : Type} {r t : α → α → Prop}
    (h : ∀ a b, r a b → Relation.EqvGen t a b) :
    ∀ a b, Relation.EqvGen r a b → Relation.EqvGen t a b := by
  intro a b hab
  induction hab with
  | rel a b hr => exact h a b hr
  | refl a => exact Relation.EqvGen.refl a
  | symm a b _ ih => exact Relation.EqvGen.symm _ _ ih
  | trans a b c _ _ ih1 ih2 => exact Relation.EqvGen.trans _ _ _ ih1 ih2

/-- Union pairs that `floodFill` is allowed to issue: an edge from a repainted
cell to a cell that is repainted too or already wore the new color. -/
def GoodPair (rows cols : Nat) (gPre : List (List Nat)) (oldC newC : Nat)
    (s : Cell) (p q : Nat) : Prop :=
  ∃ x y : Cell, p = encodeCell cols x ∧ q = encodeCell cols y ∧
    inBounds rows cols x ∧ inBounds rows cols y ∧ y ∈ getNeighbors rows cols x ∧
    reachOld rows cols gPre oldC s x ∧
    (reachOld rows cols gPre oldC s y ∨ colorAt gPre y = newC)

/-! ### Conditional union folds -/

theorem unionFoldIf_size (u : UnionFind) (l : List Cell) (p : Cell → Prop)
    [DecidablePred p] (e1 : Nat) (e2 : Cell → Nat) :
    (l.foldl (fun uu nb => if p nb then uu.union e1 (e2 nb) else uu) u).size = u.size := by
  induction l generalizing u with
  | nil => rfl
  | cons a l ih =>
    rw [List.foldl_cons]
    by_cases hp : p a
    · rw [if_pos hp, ih, UnionFind.union_size]
    · rw [if_neg hp, ih]

theorem unionFoldIf_WF {u : UnionFind} (hWF : u.WF) (l : List Cell) (p : Cell → Prop)
    [DecidablePred p] (e1 : Nat) (e2 : Cell → Nat)
    (hb : ∀ nb ∈ l, p nb → e1 < u.size ∧ e2 nb < u.size) :
    (l.foldl (fun uu nb => if p nb then uu.union e1 (e2 nb) else uu) u).WF := by
  induction l generalizing u with
  | nil => exact hWF
  | cons a l ih =>
    rw [List.foldl_cons]
    by_cases hp : p a
    · rw [if_pos hp]
      rcases hb a (List.mem_cons_self _ _) hp with ⟨h1, h2⟩
      refine ih (UnionFind.union_WF hWF h1 h2) ?_
      intro nb hnb hpnb
      rw [UnionFind.union_size]
      exact hb nb (List.mem_cons_of_mem _ hnb) hpnb
    · rw [if_neg hp]
      exact ih hWF (fun nb hnb => hb nb (List.mem_cons_of_mem _ hnb))

theorem unionFoldIf_mono {u : UnionFind} (hWF : u.WF) (l : List Cell) (p : Cell → Prop)
    [DecidablePred p] (e1 : Nat) (e2 : Cell → Nat)
    (hb : ∀ nb ∈ l, p nb → e1 < u.size ∧ e2 nb < u.size)
    {a b : Nat} (h : u.rel a b) :
    (l.foldl (fun uu nb => if p nb then uu.union e1 (e2 nb) else uu) u).rel a b := by
  induction l generalizing u with
  | nil => exact h
  | cons c l ih =>
    rw [List.foldl_cons]
    by_cases hp : p c
    · rw [if_pos hp]
      rcases hb c (List.mem_cons_self _ _) hp with ⟨h1, h2⟩
      refine ih (UnionFind.union_WF hWF h1 h2) ?_ ?_
      · intro nb hnb hpnb
        rw [UnionFind.union_size]
        exact hb nb (List.mem_cons_of_mem _ hnb) hpnb
      · exact UnionFind.rel_union_of_rel hWF h1 h2 h
    · rw [if_neg hp]
      exact ih hWF (fun nb hnb => hb nb (List.mem_cons_of_mem _ hnb)) h

theorem unionFoldIf_pair {u : UnionFind} (hWF : u.WF) (l : List Cell) (p : Cell → Prop)
    [DecidablePred p] (e1 : Nat) (e2 : Cell → Nat)
    (hb : ∀ nb ∈ l, p nb → e1 < u.size ∧ e2 nb < u.size)
    {nb : Cell} (hnb : nb ∈ l) (hp : p nb) :
    (l.foldl (fun uu nb => if p nb then uu.union e1 (e2 nb) else uu) u).rel e1 (e2 nb) := by
  induction l generalizing u with
  | nil => cases hnb
  | cons c l ih =>
    rw [List.foldl_cons]
    rcases List.mem_cons.1 hnb with rfl | hmem
    · rw [if_pos hp]
      rcases hb nb (List.mem_cons_self _ _) hp with ⟨h1, h2⟩
      have hWF' := UnionFind.union_WF hWF h1 h2
      refine unionFoldIf_mono hWF' l p e1 e2 ?_ ?_
      · intro m hm hpm
        rw [UnionFind.union_size]
        exact hb m (List.mem_cons_of_mem _ hm) hpm
      · exact UnionFind.rel_union_self hWF h1 h2
    · by_cases hpc : p c
      · rw [if_pos hpc]
        rcases hb c (List.mem_cons_self _ _) hpc with ⟨h1, h2⟩
        refine ih (UnionFind.union_WF hWF h1 h2) ?_ hmem
        intro m hm hpm
        rw [UnionFind.union_size]
        exact hb m (List.mem_cons_of_mem _ hm) hpm
      · rw [if_neg hpc]
        exact ih hWF (fun m hm => hb m (List.mem_cons_of_mem _ hm)) hmem

theorem unionFoldIf_subset {u : UnionFind} (hWF : u.WF) (l : List Cell) (p : Cell → Prop)
    [DecidablePred p] (e1 : Nat) (e2 : Cell → Nat)
    (hb : ∀ nb ∈ l, p nb → e1 < u.size ∧ e2 nb < u.size)
    {E : Nat → Nat → Prop}
    (hsymm : ∀ a b, E a b → E b a) (htrans : ∀ a b c, E a b → E b c → E a c)
    (hrel : ∀ a b, u.rel a b → E a b) (hpairs : ∀ nb ∈ l, p nb → E e1 (e2 nb)) :
    ∀ a b, (l.foldl (fun uu nb => if p nb then uu.union e1 (e2 nb) else uu) u).rel a b →
      E a b := by
  induction l generalizing u with
  | nil => exact hrel
  | cons c l ih
  =>
    rw [List.foldl_cons]
    by_cases hpc : p c
    · rw [if_pos hpc]
      rcases hb c (List.mem_cons_self _ _) hpc with ⟨h1, h2⟩
      refine ih (UnionFind.union_WF hWF h1 h2) ?_ ?_ ?_
      · intro m hm hpm
        rw [UnionFind.union_size]
        exact hb m (List.mem_cons_of_mem _ hm) hpm
      · exact UnionFind.rel_union_subset hWF h1 h2 hsymm htrans hrel
          (hpairs c (List.mem_cons_self _ _) hpc)
      · exact fun m hm hpm => hpairs m (List.mem_cons_of_mem _ hm) hpm
    · rw [if_neg hpc]
      exact ih hWF (fun m hm => hb m (List.mem_cons_of_mem _ hm)) hrel
        (fun m hm hpm => hpairs m (List.mem_cons_of_mem _ hm) hpm)

/-! ### Flood-fill BFS invariant -/

/-- Invariant carried through `floodFill`'s BFS: the grid equals the original
with exactly the visited cells repainted, visited cells lie in the start
region, and the Union-Find is well-formed, connects the start to every visited
cell and every visited cell to its already-new-colored neighbours. -/
structure FFInv (rows cols : Nat) (gPre : List (List Nat)) (s : Cell)
    (oldC newC : Nat) (st : FFState) : Prop where
  shape : GridWF rows cols st.grid
  colors : ∀ x : Cell, inBounds rows cols x →
    colorAt st.grid x = if x ∈ st.visited then newC else colorAt gPre x
  vis_sub : ∀ x ∈ st.visited, reachOld rows cols gPre oldC s x
  s_vis : s ∈ st.visited
  ufWF : st.uf.WF
  ufsize : st.uf.size = rows * cols
  ufS : ∀ x ∈ st.visited, st.uf.rel (encodeCell cols s) (encodeCell cols x)
  ufN : ∀ x ∈ st.visited, ∀ nb ∈ getNeighbors rows cols x, inBounds rows cols nb →
    colorAt gPre nb = newC → st.uf.rel (encodeCell cols x) (encodeCell cols nb)

/-- Effect of one `ffVisit` step: the invariant is preserved, `visited` and
`pushed` grow by the same suffix, the Union-Find only grows and only by
`GoodPair` unions, and an unvisited in-bounds old-colored neighbour is
discovered. -/
theorem ffVisit_spec {rows cols : Nat} {gPre : List (List Nat)} {s : Cell}
    {oldC newC : Nat} {curr n : Cell} {st : FFState}
    (Hs : inBounds rows cols s) (Hold : colorAt gPre s = oldC)
    (hInv : FFInv rows cols gPre s oldC newC st) (hcurr : curr ∈ st.visited)
    (hn : n ∈ getNeighbors rows cols curr) :
    FFInv rows cols gPre s oldC newC (ffVisit rows cols oldC newC curr st n) ∧
    (∃ d, (ffVisit rows cols oldC newC curr st n).visited = st.visited ++ d ∧
      (ffVisit rows cols oldC newC curr st n).pushed = st.pushed ++ d) ∧
    (∀ a b, st.uf.rel a b → (ffVisit rows cols oldC newC curr st n).uf.rel a b) ∧
    (∀ a b, (ffVisit rows cols oldC newC curr st n).uf.rel a b →
      Relation.EqvGen (fun p q => st.uf.rel p q ∨ GoodPair rows cols gPre oldC newC s p q) a b) ∧
    (inBounds rows cols n → colorAt gPre n = oldC →
      n ∈ (ffVisit rows cols oldC newC curr st n).visited) := by
  have hcurrR : reachOld rows cols gPre oldC s curr := hInv.vis_sub curr hcurr
  have hcurrB : inBounds rows cols curr := (reachOld_bounds_color Hs Hold hcurrR).1
  rcases ffVisit_cases rows cols oldC newC curr st n with heq | ⟨h1, h2, hc, heq⟩
  · -- skip case
    rw [heq]
    refine ⟨hInv, ⟨[], by simp, by simp⟩, fun a b h => h,
      fun a b h => Relation.EqvGen.rel _ _ (Or.inl h), ?_⟩
    -- coverage: show a skipped in-bounds old-colored neighbour was already visited
    intro hb hcol
    by_cases hv : n ∈ st.visited
    · exact hv
    · exfalso
      have hcur : colorAt st.grid n = colorAt gPre n := by
        rw [hInv.colors n hb, if_neg hv]
      have hsome : cellColor? st.grid n.1 n.2 = some oldC := by
        rw [cellColor?_eq_colorAt hInv.shape hb, hcur, hcol]
      -- but then `ffVisit_cases` would have taken the discovery branch;
      -- derive the contradiction by recomputing the step
      have := @ffVisit_eq_push rows cols oldC newC curr st n hv ⟨hb.1, hb.2⟩ hsome
      rw [this] at heq
      -- `ffPush` strictly extends `visited`, so it cannot equal `st`
      have hlen : (ffPush rows cols newC curr st n).visited.length = st.visited.length + 1 := by
        show (st.visited ++ [n]).length = _
        simp
      rw [heq] at hlen
      omega
  · -- discovery case
    have hnB : inBounds rows cols n := ⟨h2.1, h2.2⟩
    have hnPre : colorAt gPre n = oldC := by
      have hcur : colorAt st.grid n = oldC := colorAt_eq_of_cellColor hc
      rw [hInv.colors n hnB, if_neg h1] at hcur
      exact hcur
    have hnR : reachOld rows cols gPre oldC s n := reachOld_step hcurrR hn hnB hnPre
    rw [heq]
    show FFInv _ _ _ _ _ _ (ffPush rows cols newC curr st n) ∧ _
    set g2 := setCell st.grid n newC with hg2
    have hshape2 : GridWF rows cols g2 := GridWF_setCell hInv.shape n newC
    have hcolors2 : ∀ x : Cell, inBounds rows cols x →
        colorAt g2 x = if x ∈ st.visited ++ [n] then newC else colorAt gPre x := by
      intro x hx
      by_cases hxn : x = n
      · subst hxn
        rw [colorAt_setCell_self hInv.shape hnB, if_pos (by simp)]
      · rw [colorAt_setCell_ne hInv.shape hnB newC hxn, hInv.colors x hx]
        by_cases hv : x ∈ st.visited
        · rw [if_pos hv, if_pos (List.mem_append_left _ hv)]
        · rw [if_neg hv, if_neg (by simp [hv, hxn])]
    -- the two encodings are in range
    have hencc : encodeCell cols curr < rows * cols := encode_lt hcurrB
    have hencn : encodeCell cols n < rows * cols := encode_lt hnB
    have hsz : st.uf.size = rows * cols := hInv.ufsize
    have hu2WF : (st.uf.union (encodeCell cols curr) (encodeCell cols n)).WF :=
      UnionFind.union_WF hInv.ufWF (by omega) (by omega)
    have hu2size : (st.uf.union (encodeCell cols curr) (encodeCell cols n)).size
        = rows * cols := by rw [UnionFind.union_size, hInv.ufsize]
    -- deep-fold bound hypothesis
    have hdeep : ∀ nb ∈ getNeighbors rows cols n,
        ((nb.1 < rows ∧ nb.2 < cols) ∧ cellColor? g2 nb.1 nb.2 = some newC) →
        encodeCell cols n < (st.uf.union (encodeCell cols curr) (encodeCell cols n)).size ∧
        encodeCell cols nb < (st.uf.union (encodeCell cols curr) (encodeCell cols n)).size := by
      intro nb hnb hp
      rw [hu2size]
      exact ⟨hencn, encode_lt ⟨hp.1.1, hp.1.2⟩⟩
    have hdeepWF := unionFoldIf_WF hu2WF (getNeighbors rows cols n) _
      (encodeCell cols n) (fun nb => encodeCell cols nb) hdeep
    -- facts about a deep neighbour satisfying the union condition
    have hdeepGood : ∀ nb ∈ getNeighbors rows cols n,
        ((nb.1 < rows ∧ nb.2 < cols) ∧ cellColor? g2 nb.1 nb.2 = some newC) →
        (reachOld rows cols gPre oldC s nb ∨ colorAt gPre nb = newC) := by
      intro nb hnb hp
      have hnbB : inBounds rows cols nb := ⟨hp.1.1, hp.1.2⟩
      have hnbne : nb ≠ n := getNeighbors_ne_self hnb
      have hnbcol : colorAt st.grid nb = newC := by
        have := colorAt_eq_of_cellColor hp.2
        rwa [hg2, colorAt_setCell_ne hInv.shape hnB newC hnbne] at this
      rw [hInv.colors nb hnbB] at hnbcol
      by_cases hv : nb ∈ st.visited
      · exact Or.inl (hInv.vis_sub nb hv)
      · rw [if_neg hv] at hnbcol
        exact Or.inr hnbcol
    refine ⟨?_, ⟨[n], rfl, rfl⟩, ?_, ?_, fun _ _ => by
      show n ∈ st.visited ++ [n]
      simp⟩
    · -- the invariant for the pushed state
      refine ⟨hshape2, hcolors2, ?_, List.mem_append_left _ hInv.s_vis, ?_, ?_, ?_, ?_⟩
      · intro x hx
        rcases List.mem_append.1 hx with hx | hx
        · exact hInv.vis_sub x hx
        · rw [List.mem_singleton.1 hx]
          exact hnR
      · exact hdeepWF
      · exact (unionFoldIf_size (st.uf.union (encodeCell cols curr) (encodeCell cols n))
          (getNeighbors rows cols n) _ (encodeCell cols n)
          (fun nb => encodeCell cols nb)).trans hu2size
      · -- start connects to every visited cell
        intro x hx
        rcases List.mem_append.1 hx with hx | hx
        · exact unionFoldIf_mono hu2WF _ _ _ _ hdeep
            (UnionFind.rel_union_of_rel hInv.ufWF (by omega) (by omega) (hInv.ufS x hx))
        · rw [List.mem_singleton.1 hx]
          have hsc : st.uf.rel (encodeCell cols s) (encodeCell cols curr) :=
            hInv.ufS curr hcurr
          have hrel2 : (st.uf.union (encodeCell cols curr) (encodeCell cols n)).rel
              (encodeCell cols s) (encodeCell cols n) :=
            UnionFind.rel_trans
              (UnionFind.rel_union_of_rel hInv.ufWF (by omega) (by omega) hsc)
              (UnionFind.rel_union_self hInv.ufWF (by omega) (by omega))
          exact unionFoldIf_mono hu2WF _ _ _ _ hdeep hrel2
      · -- visited cells connect to their new-colored neighbours
        intro x hx nb hnb hnbB hnbNew
        rcases List.mem_append.1 hx with hx | hx
        · exact unionFoldIf_mono hu2WF _ _ _ _ hdeep
            (UnionFind.rel_union_of_rel hInv.ufWF (by omega) (by omega)
              (hInv.ufN x hx nb hnb hnbB hnbNew))
        · have hxn : n = x := (List.mem_singleton.1 hx).symm
          subst hxn
          -- x = n: the deep fold performed exactly this union
          have hnbne : nb ≠ n := getNeighbors_ne_self hnb
          have hnbcur : colorAt g2 nb = newC := by
            rw [hg2, colorAt_setCell_ne hInv.shape hnB newC hnbne, hInv.colors nb hnbB]
            by_cases hv : nb ∈ st.visited
            · rw [if_pos hv]
            · rw [if_neg hv]
              exact hnbNew
          have hp : (nb.1 < rows ∧ nb.2 < cols) ∧ cellColor? g2 nb.1 nb.2 = some newC :=
            ⟨⟨hnbB.1, hnbB.2⟩, by rw [cellColor?_eq_colorAt hshape2 hnbB, hnbcur]⟩
          exact unionFoldIf_pair hu2WF _ _ _ _ hdeep hnb hp
    · -- monotonicity
      intro a b h
      exact unionFoldIf_mono hu2WF _ _ _ _ hdeep
        (UnionFind.rel_union_of_rel hInv.ufWF (by omega) (by omega) h)
    · -- soundness: every new union is a `GoodPair`
      intro a b h
      have hE := unionFoldIf_subset hu2WF (getNeighbors rows cols n) _
        (encodeCell cols n) (fun nb => encodeCell cols nb) hdeep
        (E := Relation.EqvGen
          (fun p q => st.uf.rel p q ∨ GoodPair rows cols gPre oldC newC s p q))
        (fun a b hab => Relation.EqvGen.symm _ _ hab)
        (fun a b c h1 h2 => Relation.EqvGen.trans _ _ _ h1 h2)
        ?_ ?_
      · exact hE a b h
      · -- the single union `curr – n` is sound
        refine UnionFind.rel_union_subset hInv.ufWF (by omega) (by omega)
          (fun a b hab => Relation.EqvGen.symm _ _ hab)
          (fun a b c h1 h2 => Relation.EqvGen.trans _ _ _ h1 h2)
          (fun a b hab => Relation.EqvGen.rel _ _ (Or.inl hab)) ?_
        exact Relation.EqvGen.rel _ _ (Or.inr
          ⟨curr, n, rfl, rfl, hcurrB, hnB, hn, hcurrR, Or.inl hnR⟩)
      · -- the deep unions `n – nb` are sound
        intro nb hnb hp
        exact Relation.EqvGen.rel _ _ (Or.inr
          ⟨n, nb, rfl, rfl, hnB, ⟨hp.1.1, hp.1.2⟩, hnb, hnR, hdeepGood nb hnb hp⟩)

/-- Effect of folding `ffVisit` over a list of neighbours of `curr`. -/
theorem ffFold_spec {rows cols : Nat} {gPre : List (List Nat)} {s : Cell}
    {oldC newC : Nat} {curr : Cell} (ns : List Cell) (st : FFState)
    (Hs : inBounds rows cols s) (Hold : colorAt gPre s = oldC)
    (hInv : FFInv rows cols gPre s oldC newC st) (hcurr : curr ∈ st.visited)
    (hns : ∀ n ∈ ns, n ∈ getNeighbors rows cols curr) :
    FFInv rows cols gPre s oldC newC (ns.foldl (ffVisit rows cols oldC newC curr) st) ∧
    (∃ d, (ns.foldl (ffVisit rows cols oldC newC curr) st).visited = st.visited ++ d ∧
      (ns.foldl (ffVisit rows cols oldC newC curr) st).pushed = st.pushed ++ d) ∧
    (∀ a b, st.uf.rel a b → (ns.foldl (ffVisit rows cols oldC newC curr) st).uf.rel a b) ∧
    (∀ a b, (ns.foldl (ffVisit rows cols oldC newC curr) st).uf.rel a b →
      Relation.EqvGen (fun p q => st.uf.rel p q ∨ GoodPair rows cols gPre oldC newC s p q) a b) ∧
    (∀ n ∈ ns, inBounds rows cols n → colorAt gPre n = oldC →
      n ∈ (ns.foldl (ffVisit rows cols oldC newC curr) st).visited) := by
  induction ns generalizing st with
  | nil =>
    exact ⟨hInv, ⟨[], by simp, by simp⟩, fun a b h => h,
      fun a b h => Relation.EqvGen.rel _ _ (Or.inl h), by simp⟩
  | cons a ns ih =>
    rw [List.foldl_cons]
    have hstep := ffVisit_spec Hs Hold hInv hcurr (hns a (List.mem_cons_self _ _))
    rcases hstep with ⟨hInv1, ⟨d1, hv1, hp1⟩, hmono1, hsound1, hcov1⟩
    have hcurr1 : curr ∈ (ffVisit rows cols oldC newC curr st a).visited := by
      rw [hv1]
      exact List.mem_append_left _ hcurr
    have hrest := ih _ hInv1 hcurr1 (fun n hn => hns n (List.mem_cons_of_mem _ hn))
    rcases hrest with ⟨hInv2, ⟨d2, hv2, hp2⟩, hmono2, hsound2, hcov2⟩
    refine ⟨hInv2, ⟨d1 ++ d2, ?_, ?_⟩, ?_, ?_, ?_⟩
    · rw [hv2, hv1, List.append_assoc]
    · rw [hp2, hp1, List.append_assoc]
    · exact fun p q h => hmono2 p q (hmono1 p q h)
    · intro p q h
      refine eqvGen_mono_closure ?_ p q (hsound2 p q h)
      intro p' q' hpq
      rcases hpq with hpq | hpq
      · exact hsound1 p' q' hpq
      · exact Relation.EqvGen.rel _ _ (Or.inr hpq)
    · intro n hn hb hcol
      rcases List.mem_cons.1 hn with rfl | hn'
      · have hcov := hcov1 hb hcol
        rw [hv2]
        exact List.mem_append_left _ hcov
      · exact hcov2 n hn' hb hcol

/-- Postcondition of `floodFill`'s BFS loop: the final grid is the original
with exactly the start region repainted, and the final Union-Find extends the
entry state exactly by `GoodPair` unions, connecting the whole repainted
region and its already-new-colored boundary. -/
def FFPost (rows cols : Nat) (gPre : List (List Nat)) (s : Cell) (oldC newC : Nat)
    (uf : UnionFind) (res : List (List Nat) × UnionFind) : Prop :=
  GridWF rows cols res.1 ∧
  (∀ x : Cell, inBounds rows cols x → reachOld rows cols gPre oldC s x →
    colorAt res.1 x = newC) ∧
  (∀ x : Cell, inBounds rows cols x → ¬reachOld rows cols gPre oldC s x →
    colorAt res.1 x = colorAt gPre x) ∧
  res.2.WF ∧ res.2.size = rows * cols ∧
  (∀ a b, uf.rel a b → res.2.rel a b) ∧
  (∀ a b, res.2.rel a b →
    Relation.EqvGen (fun p q => uf.rel p q ∨ GoodPair rows cols gPre oldC newC s p q) a b) ∧
  (∀ x : Cell, reachOld rows cols gPre oldC s x →
    res.2.rel (encodeCell cols s) (encodeCell cols x)) ∧
  (∀ x : Cell, reachOld rows cols gPre oldC s x →
    ∀ nb ∈ getNeighbors rows cols x, inBounds rows cols nb →
      colorAt gPre nb = newC → res.2.rel (encodeCell cols x) (encodeCell cols nb))

theorem ffLoop_spec {rows cols : Nat} {gPre : List (List Nat)} {s : Cell}
    {oldC newC : Nat} (Hs : inBounds rows cols s) (Hold : colorAt gPre s = oldC) :
    ∀ (grid : List (List Nat)) (uf : UnionFind) (visited queue : List Cell),
      FFInv rows cols gPre s oldC newC ⟨grid, uf, visited, []⟩ →
      (∀ x ∈ queue, x ∈ visited) →
      (∀ x ∈ visited, x ∉ queue → ∀ n ∈ getNeighbors rows cols x,
        inBounds rows cols n → colorAt gPre n = oldC → n ∈ visited) →
      FFPost rows cols gPre s oldC newC uf
        (ffLoop rows cols oldC newC grid uf visited queue) := by
  refine ffLoop.induct rows cols oldC newC _ ?_ ?_
  · -- queue empty: the loop returns its state, and visited is exactly the region
    intro grid uf visited hInv hq hcl
    have hRsub : ∀ x, reachOld rows cols gPre oldC s x → x ∈ visited := by
      intro x hx
      induction hx with
      | refl => exact hInv.s_vis
      | tail hpath hstep ih =>
        exact hcl _ ih (by simp) _ hstep.1 hstep.2.1 hstep.2.2
    rw [ffLoop]
    show FFPost rows cols gPre s oldC newC uf (grid, uf)
    refine ⟨hInv.shape, ?_, ?_, hInv.ufWF, hInv.ufsize, fun a b h => h,
      fun a b h => Relation.EqvGen.rel _ _ (Or.inl h),
      fun x hx => hInv.ufS x (hRsub x hx),
      fun x hx => hInv.ufN x (hRsub x hx)⟩
    · intro x hxb hxR
      rw [hInv.colors x hxb, if_pos (hRsub x hxR)]
    · intro x hxb hxR
      rw [hInv.colors x hxb, if_neg (fun hv => hxR (hInv.vis_sub x hv))]
  · -- queue step
    intro grid uf visited curr rest
    intro st ih hInv hq hcl
    have hcurr : curr ∈ visited := hq curr (List.mem_cons_self _ _)
    have hfold := ffFold_spec (getNeighbors rows cols curr) ⟨grid, uf, visited, []⟩
      Hs Hold hInv hcurr (fun n hn => hn)
    rcases hfold with ⟨hInvF, ⟨d, hv, hp⟩, hmonoF, hsoundF, hcovF⟩
    have hInv' : FFInv rows cols gPre s oldC newC ⟨st.grid, st.uf, st.visited, []⟩ :=
      ⟨hInvF.shape, hInvF.colors, hInvF.vis_sub, hInvF.s_vis, hInvF.ufWF,
        hInvF.ufsize, hInvF.ufS, hInvF.ufN⟩
    have hq' : ∀ x ∈ rest ++ st.pushed, x ∈ st.visited := by
      intro x hx
      rcases List.mem_append.1 hx with hx | hx
      · show x ∈ st.visited
        rw [show st.visited = visited ++ d from hv]
        exact List.mem_append_left _ (hq x (List.mem_cons_of_mem _ hx))
      · show x ∈ st.visited
        rw [show st.visited = visited ++ d from hv]
        have hx' : x ∈ d := by
          have := hx
          rw [show st.pushed = [] ++ d from hp] at this
          simpa using this
        exact List.mem_append_right _ hx'
    have hcl' : ∀ x ∈ st.visited, x ∉ rest ++ st.pushed →
        ∀ n ∈ getNeighbors rows cols x, inBounds rows cols n →
          colorAt gPre n = oldC → n ∈ st.visited := by
      intro x hx hnq n hn hb hcol
      have hx2 : x ∈ visited ++ d := by
        rw [← show st.visited = visited ++ d from hv]
        exact hx
      rcases List.mem_append.1 hx2 with hxv | hxd
      · by_cases hxc : x = curr
        · subst hxc
          exact hcovF n hn hb hcol
        · have hxq : x ∉ curr :: rest := by
            intro hcon
            rcases List.mem_cons.1 hcon with h | h
            · exact hxc h
            · exact hnq (List.mem_append_left _ h)
          have hnvis := hcl x hxv hxq n hn hb hcol
          show n ∈ st.visited
          rw [show st.visited = visited ++ d from hv]
          exact List.mem_append_left _ hnvis
      · exfalso
        apply hnq
        refine List.mem_append_right _ ?_
        rw [show st.pushed = [] ++ d from hp]
        simpa using hxd
    have hIH := ih hInv' hq' hcl'
    obtain ⟨hA1, hA2, hA3, hBW, hBs, hC, hD, hF, hG⟩ := hIH
    rw [ffLoop]
    show FFPost rows cols gPre s oldC newC uf
      (ffLoop rows cols oldC newC st.grid st.uf st.visited (rest ++ st.pushed))
    refine ⟨hA1, hA2, hA3, hBW, hBs, ?_, ?_, hF, hG⟩
    · exact fun a b h => hC a b (hmonoF a b h)
    · intro a b h
      refine eqvGen_mono_closure ?_ a b (hD a b h)
      intro p q hpq
      rcases hpq with hpq | hpq
      · exact hsoundF p q hpq
      · exact Relation.EqvGen.rel _ _ (Or.inr hpq)

theorem UnionFind.rel_cases {u : UnionFind} (hWF : u.WF) {a b : Nat}
    (h : u.rel a b) : (a < u.size ∧ b < u.size) ∨ a = b := by
  by_cases ha : a < u.size <;> by_cases hb : b < u.size
  · exact Or.inl ⟨ha, hb⟩
  · exfalso
    have h1 : u.find a < u.size := UnionFind.find_lt hWF ha
    have h2 : u.find b = b := UnionFind.find_of_ge hWF (by omega)
    unfold UnionFind.rel at h
    omega
  · exfalso
    have h1 : u.find b < u.size := UnionFind.find_lt hWF hb
    have h2 : u.find a = a := UnionFind.find_of_ge hWF (by omega)
    unfold UnionFind.rel at h
    omega
  · have h1 : u.find a = a := UnionFind.find_of_ge hWF (by omega)
    have h2 : u.find b = b := UnionFind.find_of_ge hWF (by omega)
    unfold UnionFind.rel at h
    omega

theorem getColorIndex_natCast (grid : List (List Nat)) (r c : Nat) :
    getColorIndex grid (r : Int) (c : Int) = colorAt grid (r, c) := by
  unfold getColorIndex colorAt
  rw [if_pos ⟨Int.natCast_nonneg r, Int.natCast_nonneg c⟩]
  simp


theorem floodFill_eq_self (g : GameGrid) (startR startC newColorIndex : Nat)
    (h : g.getColorIndex (startR : Int) (startC : Int) = newColorIndex) :
    g.floodFill startR startC newColorIndex = g := by
  unfold GameGrid.floodFill
  simp only [if_pos h]

theorem floodFill_eq (g : GameGrid) (startR startC newColorIndex : Nat)
    (h : g.getColorIndex (startR : Int) (startC : Int) ≠ newColorIndex) :
    g.floodFill startR startC newColorIndex =
      { g with
        grid := (ffLoop g.rows g.cols (g.getColorIndex (startR : Int) (startC : Int))
          newColorIndex (setCell g.grid (startR, startC) newColorIndex)
          ((getNeighbors g.rows g.cols (startR, startC)).foldl (fun uu nb =>
            if (nb.1 < g.rows ∧ nb.2 < g.cols) ∧
                cellColor? (setCell g.grid (startR, startC) newColorIndex) nb.1 nb.2
                  = some newColorIndex then
              uu.union (encodeCell g.cols (startR, startC)) (encodeCell g.cols nb)
            else uu) g.uf)
          [(startR, startC)] [(startR, startC)]).1,
        uf := (ffLoop g.rows g.cols (g.getColorIndex (startR : Int) (startC : Int))
          newColorIndex (setCell g.grid (startR, startC) newColorIndex)
          ((getNeighbors g.rows g.cols (startR, startC)).foldl (fun uu nb =>
            if (nb.1 < g.rows ∧ nb.2 < g.cols) ∧
                cellColor? (setCell g.grid (startR, startC) newColorIndex) nb.1 nb.2
                  = some newColorIndex then
              uu.union (encodeCell g.cols (startR, startC)) (encodeCell g.cols nb)
            else uu) g.uf)
          [(startR, startC)] [(startR, startC)]).2 } := by
  unfold GameGrid.floodFill
  simp only [if_neg h]

/-- Flood fill preserves the Grid data-model invariants (spec §3: the
flood-fill operation "updates colors and the Union-Find together so the
invariant never observably breaks between calls"). -/
theorem floodFill_WF {g : GameGrid} (hWF : g.WF) {startR startC : Nat}
    (hb : inBounds g.rows g.cols (startR, startC)) (newColorIndex : Nat) :
    (g.floodFill startR startC newColorIndex).WF := by
  rcases hWF with ⟨hshape, hcons⟩
  by_cases hsame : g.getColorIndex (startR : Int) (startC : Int) = newColorIndex
  · rw [floodFill_eq_self g startR startC newColorIndex hsame]
    exact ⟨hshape, hcons⟩
  · rw [floodFill_eq g startR startC newColorIndex hsame]
    set rows := g.rows with hrows
    set cols := g.cols with hcolsdef
    set gPre := g.grid with hgPre
    set s : Cell := (startR, startC) with hsdef
    set oldC := g.getColorIndex (startR : Int) (startC : Int) with holdC
    set newC := newColorIndex with hnewC
    have Hold : colorAt gPre s = oldC := (getColorIndex_natCast gPre startR startC).symm
    have Hs : inBounds rows cols s := hb
    set g1 := setCell gPre s newC with hg1
    have hshape1 : GridWF rows cols g1 := GridWF_setCell hshape s newC
    have hufWF : g.uf.WF := hcons.1
    have hufsize : g.uf.size = rows * cols := hcons.2.1
    have hencs : encodeCell cols s < rows * cols := encode_lt Hs
    have hpre : ∀ nb ∈ getNeighbors rows cols s,
        ((nb.1 < rows ∧ nb.2 < cols) ∧ cellColor? g1 nb.1 nb.2 = some newC) →
        encodeCell cols s < g.uf.size ∧ encodeCell cols nb < g.uf.size := by
      intro nb hnb hp
      rw [hufsize]
      exact ⟨hencs, encode_lt ⟨hp.1.1, hp.1.2⟩⟩
    set u1 := (getNeighbors rows cols s).foldl (fun uu nb =>
      if (nb.1 < rows ∧ nb.2 < cols) ∧ cellColor? g1 nb.1 nb.2 = some newC then
        uu.union (encodeCell cols s) (encodeCell cols nb)
      else uu) g.uf with hu1
    have hu1WF : u1.WF := unionFoldIf_WF hufWF _ _ _ _ hpre
    have hu1size : u1.size = rows * cols := by
      rw [hu1, unionFoldIf_size]
      exact hufsize
    have hu1mono : ∀ a b, g.uf.rel a b → u1.rel a b :=
      fun a b h => unionFoldIf_mono hufWF _ _ _ _ hpre h
    have hg1ne : ∀ x : Cell, x ≠ s → inBounds rows cols x → colorAt g1 x = colorAt gPre x :=
      fun x hx hxb => colorAt_setCell_ne hshape Hs newC hx
    have hInv : FFInv rows cols gPre s oldC newC ⟨g1, u1, [s], []⟩ := by
      refine ⟨hshape1, ?_, ?_, List.mem_singleton_self s, hu1WF, hu1size, ?_, ?_⟩
      · intro x hx
        by_cases hxs : x = s
        · subst hxs
          rw [colorAt_setCell_self hshape Hs newC, if_pos (List.mem_singleton_self s)]
        · rw [hg1ne x hxs hx, if_neg (by simpa using hxs)]
      · intro x hx
        rw [List.mem_singleton.1 hx]
        exact Relation.ReflTransGen.refl
      · intro x hx
        rw [List.mem_singleton.1 hx]
        exact UnionFind.rel_refl _ _
      · intro x hx nb hnb hnbB hnbNew
        have hxs : x = s := List.mem_singleton.1 hx
        subst hxs
        have hnbne : nb ≠ s := getNeighbors_ne_self hnb
        have hp : (nb.1 < rows ∧ nb.2 < cols) ∧ cellColor? g1 nb.1 nb.2 = some newC := by
          refine ⟨⟨hnbB.1, hnbB.2⟩, ?_⟩
          rw [cellColor?_eq_colorAt hshape1 hnbB, hg1ne nb hnbne hnbB, hnbNew]
        exact unionFoldIf_pair hufWF _ _ _ _ hpre hnb hp
    have hpost := ffLoop_spec Hs Hold g1 u1 [s] [s] hInv
      (fun x hx => hx)
      (fun x hx hnx => absurd hx hnx)
    obtain ⟨hA1, hA2, hA3, hBW, hBs, hC, hD, hF, hG⟩ := hpost
    set res := ffLoop rows cols oldC newC g1 u1 [s] [s] with hres
    have hu1sound : ∀ a b, u1.rel a b →
        Relation.EqvGen (fun p q => g.uf.rel p q ∨
          GoodPair rows cols gPre oldC newC s p q) a b := by
      refine unionFoldIf_subset hufWF _ _ _ _ hpre
        (fun a b hab => Relation.EqvGen.symm _ _ hab)
        (fun a b c h1 h2 => Relation.EqvGen.trans _ _ _ h1 h2)
        (fun a b hab => Relation.EqvGen.rel _ _ (Or.inl hab)) ?_
      intro nb hnb hp
      have hnbB : inBounds rows cols nb := ⟨hp.1.1, hp.1.2⟩
      have hnbne : nb ≠ s := getNeighbors_ne_self hnb
      have hnbNew : colorAt gPre nb = newC := by
        have h2 := colorAt_eq_of_cellColor hp.2
        rwa [hg1ne nb hnbne hnbB] at h2
      exact Relation.EqvGen.rel _ _ (Or.inr
        ⟨s, nb, rfl, rfl, Hs, hnbB, hnb, Relation.ReflTransGen.refl, Or.inr hnbNew⟩)
    have hmonoRegion : ∀ x y : Cell, sameRegion rows cols gPre x y →
        sameRegion rows cols res.1 x y := by
      refine eqvGen_mono_closure ?_
      intro x y hxy
      rcases hxy with ⟨hxB, hyB, hnbr, hcoleq⟩
      by_cases hx : reachOld rows cols gPre oldC s x <;>
        by_cases hy : reachOld rows cols gPre oldC s y
      · exact Relation.EqvGen.rel _ _ ⟨hxB, hyB, hnbr, by rw [hA2 x hxB hx, hA2 y hyB hy]⟩
      · exfalso
        have hxold : colorAt gPre x = oldC := (reachOld_bounds_color Hs Hold hx).2
        exact hy (reachOld_step hx hnbr hyB (by rw [← hcoleq, hxold]))
      · exfalso
        have hyold : colorAt gPre y = oldC := (reachOld_bounds_color Hs Hold hy).2
        exact hx (reachOld_step hy (getNeighbors_symm hxB hyB hnbr) hxB
          (by rw [hcoleq, hyold]))
      · exact Relation.EqvGen.rel _ _ ⟨hxB, hyB, hnbr,
          by rw [hA3 x hxB hx, hA3 y hyB hy, hcoleq]⟩
    -- the recolored grid assigns `newC` to every cell of the region and to any
    -- cell that already wore `newC`
    have hnewColor : ∀ y : Cell, inBounds rows cols y →
        (reachOld rows cols gPre oldC s y ∨ colorAt gPre y = newC) →
        colorAt res.1 y = newC := by
      intro y hyB hy
      rcases hy with hy | hy
      · exact hA2 y hyB hy
      · by_cases hyR : reachOld rows cols gPre oldC s y
        · exact hA2 y hyB hyR
        · rw [hA3 y hyB hyR, hy]
    show GridWF rows cols res.1 ∧ UFConsistent rows cols res.1 res.2
    refine ⟨hA1, hBW, hBs, ?_⟩
    intro x y hxB hyB
    constructor
    · -- Union-Find relation implies same region in the new grid
      intro hrel
      have hE2 : Relation.EqvGen (fun p q => g.uf.rel p q ∨
          GoodPair rows cols gPre oldC newC s p q)
          (encodeCell cols x) (encodeCell cols y) := by
        refine eqvGen_mono_closure ?_ _ _ (hD _ _ hrel)
        intro p q hpq
        rcases hpq with hpq | hpq
        · exact hu1sound p q hpq
        · exact Relation.EqvGen.rel _ _ (Or.inr hpq)
      -- interpret the closure inside same-region of the result grid
      have hT : ∀ p q, Relation.EqvGen (fun p q => g.uf.rel p q ∨
          GoodPair rows cols gPre oldC newC s p q) p q →
          (p = q ∨ sameRegion rows cols res.1 (decodeCell cols p) (decodeCell cols q)) := by
        intro p q hpq
        induction hpq with
        | rel p q hgen =>
          rcases hgen with hgen | hgen
          · rcases UnionFind.rel_cases hufWF hgen with ⟨hp, hq⟩ | rfl
            · rw [hufsize] at hp hq
              have hcols0 : 0 < cols := by
                by_contra hcon
                have : cols = 0 := by omega
                rw [this, Nat.mul_zero] at hp
                omega
              have hpB := decode_inBounds hp
              have hqB := decode_inBounds hq
              have hrel2 : g.uf.rel (encodeCell cols (decodeCell cols p))
                  (encodeCell cols (decodeCell cols q)) := by
                rw [encode_decode hcols0, encode_decode hcols0]
                exact hgen
              have hsame := (hcons.2.2 _ _ hpB hqB).1 hrel2
              exact Or.inr (hmonoRegion _ _ hsame)
            · exact Or.inl rfl
          · rcases hgen with ⟨a, b2, rfl, rfl, haB, hbB, hnbr, haR, hbR⟩
            have hcols0 : 0 < cols := by
              rcases haB with ⟨h1, h2⟩
              omega
            rw [decode_encode haB.2, decode_encode hbB.2]
            refine Or.inr (Relation.EqvGen.rel _ _ ⟨haB, hbB, hnbr, ?_⟩)
            rw [hA2 a haB haR, hnewColor b2 hbB hbR]
        | refl p => exact Or.inl rfl
        | symm p q _ ih =>
          rcases ih with rfl | ih
          · exact Or.inl rfl
          · exact Or.inr (sameRegion.symm ih)
        | trans p q r _ _ ih1 ih2 =>
          rcases ih1 with rfl | ih1
          · exact ih2
          · rcases ih2 with rfl | ih2
            · exact Or.inr ih1
            · exact Or.inr (sameRegion.trans ih1 ih2)
      rcases hT _ _ hE2 with heq | hsr
      · have hxy : x = y := by
          have h1 := decode_encode hxB.2
          have h2 := decode_encode hyB.2
          rw [← h1, ← h2, heq]
        rw [hxy]
        exact sameRegion.refl _ _ _ _
      · rwa [decode_encode hxB.2, decode_encode hyB.2] at hsr
    · -- same region in the new grid implies Union-Find relation
      intro hsame
      clear hxB hyB
      induction hsame with
      | rel a b hab =>
        rcases hab with ⟨haB, hbB, hnbr, hcoleq⟩
        by_cases haR : reachOld rows cols gPre oldC s a <;>
          by_cases hbR : reachOld rows cols gPre oldC s b
        · exact UnionFind.rel_trans (UnionFind.rel_symm (hF a haR)) (hF b hbR)
        · have hbPre : colorAt gPre b = newC := by
            rw [← hA3 b hbB hbR, ← hcoleq, hA2 a haB haR]
          exact hG a haR b hnbr hbB hbPre
        · have haPre : colorAt gPre a = newC := by
            rw [← hA3 a haB haR, hcoleq, hA2 b hbB hbR]
          exact UnionFind.rel_symm
            (hG b hbR a (getNeighbors_symm haB hbB hnbr) haB haPre)
        · have hpre2 : sameRegion rows cols gPre a b := by
            refine Relation.EqvGen.rel _ _ ⟨haB, hbB, hnbr, ?_⟩
            rw [← hA3 a haB haR, ← hA3 b hbB hbR]
            exact hcoleq
          exact hC _ _ (hu1mono _ _ ((hcons.2.2 _ _ haB hbB).2 hpre2))
      | refl a => exact UnionFind.rel_refl _ _
      | symm a b _ ih => exact UnionFind.rel_symm ih
      | trans a b c _ _ ih1 ih2 => exact UnionFind.rel_trans ih1 ih2

theorem floodFill_fields (g : GameGrid) (r c nc : Nat) :
    (g.floodFill r c nc).vside_rows = g.vside_rows ∧
    (g.floodFill r c nc).cols = g.cols ∧
    (g.floodFill r c nc).colorCount = g.colorCount := by
  by_cases h : g.getColorIndex (r : Int) (c : Int) = nc
  · rw [floodFill_eq_self g r c nc h]
    exact ⟨rfl, rfl, rfl⟩
  · rw [floodFill_eq g r c nc h]
    exact ⟨rfl, rfl, rfl⟩

theorem floodFill_rows (g : GameGrid) (r c nc : Nat) :
    (g.floodFill r c nc).rows = g.rows := by
  unfold GameGrid.rows
  rw [(floodFill_fields g r c nc).1]

/-- A sequence of flood-fill calls applied in order. -/
def applyFloodFills (g : GameGrid) (calls : List (Nat × Nat × Nat)) : GameGrid :=
  calls.foldl (fun acc call => acc.floodFill call.1 call.2.1 call.2.2) g

theorem applyFloodFills_WF {g : GameGrid} (hWF : g.WF) {calls : List (Nat × Nat × Nat)}
    (hc : ∀ call ∈ calls, inBounds g.rows g.cols (call.1, call.2.1)) :
    (applyFloodFills g calls).WF ∧
      (applyFloodFills g calls).rows = g.rows ∧
      (applyFloodFills g calls).cols = g.cols := by
  induction calls generalizing g with
  | nil => exact ⟨hWF, rfl, rfl⟩
  | cons call calls ih =>
    have hb := hc call (List.mem_cons_self _ _)
    have hWF1 := floodFill_WF hWF hb call.2.2
    have hrows := floodFill_rows g call.1 call.2.1 call.2.2
    have hcols := (floodFill_fields g call.1 call.2.1 call.2.2).2.1
    have hc1 : ∀ c ∈ calls,
        inBounds (g.floodFill call.1 call.2.1 call.2.2).rows
          (g.floodFill call.1 call.2.1 call.2.2).cols (c.1, c.2.1) := by
      intro c hcmem
      rw [hrows, hcols]
      exact hc c (List.mem_cons_of_mem _ hcmem)
    have hrest := ih hWF1 hc1
    refine ⟨hrest.1, ?_, ?_⟩
    · rw [show applyFloodFills g (call :: calls)
        = applyFloodFills (g.floodFill call.1 call.2.1 call.2.2) calls from rfl,
        hrest.2.1, hrows]
    · rw [show applyFloodFills g (call :: calls)
        = applyFloodFills (g.floodFill call.1 call.2.1 call.2.2) calls from rfl,
        hrest.2.2, hcols]

/-- The maintained Union-Find count equals the count a full rebuild would
produce (the incremental maintenance is exact). -/
theorem regionCount_eq_rebuild {g : GameGrid} (hWF : g.WF) :
    g.getRegionCount = g.buildUnionFind.count :=
  consistent_count_eq hWF.2 (buildUF_consistent hWF.1)

/-! ### The region-adjacency graph (`GraphSolver`) -/

/-- Translation of the `RegionNode` interface. -/
structure RegionNode where
  id : Nat
  color : Nat
  size : Nat
  neighbors : List Nat
deriving Repr, DecidableEq

instance : Inhabited RegionNode := ⟨⟨0, 0, 0, []⟩⟩

/-- JS `Map<number, RegionNode>` as an insertion-ordered association list. -/
abbrev Graph := List (Nat × RegionNode)

/-- JS `Map.get`. -/
def mapGet (m : Graph) (k : Nat) : Option RegionNode :=
  (m.find? (fun p => p.1 == k)).map (fun p => p.2)

/-- JS `Map.set`: update in place when the key exists, append otherwise. -/
def mapSet (m : Graph) (k : Nat) (v : RegionNode) : Graph :=
  if (m.find? (fun p => p.1 == k)).isSome
  then m.map (fun p => if p.1 = k then (k, v) else p)
  else m ++ [(k, v)]

/-- Mutation of the node object stored at a key (no-op when absent). -/
def mapUpdate (m : Graph) (k : Nat) (f : RegionNode → RegionNode) : Graph :=
  m.map (fun p => if p.1 = k then (p.1, f p.2) else p)

/-- JS `Map.delete`. -/
def mapDelete (m : Graph) (k : Nat) : Graph :=
  m.filter (fun p => p.1 != k)

/-- Key list of the map. -/
def keys (m : Graph) : List Nat := m.map (fun p => p.1)

/-- Color set of the graph (a JS `Set` filled from the node values). -/
def colorSet (nodes : Graph) : List Nat :=
  nodes.foldl (fun acc p => setAdd acc p.2.color) []

/-- Translation of `GraphSolver.heuristic`: `Math.max(0, colors.size - 1)`;
the clamp to 0 is exactly truncated `Nat` subtraction. -/
def heuristic (nodes : Graph) : Nat :=
  (colorSet nodes).length - 1

/-- Distinct colors among the still-present neighbours of a node
(`if (neighbor) neighborColors.add(neighbor.color)`). -/
def neighborColors (nodes : Graph) (nbrs : List Nat) : List Nat :=
  nbrs.foldl (fun acc nId =>
    match mapGet nodes nId with
    | some nb => setAdd acc nb.color
    | none => acc) []

/-- Translation of `GraphSolver.getPossibleMoves`: for every node, one move per
distinct neighbour color (the constant `score` field is dropped). -/
def getPossibleMoves (nodes : Graph) : List (Nat × Nat) :=
  nodes.foldl (fun acc p =>
    acc ++ (neighborColors nodes p.2.neighbors).map (fun col => (p.2.id, col))) []

/-- Body of `applyMove`'s transfer loop over a merged node's neighbours: skip
the target itself; otherwise link the deep neighbour to the target and repoint
it from the merged id to the target id. -/
def deepStep (targetId mergeId : Nat) (acc : Graph) (d : Nat) : Graph :=
  if d ≠ targetId then
    let acc1 := mapUpdate acc targetId
      (fun tn => { tn with neighbors := setAdd tn.neighbors d })
    mapUpdate acc1 d
      (fun dn => { dn with neighbors := setAdd (setDelete dn.neighbors mergeId) targetId })
  else acc

/-- Absorption of one color-matching neighbour of the target (`mergeId` loop
body of `applyMove`): accumulate its size, unlink it, transfer its neighbours,
then remove it from the map. -/
def mergeStep (targetId : Nat) (acc : Graph) (mergeId : Nat) : Graph :=
  match mapGet acc mergeId with
  | none => acc
  | some mergeNode =>
    let acc1 := mapUpdate acc targetId (fun tn =>
      { tn with
        size := tn.size + mergeNode.size
        neighbors := setDelete tn.neighbors mergeId })
    let acc2 := mergeNode.neighbors.foldl (deepStep targetId mergeId) acc1
    mapDelete acc2 mergeId

/-- Translation of `GraphSolver.applyMove`: recolor `targetId` to `newColor`
and absorb every neighbour that now matches, on a copied graph (the per-node
copy `{...node, neighbors: new Set(node.neighbors)}` is the identity in a
value-semantics model; the source's `get(...)!` assertions become no-ops on
absent ids, which the graph invariant rules out). -/
def applyMove (nodes : Graph) (targetId newColor : Nat) : Graph :=
  let newNodes := nodes
  match mapGet newNodes targetId with
  | none => newNodes
  | some _ =>
    let g1 := mapUpdate newNodes targetId (fun tn => { tn with color := newColor })
    let tgt := (mapGet g1 targetId).getD default
    let neighborsToMerge := tgt.neighbors.filter (fun nId =>
      match mapGet g1 nId with
      | some nb => nb.color == newColor
      | none => false)
    let g2 := neighborsToMerge.foldl (mergeStep targetId) g1
    mapUpdate g2 targetId (fun tn => { tn with neighbors := setDelete tn.neighbors targetId })

/-- Result record of the graph search. -/
structure GraphResult where
  steps : Nat
  path : List (Nat × Nat)
deriving Repr, DecidableEq

/-- Translation of `GraphSolver.dfs` (the unused `serializeState` bookkeeping
in `solve` is dead code). -/
def dfs (nodes : Graph) (depth limit : Nat) (path : List (Nat × Nat)) : Option GraphResult :=
  if nodes.length = 1 then some ⟨depth, path⟩
  else
    if h : limit < depth + heuristic nodes then none
    else
      (getPossibleMoves nodes).findSome? (fun mv =>
        dfs (applyMove nodes mv.1 mv.2) (depth + 1) limit (path ++ [mv]))
termination_by limit + 1 - depth
decreasing_by omega

/-- Translation of `GraphSolver.solve`: iterative deepening with
`limit = 0, 1, …, maxDepthLimit`; no iteration runs when the cap is negative. -/
def solveG (nodes : Graph) (maxDepthLimit : Int) : Option GraphResult :=
  (List.range (maxDepthLimit + 1).toNat).findSome? (fun limit => dfs nodes 0 limit [])

/-- `GraphSolver.solve()` with its signature default `maxDepthLimit = 10`. -/
def solveGDefault (nodes : Graph) : Option GraphResult := solveG nodes 10

/-! ### `GraphSolver.buildGraph` -/

/-- Cell index used by `buildGraph` (`getIdx = c * rows + r`; note this is a
different encoding from `GameGrid`'s `idx = r * cols + c`). -/
def bgIdx (rows : Nat) (x : Cell) : Nat := x.2 * rows + x.1

/-- Region-label read from the `Int32Array`; an out-of-range read is
`undefined` in the source, which every `=== -1` test treats as "not
unassigned", so a defaulted non-`-1` value is faithful. -/
def rmGet (rm : List Int) (i : Nat) : Int := rm.getD i 0

/-- Pass 1 state of `buildGraph`. -/
structure BGState where
  regionMap : List Int
  nodes : Graph
  idToCoord : List (Nat × Cell)
  counter : Nat

/-- Scan order of both passes: column-major (`for c { for r }`). -/
def scanCells (rows cols : Nat) : List Cell :=
  (List.range cols).flatMap (fun c => (List.range rows).map (fun r => ((r, c) : Cell)))

theorem getD_neg_one_lt {l : List Int} {i : Nat} (h : l.getD i 0 = -1) : i < l.length := by
  by_contra hcon
  rw [List.getD_eq_default _ _ (by omega)] at h
  omega

theorem filter_length_set_neg {l : List Int} {i : Nat} {v : Int}
    (hi : i < l.length) (hold : l.getD i 0 = -1) (hv : v ≠ -1) :
    ((l.set i v).filter (fun x => x == -1)).length + 1
      = (l.filter (fun x => x == -1)).length := by
  induction l generalizing i with
  | nil => cases hi
  | cons a l ih =>
    cases i with
    | zero =>
      have ha : a = -1 := by simpa using hold
      subst ha
      show ((v :: l).filter _).length + 1 = _
      rw [List.filter_cons_of_neg (by simpa using hv),
        List.filter_cons_of_pos (by simp)]
      simp
    | succ i =>
      have hi2 : i < l.length := by simpa using hi
      have hold2 : l.getD i 0 = -1 := by simpa using hold
      show ((a :: l.set i v).filter _).length + 1 = ((a :: l).filter _).length
      by_cases ha : a = -1
      · subst ha
        rw [List.filter_cons_of_pos (by simp), List.filter_cons_of_pos (by simp)]
        have := ih hi2 hold2
        simp only [List.length_cons]
        omega
      · rw [List.filter_cons_of_neg (by simpa using ha),
          List.filter_cons_of_neg (by simpa using ha)]
        exact ih hi2 hold2

theorem bgFold_measure (rows cols : Nat) (grid : List (List Nat)) (color id : Nat)
    (ns : List Cell) (st0 : List Int × List Cell × Nat) :
    ((ns.foldl (fun (st : List Int × List Cell × Nat) n =>
        if ¬(n.1 < rows ∧ n.2 < cols) then st
        else if cellColor? grid n.1 n.2 = some color then
          (if rmGet st.1 (bgIdx rows n) = -1 then
            (st.1.set (bgIdx rows n) (id : Int), st.2.1 ++ [n], st.2.2 + 1)
          else st)
        else st) st0).1.filter (fun v => v == -1)).length
      + (ns.foldl (fun (st : List Int × List Cell × Nat) n =>
        if ¬(n.1 < rows ∧ n.2 < cols) then st
        else if cellColor? grid n.1 n.2 = some color then
          (if rmGet st.1 (bgIdx rows n) = -1 then
            (st.1.set (bgIdx rows n) (id : Int), st.2.1 ++ [n], st.2.2 + 1)
          else st)
        else st) st0).2.1.length
    ≤ (st0.1.filter (fun v => v == -1)).length + st0.2.1.length := by
  induction ns generalizing st0 with
  | nil => exact Nat.le_refl _
  | cons n ns ih =>
    simp only [List.foldl_cons]
    refine Nat.le_trans (ih _) ?_
    by_cases h1 : ¬(n.1 < rows ∧ n.2 < cols)
    · rw [if_pos h1]
    · rw [if_neg h1]
      by_cases h2 : cellColor? grid n.1 n.2 = some color
      · rw [if_pos h2]
        by_cases h3 : rmGet st0.1 (bgIdx rows n) = -1
        · rw [if_pos h3]
          have hlt : bgIdx rows n < st0.1.length := getD_neg_one_lt h3
          have heq := filter_length_set_neg hlt h3
            (show ((id : Nat) : Int) ≠ -1 by omega)
          simp only [List.length_append, List.length_cons, List.length_nil]
          omega
        · rw [if_neg h3]
      · rw [if_neg h2]

/-- Inner BFS of `buildGraph` pass 1: assign `id` to the whole same-color
component (the source's `head` cursor into a growing array is modelled by
structurally consuming the pending part of the queue). -/
def bgBfs (rows cols : Nat) (grid : List (List Nat)) (color : Nat) (id : Nat)
    (rm : List Int) (queue : List Cell) (size : Nat) : List Int × Nat :=
  match queue with
  | [] => (rm, size)
  | curr :: rest =>
    let st := (getNeighbors rows cols curr).foldl
      (fun (st : List Int × List Cell × Nat) n =>
        if ¬(n.1 < rows ∧ n.2 < cols) then st
        else if cellColor? grid n.1 n.2 = some color then
          (if rmGet st.1 (bgIdx rows n) = -1 then
            (st.1.set (bgIdx rows n) (id : Int), st.2.1 ++ [n], st.2.2 + 1)
          else st)
        else st)
      (rm, ([], size))
    bgBfs rows cols grid color id st.1 (rest ++ st.2.1) st.2.2
termination_by (rm.filter (fun v => v == -1)).length + queue.length
decreasing_by
  have hm := bgFold_measure rows cols grid color id (getNeighbors rows cols curr)
    (rm, ([], size))
  simp only [dite_eq_ite, List.length_append, List.length_cons, List.length_nil] at hm ⊢
  omega

/-- Pass 1 of `buildGraph`: scan cells column-major; each unassigned cell
seeds a fresh region id, records its representative coordinate, and its whole
component is labeled by `bgBfs` (the source stores the node object before the
BFS and mutates its `size` in place; storing it once afterwards with the final
size is observably the same). -/
def bgPass1 (rows cols : Nat) (grid : List (List Nat)) : BGState :=
  (scanCells rows cols).foldl
    (fun st x =>
      if rmGet st.regionMap (bgIdx rows x) ≠ -1 then st
      else
        let color := colorAt grid x
        let currentId := st.counter
        let rm1 := st.regionMap.set (bgIdx rows x) (currentId : Int)
        let res := bgBfs rows cols grid color currentId rm1 [x] 1
        { regionMap := res.1
          nodes := mapSet st.nodes currentId ⟨currentId, color, res.2, []⟩
          idToCoord := st.idToCoord ++ [(currentId, x)]
          counter := currentId + 1 })
    ⟨List.replicate (rows * cols) (-1), [], [], 0⟩

/-- Pass 2 of `buildGraph`: for every adjacent cell pair with different
labels, add the symmetric edge between the two region nodes. -/
def bgPass2 (rows cols : Nat) (rm : List Int) (nodes : Graph) : Graph :=
  (scanCells rows cols).foldl
    (fun nodes x =>
      (getNeighbors rows cols x).foldl (fun nodes n =>
        if ¬(n.1 < rows ∧ n.2 < cols) then nodes
        else
          let cI := rmGet rm (bgIdx rows x)
          let nI := rmGet rm (bgIdx rows n)
          if cI ≠ nI then
            mapUpdate (mapUpdate nodes cI.toNat
              (fun nd => { nd with neighbors := setAdd nd.neighbors nI.toNat }))
              nI.toNat
              (fun nd => { nd with neighbors := setAdd nd.neighbors cI.toNat })
          else nodes) nodes)
    nodes

/-- State of a `GraphSolver` after its constructor ran `buildGraph`. -/
structure GraphSolverState where
  nodes : Graph
  initialRegionCount : Nat
  idToCoord : List (Nat × Cell)
deriving Repr

/-- Translation of `new GraphSolver(gameGrid)` (constructor runs
`buildGraph`). -/
def GraphSolver.make (g : GameGrid) : GraphSolverState :=
  let p1 := bgPass1 g.rows g.cols g.grid
  { nodes := bgPass2 g.rows g.cols p1.regionMap p1.nodes
    initialRegionCount := p1.counter
    idToCoord := p1.idToCoord }

/-- Translation of the `Solution` interface. -/
structure SolutionStep where
  region : Cell
  color : String
  description : String
deriving Repr, DecidableEq

structure Solution where
  steps : Nat
  path : List SolutionStep
deriving Repr, DecidableEq

/-- Lookup in the `idToCoord` map. -/
def coordGet (m : List (Nat × Cell)) (k : Nat) : Option Cell :=
  (m.find? (fun p => p.1 == k)).map (fun p => p.2)

/-- Translation of `GraphSolver.toSolution`. -/
def toSolution (idToCoord : List (Nat × Cell)) (graphPath : List (Nat × Nat))
    (colors : List String) : Solution :=
  { steps := graphPath.length
    path := graphPath.map (fun p =>
      let region := (coordGet idToCoord p.1).getD (0, 0)
      let colorStr := ((colors[p.2]?).orElse (fun _ => colors[0]?)).getD "#fff"
      { region := region
        color := colorStr
        description := "将位置(" ++ toString region.1 ++ ", " ++ toString region.2
          ++ ")所在的区域染成 " ++ colorStr }) }

/-- Translation of the solver flow in `gameStore.solvePuzzle` (writes to the
reactive store state are dropped; the returned value is the computed
solution).  A `GraphSolver` is constructed unconditionally and `solve(15)` is
called on it — there is no region-count short-circuit in this function. -/
def solvePuzzle (g : GameGrid) (colors : List String) : Option Solution :=
  let solver := GraphSolver.make g
  match solveG solver.nodes 15 with
  | some res => some (toSolution solver.idToCoord res.path colors)
  | none => none

/-- Instrumented form of `solvePuzzle` whose second component counts how many
region graphs the flow constructs (`new GraphSolver(grid)` runs `buildGraph`
inside its constructor): the count is 1 on every call, including when the grid
already has a single region. -/
def solvePuzzleCounting (g : GameGrid) (colors : List String) : Option Solution × Nat :=
  let solver := GraphSolver.make g
  (match solveG solver.nodes 15 with
   | some res => some (toSolution solver.idToCoord res.path colors)
   | none => none, 1)

/-! ### Association-list map lemmas -/

theorem mapGet_eq_some_iff {m : Graph} (hnd : (keys m).Nodup) {k : Nat} {v : RegionNode} :
    mapGet m k = some v ↔ (k, v) ∈ m := by
  unfold mapGet
  constructor
  · intro h
    rcases Option.map_eq_some'.1 h with ⟨p, hp, rfl⟩
    have h1 := List.find?_some hp
    have h2 := List.mem_of_find?_eq_some hp
    have h3 : p.1 = k := by simpa using h1
    rw [← h3]
    exact h2
  · intro h
    induction m with
    | nil => cases h
    | cons q m ih =>
      rcases List.mem_cons.1 h with rfl | hmem
      · rw [List.find?_cons_of_pos _ (by simp)]
        rfl
      · have hnd2 := hnd
        rw [show keys (q :: m) = q.1 :: keys m from rfl, List.nodup_cons] at hnd2
        have hq : q.1 ≠ k := by
          intro hcon
          apply hnd2.1
          rw [hcon]
          unfold keys
          exact List.mem_map.2 ⟨(k, v), hmem, rfl⟩
        rw [List.find?_cons_of_neg _ (by simpa using hq)]
        exact ih hnd2.2 hmem

theorem mem_of_mapGet_eq_some {m : Graph} {k : Nat} {v : RegionNode}
    (h : mapGet m k = some v) : (k, v) ∈ m := by
  unfold mapGet at h
  rcases Option.map_eq_some'.1 h with ⟨p, hp, rfl⟩
  have h1 := List.find?_some hp
  have h2 := List.mem_of_find?_eq_some hp
  have h3 : p.1 = k := by simpa using h1
  rw [← h3]
  exact h2

theorem mapGet_isSome_iff {m : Graph} {k : Nat} :
    (mapGet m k).isSome ↔ k ∈ keys m := by
  unfold mapGet keys
  rw [Option.isSome_map']
  rw [List.find?_isSome]
  constructor
  · rintro ⟨p, hp, hpk⟩
    exact List.mem_map.2 ⟨p, hp, by simpa using hpk⟩
  · intro h
    rcases List.mem_map.1 h with ⟨p, hp, rfl⟩
    exact ⟨p, hp, by simp⟩

theorem mapGet_eq_none_iff {m : Graph} {k : Nat} :
    mapGet m k = none ↔ k ∉ keys m := by
  rw [← mapGet_isSome_iff]
  cases mapGet m k <;> simp

theorem keys_mapUpdate (m : Graph) (k : Nat) (f : RegionNode → RegionNode) :
    keys (mapUpdate m k f) = keys m := by
  unfold keys mapUpdate
  rw [List.map_map]
  refine List.map_congr_left ?_
  intro p hp
  by_cases h : p.1 = k <;> simp [h]

theorem mapGet_mapUpdate_self {m : Graph} (hnd : (keys m).Nodup) {k : Nat}
    {v : RegionNode} (h : mapGet m k = some v) (f : RegionNode → RegionNode) :
    mapGet (mapUpdate m k f) k = some (f v) := by
  have hmem := mem_of_mapGet_eq_some h
  have hnd2 : (keys (mapUpdate m k f)).Nodup := by
    rw [keys_mapUpdate]
    exact hnd
  refine (mapGet_eq_some_iff hnd2).2 ?_
  unfold mapUpdate
  refine List.mem_map.2 ⟨(k, v), hmem, ?_⟩
  simp

theorem mapGet_mapUpdate_ne (m : Graph) (k : Nat) (f : RegionNode → RegionNode)
    {j : Nat} (hne : j ≠ k) : mapGet (mapUpdate m j f) k = mapGet m k := by
  unfold mapGet mapUpdate
  induction m with
  | nil => rfl
  | cons p m ih =>
    rw [List.map_cons]
    by_cases hp : p.1 = j
    · rw [if_pos hp]
      have hpk : ¬p.1 = k := by omega
      rw [List.find?_cons_of_neg _ (by simpa using hpk),
        List.find?_cons_of_neg _ (by simpa using hpk)]
      exact ih
    · rw [if_neg hp]
      by_cases hpk : p.1 = k
      · rw [List.find?_cons_of_pos _ (by simpa using hpk),
          List.find?_cons_of_pos _ (by simpa using hpk)]
      · rw [List.find?_cons_of_neg _ (by simpa using hpk),
          List.find?_cons_of_neg _ (by simpa using hpk)]
        exact ih

theorem mapGet_mapUpdate_absent (m : Graph) (k : Nat) (f : RegionNode → RegionNode)
    (h : mapGet m k = none) : mapGet (mapUpdate m k f) k = none := by
  rw [mapGet_eq_none_iff] at h ⊢
  rwa [keys_mapUpdate]

theorem keys_mapDelete (m : Graph) (k : Nat) :
    keys (mapDelete m k) = (keys m).filter (fun j => j != k) := by
  unfold keys mapDelete
  induction m with
  | nil => rfl
  | cons p m ih =>
    by_cases hp : p.1 = k
    · rw [List.filter_cons_of_neg (by simpa using hp), List.map_cons,
        List.filter_cons_of_neg (by simpa using hp)]
      exact ih
    · rw [List.filter_cons_of_pos (by simpa using hp), List.map_cons, List.map_cons,
        List.filter_cons_of_pos (by simpa using hp), ih]

theorem mapGet_mapDelete_self (m : Graph) (k : Nat) :
    mapGet (mapDelete m k) k = none := by
  rw [mapGet_eq_none_iff, keys_mapDelete]
  intro h
  rcases List.mem_filter.1 h with ⟨_, h2⟩
  simp at h2

theorem mapGet_mapDelete_ne (m : Graph) {k j : Nat} (hne : k ≠ j) :
    mapGet (mapDelete m j) k = mapGet m k := by
  unfold mapGet mapDelete
  induction m with
  | nil => rfl
  | cons p m ih =>
    by_cases hp : p.1 = j
    · rw [List.filter_cons_of_neg (by simpa using hp),
        List.find?_cons_of_neg _ (by simp; omega)]
      exact ih
    · rw [List.filter_cons_of_pos (by simpa using hp)]
      by_cases hpk : p.1 = k
      · rw [List.find?_cons_of_pos _ (by simpa using hpk),
          List.find?_cons_of_pos _ (by simpa using hpk)]
      · rw [List.find?_cons_of_neg _ (by simpa using hpk),
          List.find?_cons_of_neg _ (by simpa using hpk)]
        exact ih

theorem nodup_keys_mapDelete {m : Graph} (hnd : (keys m).Nodup) (k : Nat) :
    (keys (mapDelete m k)).Nodup := by
  rw [keys_mapDelete]
  exact hnd.filter _

theorem length_eq_keys_length (m : Graph) : m.length = (keys m).length := by
  unfold keys
  rw [List.length_map]

/-! ### Graph invariants and `applyMove` characterisation -/

/-- Well-formedness of a region graph (spec §3 `RegionNode` invariants):
duplicate-free keys, `id` fields matching keys, duplicate-free neighbour
sets, neighbour ids present in the map, no self-loops, symmetry, and no two
neighbouring nodes of equal color. -/
def GraphWF (g : Graph) : Prop :=
  (keys g).Nodup ∧
  (∀ p ∈ g, p.2.id = p.1) ∧
  (∀ p ∈ g, p.2.neighbors.Nodup) ∧
  (∀ p ∈ g, ∀ x ∈ p.2.neighbors, x ∈ keys g) ∧
  (∀ p ∈ g, p.1 ∉ p.2.neighbors) ∧
  (∀ p ∈ g, ∀ q ∈ g, q.1 ∈ p.2.neighbors → p.1 ∈ q.2.neighbors) ∧
  (∀ p ∈ g, ∀ q ∈ g, q.1 ∈ p.2.neighbors → p.2.color ≠ q.2.color)

instance (g : Graph) : Decidable (GraphWF g) := by
  unfold GraphWF
  infer_instance

theorem GraphWF.nodupKeys {g : Graph} (h : GraphWF g) : (keys g).Nodup := h.1

theorem GraphWF.idKey {g : Graph} (h : GraphWF g) {k : Nat} {v : RegionNode}
    (hk : mapGet g k = some v) : v.id = k :=
  h.2.1 _ (mem_of_mapGet_eq_some hk)

theorem GraphWF.nbrNodup {g : Graph} (h : GraphWF g) {k : Nat} {v : RegionNode}
    (hk : mapGet g k = some v) : v.neighbors.Nodup :=
  h.2.2.1 _ (mem_of_mapGet_eq_some hk)

theorem GraphWF.closed {g : Graph} (h : GraphWF g) {k : Nat} {v : RegionNode}
    (hk : mapGet g k = some v) {x : Nat} (hx : x ∈ v.neighbors) : x ∈ keys g :=
  h.2.2.2.1 _ (mem_of_mapGet_eq_some hk) x hx

theorem GraphWF.irrefl {g : Graph} (h : GraphWF g) {k : Nat} {v : RegionNode}
    (hk : mapGet g k = some v) : k ∉ v.neighbors :=
  h.2.2.2.2.1 _ (mem_of_mapGet_eq_some hk)

theorem GraphWF.nbrSymm {g : Graph} (h : GraphWF g) {k j : Nat} {v w : RegionNode}
    (hk : mapGet g k = some v) (hj : mapGet g j = some w) (hjv : j ∈ v.neighbors) :
    k ∈ w.neighbors :=
  h.2.2.2.2.2.1 _ (mem_of_mapGet_eq_some hk) _ (mem_of_mapGet_eq_some hj) hjv

theorem GraphWF.proper {g : Graph} (h : GraphWF g) {k j : Nat} {v w : RegionNode}
    (hk : mapGet g k = some v) (hj : mapGet g j = some w) (hjv : j ∈ v.neighbors) :
    v.color ≠ w.color :=
  h.2.2.2.2.2.2 _ (mem_of_mapGet_eq_some hk) _ (mem_of_mapGet_eq_some hj) hjv

/-- A neighbour id of a present node resolves to a node (closed graphs). -/
theorem GraphWF.closed_get {g : Graph} (h : GraphWF g) {k : Nat} {v : RegionNode}
    (hk : mapGet g k = some v) {x : Nat} (hx : x ∈ v.neighbors) :
    ∃ w, mapGet g x = some w := by
  have hmem := GraphWF.closed h hk hx
  have := mapGet_isSome_iff.2 hmem
  cases hget : mapGet g x
  · rw [hget] at this
    cases this
  · exact ⟨_, rfl⟩

/-- The list of neighbours `applyMove` absorbs, stated against the input
graph: neighbours of the target whose node wears the new color. -/
def mergeList (g : Graph) (t c : Nat) : List Nat :=
  match mapGet g t with
  | none => []
  | some tn => tn.neighbors.filter (fun nId =>
      match mapGet g nId with
      | some nb => nb.color == c
      | none => false)

theorem mem_mergeList_iff {g : Graph} {t c : Nat} {tn : RegionNode}
    (ht : mapGet g t = some tn) {m : Nat} :
    m ∈ mergeList g t c ↔
      m ∈ tn.neighbors ∧ ∃ nm, mapGet g m = some nm ∧ nm.color = c := by
  unfold mergeList
  rw [ht]
  show m ∈ tn.neighbors.filter _ ↔ _
  rw [List.mem_filter]
  constructor
  · rintro ⟨h1, h2⟩
    refine ⟨h1, ?_⟩
    rcases hm : mapGet g m with _ | nm
    · rw [hm] at h2
      exact absurd h2 (by simp)
    · rw [hm] at h2
      exact ⟨nm, rfl, by simpa using h2⟩
  · rintro ⟨h1, nm, h2, h3⟩
    refine ⟨h1, ?_⟩
    rw [h2]
    simpa using h3

/-- Effect of the neighbour-transfer loop of `mergeStep` (folding `deepStep`
over the merge node's neighbour list `l`) on every map entry, at the level of
membership: the target gains the non-target entries of `l`, every node of `l`
loses `m` and gains the target, everything else is untouched. -/
theorem deepFold_get (t m : Nat) (l : List Nat) (acc : Graph)
    (hnd : (keys acc).Nodup) {tno : RegionNode} (ht : mapGet acc t = some tno) :
    keys (l.foldl (deepStep t m) acc) = keys acc ∧
    (∃ tno', mapGet (l.foldl (deepStep t m) acc) t = some tno' ∧
       tno'.id = tno.id ∧ tno'.color = tno.color ∧
       (tno.neighbors.Nodup → tno'.neighbors.Nodup) ∧
       (∀ x, x ∈ tno'.neighbors ↔ x ∈ tno.neighbors ∨ (x ∈ l ∧ x ≠ t))) ∧
    (∀ i, i ≠ t → ∀ ni, mapGet acc i = some ni →
       ∃ ni', mapGet (l.foldl (deepStep t m) acc) i = some ni' ∧
         ni'.id = ni.id ∧ ni'.color = ni.color ∧
         (ni.neighbors.Nodup → ni'.neighbors.Nodup) ∧
         (∀ x, x ∈ ni'.neighbors ↔
            if i ∈ l then ((x ∈ ni.neighbors ∧ x ≠ m) ∨ x = t)
            else x ∈ ni.neighbors)) ∧
    (∀ i, mapGet acc i = none → mapGet (l.foldl (deepStep t m) acc) i = none) := by
  induction l generalizing acc tno with
  | nil =>
    refine ⟨rfl, ⟨tno, ht, rfl, rfl, fun h => h, fun x => by simp⟩, ?_, fun i h => h⟩
    intro i hi ni hni
    exact ⟨ni, hni, rfl, rfl, fun h => h, fun x => by simp⟩
  | cons d l' ih =>
    rw [List.foldl_cons]
    by_cases hdt : d = t
    · have hstep : deepStep t m acc d = acc := by
        unfold deepStep
        rw [if_neg (by simp [hdt])]
      rw [hstep]
      obtain ⟨hkeys, ⟨tno', htno', hid, hcol, hnodup, hmem⟩, hother, hnone⟩ := ih acc hnd ht
      refine ⟨hkeys, ⟨tno', htno', hid, hcol, hnodup, ?_⟩, ?_, hnone⟩
      · intro x
        rw [hmem x, List.mem_cons]
        constructor
        · rintro (h | ⟨h1, h2⟩)
          · exact Or.inl h
          · exact Or.inr ⟨Or.inr h1, h2⟩
        · rintro (h | ⟨(rfl | h1), h2⟩)
          · exact Or.inl h
          · exact absurd hdt h2
          · exact Or.inr ⟨h1, h2⟩
      · intro i hi ni hni
        obtain ⟨ni', hget, hid2, hcol2, hnd2, hmem2⟩ := hother i hi ni hni
        refine ⟨ni', hget, hid2, hcol2, hnd2, ?_⟩
        intro x
        rw [hmem2 x]
        by_cases hil : i ∈ l'
        · rw [if_pos hil, if_pos (List.mem_cons_of_mem _ hil)]
        · rw [if_neg hil, if_neg (by
            rw [List.mem_cons]
            rintro (rfl | h)
            · exact hi hdt
            · exact hil h)]
    · have hstep : deepStep t m acc d =
          mapUpdate (mapUpdate acc t (fun tn =>
              { tn with neighbors := setAdd tn.neighbors d })) d
            (fun dn =>
              { dn with neighbors := setAdd (setDelete dn.neighbors m) t }) := by
        unfold deepStep
        rw [if_pos (by simpa using hdt)]
      rw [hstep]
      set f1 : RegionNode → RegionNode :=
        fun tn => { tn with neighbors := setAdd tn.neighbors d } with hf1
      set f2 : RegionNode → RegionNode :=
        fun dn => { dn with neighbors := setAdd (setDelete dn.neighbors m) t } with hf2
      have hk1 : keys (mapUpdate (mapUpdate acc t f1) d f2) = keys acc := by
        rw [keys_mapUpdate, keys_mapUpdate]
      have hnd' : (keys (mapUpdate (mapUpdate acc t f1) d f2)).Nodup := by
        rw [hk1]; exact hnd
      have hnd1 : (keys (mapUpdate acc t f1)).Nodup := by
        rw [keys_mapUpdate]; exact hnd
      have ht1 : mapGet (mapUpdate acc t f1) t = some (f1 tno) :=
        mapGet_mapUpdate_self hnd ht f1
      have ht' : mapGet (mapUpdate (mapUpdate acc t f1) d f2) t = some (f1 tno) := by
        rw [mapGet_mapUpdate_ne _ _ _ hdt]
        exact ht1
      obtain ⟨hkeys, ⟨tno', htno', hid, hcol, hnodup, hmem⟩, hother, hnone⟩ :=
        ih _ hnd' ht'
      refine ⟨hkeys.trans hk1, ⟨tno', htno', hid, hcol, ?_, ?_⟩, ?_, ?_⟩
      · intro h
        exact hnodup (nodup_setAdd h)
      · intro x
        rw [hmem x]
        have hf1mem : x ∈ (f1 tno).neighbors ↔ x ∈ tno.neighbors ∨ x = d := mem_setAdd
        rw [hf1mem, List.mem_cons]
        constructor
        · rintro ((h | rfl) | ⟨h1, h2⟩)
          · exact Or.inl h
          · exact Or.inr ⟨Or.inl rfl, hdt⟩
          · exact Or.inr ⟨Or.inr h1, h2⟩
        · rintro (h | ⟨(rfl | h1), h2⟩)
          · exact Or.inl (Or.inl h)
          · exact Or.inl (Or.inr rfl)
          · exact Or.inr ⟨h1, h2⟩
      · intro i hi ni hni
        by_cases hid' : i = d
        · subst hid'
          have h1 : mapGet (mapUpdate acc t f1) i = some ni := by
            rw [mapGet_mapUpdate_ne _ _ _ (fun h => hi h.symm)]
            exact hni
          have h2 : mapGet (mapUpdate (mapUpdate acc t f1) i f2) i = some (f2 ni) :=
            mapGet_mapUpdate_self hnd1 h1 f2
          obtain ⟨ni', hget, hid2, hcol2, hnd2, hmem2⟩ := hother i hi (f2 ni) h2
          refine ⟨ni', hget, hid2, hcol2, ?_, ?_⟩
          · intro h
            exact hnd2 (nodup_setAdd (nodup_setDelete h))
          · intro x
            rw [hmem2 x, if_pos (List.mem_cons_self i l')]
            have hf2mem : x ∈ (f2 ni).neighbors ↔
                (x ∈ ni.neighbors ∧ x ≠ m) ∨ x = t := by
              show x ∈ setAdd (setDelete ni.neighbors m) t ↔ _
              rw [mem_setAdd, mem_setDelete]
            by_cases hil : i ∈ l'
            · rw [if_pos hil, hf2mem]
              constructor
              · rintro (⟨(⟨h1, h2⟩ | rfl), h3⟩ | rfl)
                · exact Or.inl ⟨h1, h2⟩
                · exact Or.inr rfl
                · exact Or.inr rfl
              · rintro (⟨h1, h2⟩ | rfl)
                · exact Or.inl ⟨Or.inl ⟨h1, h2⟩, h2⟩
                · exact Or.inr rfl
            · rw [if_neg hil, hf2mem]
        · have h1 : mapGet (mapUpdate (mapUpdate acc t f1) d f2) i = some ni := by
            rw [mapGet_mapUpdate_ne _ _ _ (fun h => hid' h.symm),
              mapGet_mapUpdate_ne _ _ _ (fun h => hi h.symm)]
            exact hni
          obtain ⟨ni', hget, hid2, hcol2, hnd2, hmem2⟩ := hother i hi ni h1
          refine ⟨ni', hget, hid2, hcol2, hnd2, ?_⟩
          intro x
          rw [hmem2 x]
          by_cases hil : i ∈ l'
          · rw [if_pos hil, if_pos (List.mem_cons_of_mem _ hil)]
          · rw [if_neg hil, if_neg (by
              rw [List.mem_cons]
              rintro (h | h)
              · exact hid' h
              · exact hil h)]
      · intro i hni
        have hit : i ≠ t := by
          rintro rfl
          rw [hni] at ht
          cases ht
        apply hnone
        by_cases hid' : i = d
        · subst hid'
          apply mapGet_mapUpdate_absent
          rw [mapGet_mapUpdate_ne _ _ _ (fun h => hit h.symm)]
          exact hni
        · rw [mapGet_mapUpdate_ne _ _ _ (fun h => hid' h.symm),
            mapGet_mapUpdate_ne _ _ _ (fun h => hit h.symm)]
          exact hni

theorem mergeList_nodup {g : Graph} {t c : Nat} {tn : RegionNode}
    (hWF : GraphWF g) (ht : mapGet g t = some tn) : (mergeList g t c).Nodup := by
  unfold mergeList
  rw [ht]
  exact (hWF.nbrNodup ht).filter _

theorem mergeList_spec {g : Graph} {t c : Nat} {tn : RegionNode}
    (hWF : GraphWF g) (ht : mapGet g t = some tn) {m : Nat}
    (hm : m ∈ mergeList g t c) :
    m ≠ t ∧ m ∈ tn.neighbors ∧ ∃ nm, mapGet g m = some nm ∧ nm.color = c := by
  obtain ⟨hmtn, nm, hnm, hc⟩ := (mem_mergeList_iff ht).1 hm
  refine ⟨?_, hmtn, nm, hnm, hc⟩
  rintro rfl
  exact GraphWF.irrefl hWF ht hmtn

/-- Two absorbed neighbours are never adjacent: both wear the new color and
the graph is properly colored. -/
theorem mergeList_not_adjacent {g : Graph} {t c : Nat} {tn : RegionNode}
    (hWF : GraphWF g) (ht : mapGet g t = some tn) {a b : Nat}
    (ha : a ∈ mergeList g t c) (hb : b ∈ mergeList g t c) {na : RegionNode}
    (hna : mapGet g a = some na) : b ∉ na.neighbors := by
  obtain ⟨-, -, na0, hna0, hca⟩ := mergeList_spec hWF ht ha
  obtain ⟨-, -, nb, hnb, hcb⟩ := mergeList_spec hWF ht hb
  have hna' : na0 = na := Option.some.inj (hna0.symm.trans hna)
  subst hna'
  intro hmem
  exact GraphWF.proper hWF hna0 hnb hmem (hca.trans hcb.symm)

/-- Invariant of the merge loop of `applyMove`: after absorbing the prefix
`P` of the merge list, the target carries the transferred adjacencies, the
untouched nodes have had absorbed neighbours replaced by the target, and
exactly the absorbed nodes have disappeared. -/
structure MergeInv (g : Graph) (t c : Nat) (tn : RegionNode) (P : List Nat)
    (acc : Graph) : Prop where
  keysNodup : (keys acc).Nodup
  target : ∃ tP, mapGet acc t = some tP ∧ tP.id = tn.id ∧ tP.color = c ∧
    tP.neighbors.Nodup ∧
    (∀ x, x ∈ tP.neighbors ↔ x ∉ P ∧ x ≠ t ∧
      (x ∈ tn.neighbors ∨ ∃ m ∈ P, ∃ nm, mapGet g m = some nm ∧ x ∈ nm.neighbors))
  other : ∀ i, i ≠ t → i ∉ P → ∀ ni, mapGet g i = some ni →
    ∃ ni', mapGet acc i = some ni' ∧ ni'.id = ni.id ∧ ni'.color = ni.color ∧
      ni'.neighbors.Nodup ∧
      (∀ x, x ∈ ni'.neighbors ↔
        ((x ∈ ni.neighbors ∧ x ∉ P) ∨ (x = t ∧ ∃ m ∈ P, m ∈ ni.neighbors)))
  gone : ∀ i, mapGet acc i = none ↔ (mapGet g i = none ∨ i ∈ P)

theorem mergeStep_inv {g : Graph} {t c : Nat} {tn : RegionNode}
    (hWF : GraphWF g) (ht : mapGet g t = some tn)
    {P : List Nat} {acc : Graph} {m : Nat}
    (hmM : m ∈ mergeList g t c) (hmP : m ∉ P)
    (hPM : ∀ p ∈ P, p ∈ mergeList g t c)
    (hinv : MergeInv g t c tn P acc) :
    MergeInv g t c tn (P ++ [m]) (mergeStep t acc m) := by
  obtain ⟨hmt, hmtn, nm, hnm, hnmc⟩ := mergeList_spec hWF ht hmM
  obtain ⟨nm', hgetm, hidm, hcolm, hndm, hmemm⟩ := hinv.other m hmt hmP nm hnm
  have hmemm' : ∀ x, x ∈ nm'.neighbors ↔ x ∈ nm.neighbors := by
    intro x
    rw [hmemm x]
    constructor
    · rintro (⟨h1, -⟩ | ⟨rfl, m', hm'P, hm'nm⟩)
      · exact h1
      · exact absurd hm'nm (mergeList_not_adjacent hWF ht hmM (hPM m' hm'P) hnm)
    · intro h1
      exact Or.inl ⟨h1, fun hP =>
        mergeList_not_adjacent hWF ht hmM (hPM x hP) hnm h1⟩
  have hnmnotM : ∀ x ∈ nm.neighbors, x ∉ mergeList g t c := by
    intro x hx hxM
    exact mergeList_not_adjacent hWF ht hmM hxM hnm hx
  have hnmnotm : ∀ x ∈ nm.neighbors, x ≠ m := by
    intro x hx hxm
    exact GraphWF.irrefl hWF hnm (hxm ▸ hx)
  have hstep : mergeStep t acc m =
      mapDelete (nm'.neighbors.foldl (deepStep t m)
        (mapUpdate acc t (fun tno =>
          { tno with
            size := tno.size + nm'.size
            neighbors := setDelete tno.neighbors m }))) m := by
    unfold mergeStep
    rw [hgetm]
  rw [hstep]
  set f : RegionNode → RegionNode := fun tno =>
    { tno with
      size := tno.size + nm'.size
      neighbors := setDelete tno.neighbors m } with hf
  obtain ⟨tP, hgetT, hidT, hcolT, hndT, hmemT⟩ := hinv.target
  have hnd1 : (keys (mapUpdate acc t f)).Nodup := by
    rw [keys_mapUpdate]
    exact hinv.keysNodup
  have ht1 : mapGet (mapUpdate acc t f) t = some (f tP) :=
    mapGet_mapUpdate_self hinv.keysNodup hgetT f
  obtain ⟨hkeys2, ⟨tP2, hgetT2, hidT2, hcolT2, hndT2, hmemT2⟩, hother2, hnone2⟩ :=
    deepFold_get t m nm'.neighbors (mapUpdate acc t f) hnd1 ht1
  have hkeysAcc2 : keys (nm'.neighbors.foldl (deepStep t m) (mapUpdate acc t f)) =
      keys acc := by
    rw [hkeys2, keys_mapUpdate]
  refine ⟨?_, ?_, ?_, ?_⟩
  · apply nodup_keys_mapDelete
    rw [hkeysAcc2]
    exact hinv.keysNodup
  · refine ⟨tP2, ?_, hidT2.trans hidT, hcolT2.trans hcolT, ?_, ?_⟩
    · rw [mapGet_mapDelete_ne _ (fun h => hmt h.symm)]
      exact hgetT2
    · exact hndT2 (nodup_setDelete hndT)
    · intro x
      rw [hmemT2 x, hmemm' x]
      have hfmem : x ∈ (f tP).neighbors ↔ x ∈ tP.neighbors ∧ x ≠ m := by
        show x ∈ setDelete tP.neighbors m ↔ _
        exact mem_setDelete
      rw [hfmem]
      constructor
      · rintro (⟨hxtP, hxm⟩ | ⟨hxnm, hxt⟩)
        · obtain ⟨hxP, hxt, hdisj⟩ := (hmemT x).1 hxtP
          refine ⟨?_, hxt, ?_⟩
          · intro hmem
            rcases List.mem_append.1 hmem with h | h
            · exact hxP h
            · exact hxm (List.mem_singleton.1 h)
          · rcases hdisj with h | ⟨m'', h1, rest⟩
            · exact Or.inl h
            · exact Or.inr ⟨m'', List.mem_append.2 (Or.inl h1), rest⟩
        · refine ⟨?_, hxt, Or.inr ⟨m, List.mem_append.2 (Or.inr (List.mem_singleton.2 rfl)),
            nm, hnm, hxnm⟩⟩
          intro hmem
          rcases List.mem_append.1 hmem with h | h
          · exact hnmnotM x hxnm (hPM x h)
          · exact hnmnotm x hxnm (List.mem_singleton.1 h)
      · rintro ⟨hxP', hxt, hdisj⟩
        have hxP : x ∉ P := fun h => hxP' (List.mem_append.2 (Or.inl h))
        have hxm : x ≠ m := fun h =>
          hxP' (List.mem_append.2 (Or.inr (List.mem_singleton.2 h)))
        rcases hdisj with hxtn | ⟨m'', hm''mem, nm'', hnm'', hxnm''⟩
        · exact Or.inl ⟨(hmemT x).2 ⟨hxP, hxt, Or.inl hxtn⟩, hxm⟩
        · rcases List.mem_append.1 hm''mem with h | h
          · exact Or.inl ⟨(hmemT x).2 ⟨hxP, hxt, Or.inr ⟨m'', h, nm'', hnm'', hxnm''⟩⟩, hxm⟩
          · have hm''m : m'' = m := List.mem_singleton.1 h
            subst hm''m
            have : nm'' = nm := Option.some.inj (hnm''.symm.trans hnm)
            subst this
            exact Or.inr ⟨hxnm'', hxt⟩
  · intro i hit hiP' ni hni
    have hiP : i ∉ P := fun h => hiP' (List.mem_append.2 (Or.inl h))
    have him : i ≠ m := fun h =>
      hiP' (List.mem_append.2 (Or.inr (List.mem_singleton.2 h)))
    obtain ⟨ni', hgeti, hidi, hcoli, hndi, hmemi⟩ := hinv.other i hit hiP ni hni
    have hgeti1 : mapGet (mapUpdate acc t f) i = some ni' := by
      rw [mapGet_mapUpdate_ne _ _ _ (fun h => hit h.symm)]
      exact hgeti
    obtain ⟨ni2, hgeti2, hidi2, hcoli2, hndi2, hmemi2⟩ := hother2 i hit ni' hgeti1
    refine ⟨ni2, ?_, hidi2.trans hidi, hcoli2.trans hcoli, hndi2 hndi, ?_⟩
    · rw [mapGet_mapDelete_ne _ him]
      exact hgeti2
    · intro x
      rw [hmemi2 x]
      by_cases hinm : i ∈ nm.neighbors
      · rw [if_pos ((hmemm' i).2 hinm), hmemi x]
        have hmni : m ∈ ni.neighbors := GraphWF.nbrSymm hWF hnm hni hinm
        constructor
        · rintro (⟨(⟨hx, hxP⟩ | ⟨rfl, m'', hm''P, hm''ni⟩), hxm⟩ | rfl)
          · refine Or.inl ⟨hx, ?_⟩
            intro hmem
            rcases List.mem_append.1 hmem with h | h
            · exact hxP h
            · exact hxm (List.mem_singleton.1 h)
          · exact Or.inr ⟨rfl, m'', List.mem_append.2 (Or.inl hm''P), hm''ni⟩
          · exact Or.inr ⟨rfl, m,
              List.mem_append.2 (Or.inr (List.mem_singleton.2 rfl)), hmni⟩
        · rintro (⟨hx, hxP'⟩ | ⟨rfl, -⟩)
          · exact Or.inl ⟨Or.inl ⟨hx, fun h => hxP' (List.mem_append.2 (Or.inl h))⟩,
              fun h => hxP' (List.mem_append.2 (Or.inr (List.mem_singleton.2 h)))⟩
          · exact Or.inr rfl
      · rw [if_neg (fun h => hinm ((hmemm' i).1 h)), hmemi x]
        have hmni : m ∉ ni.neighbors := fun h =>
          hinm (GraphWF.nbrSymm hWF hni hnm h)
        constructor
        · rintro (⟨hx, hxP⟩ | ⟨rfl, m'', hm''P, hm''ni⟩)
          · refine Or.inl ⟨hx, ?_⟩
            intro hmem
            rcases List.mem_append.1 hmem with h | h
            · exact hxP h
            · exact hmni ((List.mem_singleton.1 h) ▸ hx)
          · exact Or.inr ⟨rfl, m'', List.mem_append.2 (Or.inl hm''P), hm''ni⟩
        · rintro (⟨hx, hxP'⟩ | ⟨rfl, m'', hm''mem, hm''ni⟩)
          · exact Or.inl ⟨hx, fun h => hxP' (List.mem_append.2 (Or.inl h))⟩
          · rcases List.mem_append.1 hm''mem with h | h
            · exact Or.inr ⟨rfl, m'', h, hm''ni⟩
            · exact absurd ((List.mem_singleton.1 h) ▸ hm''ni) hmni
  · intro i
    by_cases him : i = m
    · subst him
      constructor
      · intro _
        exact Or.inr (List.mem_append.2 (Or.inr (List.mem_singleton.2 rfl)))
      · intro _
        exact mapGet_mapDelete_self _ i
    · rw [mapGet_mapDelete_ne _ him, mapGet_eq_none_iff, hkeysAcc2,
        ← mapGet_eq_none_iff, hinv.gone i]
      constructor
      · rintro (h | h)
        · exact Or.inl h
        · exact Or.inr (List.mem_append.2 (Or.inl h))
      · rintro (h | h)
        · exact Or.inl h
        · rcases List.mem_append.1 h with h | h
          · exact Or.inr h
          · exact absurd (List.mem_singleton.1 h) him

theorem mergeFold_inv {g : Graph} {t c : Nat} {tn : RegionNode}
    (hWF : GraphWF g) (ht : mapGet g t = some tn) :
    ∀ (L P : List Nat) (acc : Graph), P ++ L = mergeList g t c →
      MergeInv g t c tn P acc →
      MergeInv g t c tn (P ++ L) (L.foldl (mergeStep t) acc) := by
  intro L
  induction L with
  | nil =>
    intro P acc _ hinv
    simpa using hinv
  | cons m L' ih =>
    intro P acc hPL hinv
    have hnd : (P ++ m :: L').Nodup := by
      rw [hPL]
      exact mergeList_nodup hWF ht
    have hmM : m ∈ mergeList g t c := by
      rw [← hPL]
      exact List.mem_append.2 (Or.inr (List.mem_cons_self m L'))
    have hmP : m ∉ P := by
      intro h
      rcases List.nodup_append.1 hnd with ⟨-, -, hdisj⟩
      exact hdisj h (List.mem_cons_self m L')
    have hPM : ∀ p ∈ P, p ∈ mergeList g t c := by
      intro p hp
      rw [← hPL]
      exact List.mem_append.2 (Or.inl hp)
    have hstep := mergeStep_inv hWF ht hmM hmP hPM hinv
    have hPL' : (P ++ [m]) ++ L' = mergeList g t c := by
      rw [List.append_assoc]
      simpa using hPL
    have := ih (P ++ [m]) (mergeStep t acc m) hPL' hstep
    rw [List.foldl_cons]
    have harr : (P ++ [m]) ++ L' = P ++ m :: L' := by
      rw [List.append_assoc]
      rfl
    rw [← harr]
    exact this

/-- `applyMove` on a present target unfolds to its recolor/merge/unlink
pipeline, with the internal neighbour filter rephrased against the input
graph as `mergeList` (legitimate because the target, the only node the
recoloring touched, is never its own neighbour in a well-formed graph). -/
theorem applyMove_eq {g : Graph} {t c : Nat} {tn : RegionNode}
    (hWF : GraphWF g) (ht : mapGet g t = some tn) :
    applyMove g t c =
      mapUpdate ((mergeList g t c).foldl (mergeStep t)
          (mapUpdate g t (fun n => { n with color := c }))) t
        (fun n => { n with neighbors := setDelete n.neighbors t }) := by
  unfold applyMove
  show (match mapGet g t with
    | none => g
    | some _ =>
      let g1 := mapUpdate g t (fun tno => { tno with color := c })
      let tgt := (mapGet g1 t).getD default
      let neighborsToMerge := tgt.neighbors.filter (fun nId =>
        match mapGet g1 nId with
        | some nb => nb.color == c
        | none => false)
      let g2 := neighborsToMerge.foldl (mergeStep t) g1
      mapUpdate g2 t (fun tno => { tno with neighbors := setDelete tno.neighbors t })) = _
  rw [ht]
  show mapUpdate ((((mapGet (mapUpdate g t fun tno => { tno with color := c }) t).getD
      default).neighbors.filter _).foldl (mergeStep t) _) t _ = _
  have hg1 : mapGet (mapUpdate g t (fun tno => { tno with color := c })) t =
      some { tn with color := c } :=
    mapGet_mapUpdate_self hWF.nodupKeys ht _
  rw [hg1]
  show mapUpdate ((List.filter _ tn.neighbors).foldl (mergeStep t) _) t _ = _
  have hfilter : tn.neighbors.filter (fun nId =>
      match mapGet (mapUpdate g t fun tno => { tno with color := c }) nId with
      | some nb => nb.color == c
      | none => false) = mergeList g t c := by
    unfold mergeList
    rw [ht]
    apply List.filter_congr
    intro x hx
    have hxt : x ≠ t := by
      rintro rfl
      exact GraphWF.irrefl hWF ht hx
    rw [mapGet_mapUpdate_ne _ _ _ (fun h => hxt h.symm)]
  rw [hfilter]

/-- Complete characterisation of `applyMove` on a well-formed graph: the
target keeps its id, wears the new color, and its adjacency becomes the old
one minus the absorbed neighbours plus their adjacencies; absorbed nodes
vanish; every other node keeps id and color and swaps absorbed neighbours
for the target. -/
theorem applyMove_get {g : Graph} {t c : Nat} {tn : RegionNode}
    (hWF : GraphWF g) (ht : mapGet g t = some tn) :
    (keys (applyMove g t c)).Nodup ∧
    (∃ tF, mapGet (applyMove g t c) t = some tF ∧ tF.id = tn.id ∧ tF.color = c ∧
      tF.neighbors.Nodup ∧
      (∀ x, x ∈ tF.neighbors ↔ x ∉ mergeList g t c ∧ x ≠ t ∧
        (x ∈ tn.neighbors ∨
          ∃ m ∈ mergeList g t c, ∃ nm, mapGet g m = some nm ∧ x ∈ nm.neighbors))) ∧
    (∀ i, i ≠ t → i ∉ mergeList g t c → ∀ ni, mapGet g i = some ni →
      ∃ ni', mapGet (applyMove g t c) i = some ni' ∧ ni'.id = ni.id ∧
        ni'.color = ni.color ∧ ni'.neighbors.Nodup ∧
        (∀ x, x ∈ ni'.neighbors ↔
          ((x ∈ ni.neighbors ∧ x ∉ mergeList g t c) ∨
           (x = t ∧ ∃ m ∈ mergeList g t c, m ∈ ni.neighbors)))) ∧
    (∀ i, mapGet (applyMove g t c) i = none ↔
      (mapGet g i = none ∨ i ∈ mergeList g t c)) := by
  have hbase : MergeInv g t c tn []
      (mapUpdate g t (fun n => { n with color := c })) := by
    refine ⟨?_, ?_, ?_, ?_⟩
    · rw [keys_mapUpdate]
      exact hWF.nodupKeys
    · refine ⟨{ tn with color := c }, mapGet_mapUpdate_self hWF.nodupKeys ht _,
        rfl, rfl, show tn.neighbors.Nodup from GraphWF.nbrNodup hWF ht, ?_⟩
      intro x
      show x ∈ tn.neighbors ↔ _
      constructor
      · intro hx
        refine ⟨by simp, ?_, Or.inl hx⟩
        rintro rfl
        exact GraphWF.irrefl hWF ht hx
      · rintro ⟨-, -, hx | ⟨m, hm, -⟩⟩
        · exact hx
        · simp at hm
    · intro i hit _ ni hni
      refine ⟨ni, ?_, rfl, rfl, hWF.nbrNodup hni, ?_⟩
      · rw [mapGet_mapUpdate_ne _ _ _ (fun h => hit h.symm)]
        exact hni
      · intro x
        simp
    · intro i
      rw [mapGet_eq_none_iff, keys_mapUpdate, ← mapGet_eq_none_iff]
      simp
  have hfold := mergeFold_inv hWF ht (mergeList g t c) [] _ (by simp) hbase
  rw [List.nil_append] at hfold
  obtain ⟨tP, hgetT, hidT, hcolT, hndT, hmemT⟩ := hfold.target
  set g2 := (mergeList g t c).foldl (mergeStep t)
    (mapUpdate g t (fun n => { n with color := c })) with hg2
  have hres := applyMove_eq hWF ht (c := c)
  have hgetF : mapGet (applyMove g t c) t =
      some { tP with neighbors := setDelete tP.neighbors t } := by
    rw [hres]
    exact mapGet_mapUpdate_self hfold.keysNodup hgetT _
  refine ⟨?_, ?_, ?_, ?_⟩
  · rw [hres, keys_mapUpdate]
    exact hfold.keysNodup
  · refine ⟨{ tP with neighbors := setDelete tP.neighbors t }, hgetF, hidT, hcolT,
      nodup_setDelete hndT, ?_⟩
    intro x
    show x ∈ setDelete tP.neighbors t ↔ _
    rw [mem_setDelete, hmemT x]
    constructor
    · rintro ⟨⟨h1, h2, h3⟩, -⟩
      exact ⟨h1, h2, h3⟩
    · rintro ⟨h1, h2, h3⟩
      exact ⟨⟨h1, h2, h3⟩, h2⟩
  · intro i hit hiM ni hni
    obtain ⟨ni', hgeti, hidi, hcoli, hndi, hmemi⟩ := hfold.other i hit hiM ni hni
    refine ⟨ni', ?_, hidi, hcoli, hndi, hmemi⟩
    rw [hres, mapGet_mapUpdate_ne _ _ _ (fun h => hit h.symm)]
    exact hgeti
  · intro i
    by_cases hit : i = t
    · subst hit
      rw [hgetF]
      constructor
      · intro h
        cases h
      · rintro (h | h)
        · rw [ht] at h
          cases h
        · exact absurd rfl (mergeList_spec hWF ht h).1
    · rw [hres, mapGet_mapUpdate_ne _ _ _ (fun h => hit h.symm)]
      exact hfold.gone i

theorem applyMove_absent {g : Graph} {t c : Nat} (h : mapGet g t = none) :
    applyMove g t c = g := by
  unfold applyMove
  show (match mapGet g t with
    | none => g
    | some _ =>
      let g1 := mapUpdate g t (fun tno => { tno with color := c })
      let tgt := (mapGet g1 t).getD default
      let neighborsToMerge := tgt.neighbors.filter (fun nId =>
        match mapGet g1 nId with
        | some nb => nb.color == c
        | none => false)
      let g2 := neighborsToMerge.foldl (mergeStep t) g1
      mapUpdate g2 t (fun tno => { tno with neighbors := setDelete tno.neighbors t })) = g
  rw [h]

/-- Introduction rule for `GraphWF` phrased through `mapGet`. -/
theorem GraphWF_of_get {g : Graph} (hnd : (keys g).Nodup)
    (hid : ∀ k v, mapGet g k = some v → v.id = k)
    (hnodup : ∀ k v, mapGet g k = some v → v.neighbors.Nodup)
    (hclosed : ∀ k v, mapGet g k = some v → ∀ x ∈ v.neighbors, x ∈ keys g)
    (hirrefl : ∀ k v, mapGet g k = some v → k ∉ v.neighbors)
    (hsymm : ∀ k v j w, mapGet g k = some v → mapGet g j = some w →
      j ∈ v.neighbors → k ∈ w.neighbors)
    (hproper : ∀ k v j w, mapGet g k = some v → mapGet g j = some w →
      j ∈ v.neighbors → v.color ≠ w.color) :
    GraphWF g := by
  have hget : ∀ p ∈ g, mapGet g p.1 = some p.2 := by
    intro p hp
    exact (mapGet_eq_some_iff hnd).2 hp
  exact ⟨hnd,
    fun p hp => hid p.1 p.2 (hget p hp),
    fun p hp => hnodup p.1 p.2 (hget p hp),
    fun p hp => hclosed p.1 p.2 (hget p hp),
    fun p hp => hirrefl p.1 p.2 (hget p hp),
    fun p hp q hq hm => hsymm p.1 p.2 q.1 q.2 (hget p hp) (hget q hq) hm,
    fun p hp q hq hm => hproper p.1 p.2 q.1 q.2 (hget p hp) (hget q hq) hm⟩


/-- `applyMove` preserves the graph invariants. -/
theorem applyMove_WF {g : Graph} (hWF : GraphWF g) (t c : Nat) :
    GraphWF (applyMove g t c) := by
  rcases hget : mapGet g t with _ | tn
  · rw [applyMove_absent hget]
    exact hWF
  · obtain ⟨hnd', ⟨tF, hgetF, hidF, hcolF, hndF, hmemF⟩, hother, hgone⟩ :=
      applyMove_get (c := c) hWF hget
    have htM : t ∉ mergeList g t c := fun h => (mergeList_spec hWF hget h).1 rfl
    have hkeys' : ∀ x, x ∈ keys (applyMove g t c) ↔
        (x ∈ keys g ∧ x ∉ mergeList g t c) := by
      intro x
      have h1 : (mapGet (applyMove g t c) x = none) ↔
          (mapGet g x = none ∨ x ∈ mergeList g t c) := hgone x
      rw [mapGet_eq_none_iff, mapGet_eq_none_iff] at h1
      constructor
      · intro hx
        constructor
        · by_contra h
          exact (h1.2 (Or.inl h)) hx
        · intro h
          exact (h1.2 (Or.inr h)) hx
      · rintro ⟨hxg, hxM⟩
        by_contra hx
        rcases h1.1 hx with h | h
        · exact h hxg
        · exact hxM h
    have hclass : ∀ k v, mapGet (applyMove g t c) k = some v → k ≠ t →
        k ∉ mergeList g t c ∧ ∃ nk, mapGet g k = some nk ∧ v.id = nk.id ∧
          v.color = nk.color ∧ v.neighbors.Nodup ∧
          (∀ x, x ∈ v.neighbors ↔
            ((x ∈ nk.neighbors ∧ x ∉ mergeList g t c) ∨
             (x = t ∧ ∃ m ∈ mergeList g t c, m ∈ nk.neighbors))) := by
      intro k v hv hkt
      have hkM : k ∉ mergeList g t c := by
        intro h
        have hnone := (hgone k).2 (Or.inr h)
        rw [hv] at hnone
        cases hnone
      rcases hk : mapGet g k with _ | nk
      · have hnone := (hgone k).2 (Or.inl hk)
        rw [hv] at hnone
        cases hnone
      · obtain ⟨ni', hni', hidi, hcoli, hndi, hmemi⟩ := hother k hkt hkM nk hk
        have : ni' = v := Option.some.inj (hni'.symm.trans hv)
        subst this
        exact ⟨hkM, nk, rfl, hidi, hcoli, hndi, hmemi⟩
    have hvt : ∀ v, mapGet (applyMove g t c) t = some v → v = tF := by
      intro v hv
      exact Option.some.inj (hv.symm.trans hgetF)
    refine GraphWF_of_get hnd' ?_ ?_ ?_ ?_ ?_ ?_
    · intro k v hv
      by_cases hkt : k = t
      · subst hkt
        rw [hvt v hv, hidF]
        exact GraphWF.idKey hWF hget
      · obtain ⟨-, nk, hk, hidi, -, -, -⟩ := hclass k v hv hkt
        rw [hidi]
        exact GraphWF.idKey hWF hk
    · intro k v hv
      by_cases hkt : k = t
      · subst hkt
        rw [hvt v hv]
        exact hndF
      · obtain ⟨-, -, -, -, -, hndi, -⟩ := hclass k v hv hkt
        exact hndi
    · intro k v hv x hx
      rw [hkeys' x]
      by_cases hkt : k = t
      · subst hkt
        rw [hvt v hv] at hx
        obtain ⟨hxM, hxt, hdisj⟩ := (hmemF x).1 hx
        refine ⟨?_, hxM⟩
        rcases hdisj with h | ⟨m, -, nm, hnm, hxm⟩
        · exact GraphWF.closed hWF hget h
        · exact GraphWF.closed hWF hnm hxm
      · obtain ⟨-, nk, hk, -, -, -, hmemi⟩ := hclass k v hv hkt
        rcases (hmemi x).1 hx with ⟨hxnk, hxM⟩ | ⟨rfl, -⟩
        · exact ⟨GraphWF.closed hWF hk hxnk, hxM⟩
        · refine ⟨?_, htM⟩
          apply mapGet_isSome_iff.1
          rw [hget]
          rfl
    · intro k v hv hx
      by_cases hkt : k = t
      · subst hkt
        rw [hvt v hv] at hx
        exact ((hmemF k).1 hx).2.1 rfl
      · obtain ⟨-, nk, hk, -, -, -, hmemi⟩ := hclass k v hv hkt
        rcases (hmemi k).1 hx with ⟨hknk, -⟩ | ⟨h, -⟩
        · exact GraphWF.irrefl hWF hk hknk
        · exact hkt h
    · intro k v j w hv hw hjv
      by_cases hkt : k = t
      · subst hkt
        rw [hvt v hv] at hjv
        obtain ⟨hjM, hjt, hdisj⟩ := (hmemF j).1 hjv
        obtain ⟨-, nj, hj, -, -, -, hmemj⟩ := hclass j w hw hjt
        rw [hmemj k]
        rcases hdisj with h | ⟨m, hmM, nm, hnm, hjm⟩
        · exact Or.inl ⟨GraphWF.nbrSymm hWF hget hj h, htM⟩
        · exact Or.inr ⟨rfl, m, hmM, GraphWF.nbrSymm hWF hnm hj hjm⟩
      · obtain ⟨hkM, nk, hk, -, -, -, hmemk⟩ := hclass k v hv hkt
        by_cases hjt : j = t
        · subst hjt
          rw [hvt w hw, hmemF k]
          rcases (hmemk j).1 hjv with ⟨hjnk, hjM⟩ | ⟨-, m, hmM, hmnk⟩
          · exact ⟨hkM, hkt, Or.inl (GraphWF.nbrSymm hWF hk hget hjnk)⟩
          · obtain ⟨-, -, nm, hnm, -⟩ := mergeList_spec hWF hget hmM
            exact ⟨hkM, hkt,
              Or.inr ⟨m, hmM, nm, hnm, GraphWF.nbrSymm hWF hk hnm hmnk⟩⟩
        · obtain ⟨hjM, nj, hj, -, -, -, hmemj⟩ := hclass j w hw hjt
          rw [hmemj k]
          rcases (hmemk j).1 hjv with ⟨hjnk, -⟩ | ⟨h, -⟩
          · exact Or.inl ⟨GraphWF.nbrSymm hWF hk hj hjnk, hkM⟩
          · exact absurd h hjt
    · intro k v j w hv hw hjv
      by_cases hkt : k = t
      · subst hkt
        rw [hvt v hv] at hjv ⊢
        obtain ⟨hjM, hjt, hdisj⟩ := (hmemF j).1 hjv
        obtain ⟨-, nj, hj, -, hcolj, -, -⟩ := hclass j w hw hjt
        rw [hcolF, hcolj]
        intro hcc
        apply hjM
        rw [mem_mergeList_iff hget]
        rcases hdisj with h | ⟨m, hmM, nm, hnm, hjm⟩
        · exact ⟨h, nj, hj, hcc.symm⟩
        · obtain ⟨-, -, nm0, hnm0, hcnm⟩ := mergeList_spec hWF hget hmM
          have : nm0 = nm := Option.some.inj (hnm0.symm.trans hnm)
          subst this
          exact absurd (hcnm.trans hcc) (GraphWF.proper hWF hnm hj hjm)
      · obtain ⟨hkM, nk, hk, -, hcolk, -, hmemk⟩ := hclass k v hv hkt
        by_cases hjt : j = t
        · subst hjt
          rw [hvt w hw, hcolk, hcolF]
          rcases (hmemk j).1 hjv with ⟨hjnk, -⟩ | ⟨-, m, hmM, hmnk⟩
          · intro hcc
            apply hkM
            rw [mem_mergeList_iff hget]
            exact ⟨GraphWF.nbrSymm hWF hk hget hjnk, nk, hk, hcc⟩
          · obtain ⟨-, -, nm, hnm, hcnm⟩ := mergeList_spec hWF hget hmM
            intro hcc
            exact GraphWF.proper hWF hk hnm hmnk (hcc.trans hcnm.symm)
        · obtain ⟨-, nj, hj, -, hcolj, -, -⟩ := hclass j w hw hjt
          rw [hcolk, hcolj]
          rcases (hmemk j).1 hjv with ⟨hjnk, -⟩ | ⟨h, -⟩
          · exact GraphWF.proper hWF hk hj hjnk
          · exact absurd h hjt

/-! ### The move space of the solver -/

theorem mem_neighborColors_fold (nodes : Graph) (x : Nat) :
    ∀ (nbrs init : List Nat),
    (x ∈ nbrs.foldl (fun acc nId =>
      match mapGet nodes nId with
      | some nb => setAdd acc nb.color
      | none => acc) init ↔
    x ∈ init ∨ ∃ j ∈ nbrs, ∃ nj, mapGet nodes j = some nj ∧ nj.color = x) := by
  intro nbrs
  induction nbrs with
  | nil => simp
  | cons j rest ih =>
    intro init
    rw [List.foldl_cons]
    rcases hj : mapGet nodes j with _ | nj
    · simp only [hj]
      rw [ih init]
      constructor
      · rintro (h | ⟨j', hj', h⟩)
        · exact Or.inl h
        · exact Or.inr ⟨j', List.mem_cons_of_mem _ hj', h⟩
      · rintro (h | ⟨j', hj', nj', hnj', hc⟩)
        · exact Or.inl h
        · rcases List.mem_cons.1 hj' with rfl | hj''
          · rw [hj] at hnj'
            cases hnj'
          · exact Or.inr ⟨j', hj'', nj', hnj', hc⟩
    · simp only [hj]
      rw [ih (setAdd init nj.color)]
      constructor
      · rintro (h | ⟨j', hj', h⟩)
        · rcases mem_setAdd.1 h with h | rfl
          · exact Or.inl h
          · exact Or.inr ⟨j, List.mem_cons_self _ _, nj, hj, rfl⟩
        · exact Or.inr ⟨j', List.mem_cons_of_mem _ hj', h⟩
      · rintro (h | ⟨j', hj', nj', hnj', hc⟩)
        · exact Or.inl (mem_setAdd.2 (Or.inl h))
        · rcases List.mem_cons.1 hj' with rfl | hj''
          · have : nj' = nj := Option.some.inj (hnj'.symm.trans hj)
            subst this
            exact Or.inl (mem_setAdd.2 (Or.inr hc.symm))
          · exact Or.inr ⟨j', hj'', nj', hnj', hc⟩

theorem mem_neighborColors_iff {nodes : Graph} {nbrs : List Nat} {x : Nat} :
    x ∈ neighborColors nodes nbrs ↔
      ∃ j ∈ nbrs, ∃ nj, mapGet nodes j = some nj ∧ nj.color = x := by
  unfold neighborColors
  rw [mem_neighborColors_fold]
  simp

theorem mem_colorSet_fold (x : Nat) :
    ∀ (l : Graph) (init : List Nat),
    (x ∈ l.foldl (fun acc p => setAdd acc p.2.color) init ↔
      x ∈ init ∨ ∃ p ∈ l, p.2.color = x) := by
  intro l
  induction l with
  | nil => simp
  | cons q rest ih =>
    intro init
    rw [List.foldl_cons, ih]
    constructor
    · rintro (h | ⟨p, hp, hc⟩)
      · rcases mem_setAdd.1 h with h | rfl
        · exact Or.inl h
        · exact Or.inr ⟨q, List.mem_cons_self _ _, rfl⟩
      · exact Or.inr ⟨p, List.mem_cons_of_mem _ hp, hc⟩
    · rintro (h | ⟨p, hp, hc⟩)
      · exact Or.inl (mem_setAdd.2 (Or.inl h))
      · rcases List.mem_cons.1 hp with rfl | hp'
        · exact Or.inl (mem_setAdd.2 (Or.inr hc.symm))
        · exact Or.inr ⟨p, hp', hc⟩

theorem mem_colorSet_iff {g : Graph} {x : Nat} :
    x ∈ colorSet g ↔ ∃ p ∈ g, p.2.color = x := by
  unfold colorSet
  rw [mem_colorSet_fold]
  simp

theorem colorSet_fold_nodup :
    ∀ (l : Graph) (init : List Nat), init.Nodup →
      (l.foldl (fun acc p => setAdd acc p.2.color) init).Nodup := by
  intro l
  induction l with
  | nil => exact fun init h => h
  | cons q rest ih =>
    intro init hinit
    rw [List.foldl_cons]
    exact ih _ (nodup_setAdd hinit)

theorem colorSet_nodup (g : Graph) : (colorSet g).Nodup :=
  colorSet_fold_nodup g [] List.nodup_nil

theorem mem_getPossibleMoves_fold (nodes : Graph) (mv : Nat × Nat) :
    ∀ (l : Graph) (init : List (Nat × Nat)),
    (mv ∈ l.foldl (fun acc p =>
        acc ++ (neighborColors nodes p.2.neighbors).map (fun col => (p.2.id, col))) init ↔
      mv ∈ init ∨
        ∃ p ∈ l, ∃ col ∈ neighborColors nodes p.2.neighbors, mv = (p.2.id, col)) := by
  intro l
  induction l with
  | nil => simp
  | cons q rest ih =>
    intro init
    rw [List.foldl_cons, ih]
    constructor
    · rintro (h | ⟨p, hp, h⟩)
      · rcases List.mem_append.1 h with h | h
        · exact Or.inl h
        · obtain ⟨col, hcol, hmv⟩ := List.mem_map.1 h
          exact Or.inr ⟨q, List.mem_cons_self _ _, col, hcol, hmv.symm⟩
      · exact Or.inr ⟨p, List.mem_cons_of_mem _ hp, h⟩
    · rintro (h | ⟨p, hp, col, hcol, hmv⟩)
      · exact Or.inl (List.mem_append.2 (Or.inl h))
      · rcases List.mem_cons.1 hp with rfl | hp'
        · exact Or.inl (List.mem_append.2 (Or.inr (List.mem_map.2 ⟨col, hcol, hmv.symm⟩)))
        · exact Or.inr ⟨p, hp', col, hcol, hmv⟩

/-- A legal move in the spec's move space: recolor a present region to the
color worn by one of its (present) neighbours. -/
def ValidMove (g : Graph) (mv : Nat × Nat) : Prop :=
  ∃ tn, mapGet g mv.1 = some tn ∧
    ∃ j ∈ tn.neighbors, ∃ nj, mapGet g j = some nj ∧ nj.color = mv.2

instance optSomeAnd_decidable {α : Type _} (o : Option α) (p : α → Prop)
    [DecidablePred p] : Decidable (∃ a, o = some a ∧ p a) :=
  match o with
  | none => isFalse (by rintro ⟨a, h, -⟩; cases h)
  | some a =>
    if h : p a then isTrue ⟨a, rfl, h⟩
    else isFalse (by rintro ⟨b, hb, hpb⟩; cases hb; exact h hpb)

instance (g : Graph) (mv : Nat × Nat) : Decidable (ValidMove g mv) := by
  unfold ValidMove
  infer_instance

/-- Sequential application of moves (each through `applyMove`). -/
def applySeq (g : Graph) : List (Nat × Nat) → Graph
  | [] => g
  | mv :: rest => applySeq (applyMove g mv.1 mv.2) rest

/-- Every move of the sequence is legal in the graph it is applied to. -/
def ValidSeq (g : Graph) : List (Nat × Nat) → Prop
  | [] => True
  | mv :: rest => ValidMove g mv ∧ ValidSeq (applyMove g mv.1 mv.2) rest

instance ValidSeq.instDec : (g : Graph) → (seq : List (Nat × Nat)) →
    Decidable (ValidSeq g seq)
  | _, [] => isTrue trivial
  | g, mv :: rest =>
    @instDecidableAnd _ _ inferInstance (ValidSeq.instDec (applyMove g mv.1 mv.2) rest)

/-- The sequence legally collapses the graph to a single region. -/
def ReachesGoal (g : Graph) (seq : List (Nat × Nat)) : Prop :=
  ValidSeq g seq ∧ (applySeq g seq).length = 1

theorem mem_getPossibleMoves_iff {g : Graph} (hWF : GraphWF g) {mv : Nat × Nat} :
    mv ∈ getPossibleMoves g ↔ ValidMove g mv := by
  unfold getPossibleMoves
  rw [mem_getPossibleMoves_fold]
  simp only [List.not_mem_nil, false_or]
  constructor
  · rintro ⟨p, hp, col, hcol, rfl⟩
    obtain ⟨j, hj, nj, hnj, hc⟩ := mem_neighborColors_iff.1 hcol
    have hpget : mapGet g p.1 = some p.2 := (mapGet_eq_some_iff hWF.nodupKeys).2 hp
    have hpid : p.2.id = p.1 := hWF.2.1 p hp
    exact ⟨p.2, by rw [show ((p.2.id, col) : Nat × Nat).1 = p.2.id from rfl, hpid]; exact hpget,
      j, hj, nj, hnj, hc⟩
  · rintro ⟨tn, htn, j, hj, nj, hnj, hc⟩
    refine ⟨(mv.1, tn), mem_of_mapGet_eq_some htn, mv.2,
      mem_neighborColors_iff.2 ⟨j, hj, nj, hnj, hc⟩, ?_⟩
    have : tn.id = mv.1 := GraphWF.idKey hWF htn
    rw [show ((mv.1, tn) : Nat × RegionNode).2 = tn from rfl, this]

theorem applySeq_WF {g : Graph} (hWF : GraphWF g) :
    ∀ seq, GraphWF (applySeq g seq) := by
  intro seq
  induction seq generalizing g with
  | nil => exact hWF
  | cons mv rest ih => exact ih (applyMove_WF hWF mv.1 mv.2)

/-! ### Admissibility of the heuristic and properties of `dfs` -/

/-- Every surviving color after a move was either the target's old color or is
still worn by some node of the result. -/
theorem colorSet_applyMove_subset {g : Graph} {t c : Nat} {tn : RegionNode}
    (hWF : GraphWF g) (ht : mapGet g t = some tn) :
    ∀ x ∈ colorSet g, x = tn.color ∨ x ∈ colorSet (applyMove g t c) := by
  intro x hx
  obtain ⟨p, hp, hpc⟩ := mem_colorSet_iff.1 hx
  have hpget : mapGet g p.1 = some p.2 := (mapGet_eq_some_iff hWF.nodupKeys).2 hp
  by_cases hpt : p.1 = t
  · have : p.2 = tn := by
      apply Option.some.inj
      rw [← hpget, ← ht, hpt]
    left
    rw [← hpc, this]
  · by_cases hpM : p.1 ∈ mergeList g t c
    · obtain ⟨-, -, nm, hnm, hcm⟩ := mergeList_spec hWF ht hpM
      have hnmp : nm = p.2 := Option.some.inj (hnm.symm.trans hpget)
      obtain ⟨-, ⟨tF, hgetF, -, hcolF, -, -⟩, -, -⟩ := applyMove_get (c := c) hWF ht
      right
      exact mem_colorSet_iff.2 ⟨(t, tF), mem_of_mapGet_eq_some hgetF,
        by rw [hcolF, ← hcm, hnmp, hpc]⟩
    · obtain ⟨-, -, hother, -⟩ := applyMove_get (c := c) hWF ht
      obtain ⟨ni', hni', -, hcoli, -, -⟩ := hother p.1 hpt hpM p.2 hpget
      right
      exact mem_colorSet_iff.2 ⟨(p.1, ni'), mem_of_mapGet_eq_some hni',
        by rw [hcoli, hpc]⟩

/-- One move removes at most one color from the graph. -/
theorem heuristic_le_applyMove {g : Graph} {t c : Nat} {tn : RegionNode}
    (hWF : GraphWF g) (ht : mapGet g t = some tn) :
    heuristic g ≤ heuristic (applyMove g t c) + 1 := by
  unfold heuristic
  have hsub : (colorSet g).toFinset ⊆
      insert tn.color (colorSet (applyMove g t c)).toFinset := by
    intro x hx
    rw [List.mem_toFinset] at hx
    rcases colorSet_applyMove_subset hWF ht x hx with h | h
    · rw [h]
      exact Finset.mem_insert_self _ _
    · exact Finset.mem_insert_of_mem (List.mem_toFinset.2 h)
  have h1 := Finset.card_le_card hsub
  have h2 := Finset.card_insert_le tn.color (colorSet (applyMove g t c)).toFinset
  have e1 : (colorSet g).toFinset.card = (colorSet g).length :=
    List.toFinset_card_of_nodup (colorSet_nodup g)
  have e2 : (colorSet (applyMove g t c)).toFinset.card =
      (colorSet (applyMove g t c)).length :=
    List.toFinset_card_of_nodup (colorSet_nodup _)
  omega

theorem heuristic_of_length_one {g : Graph} (h : g.length = 1) : heuristic g = 0 := by
  rcases g with _ | ⟨p, l⟩
  · cases h
  · rcases l with _ | ⟨q, l⟩
    · simp [heuristic, colorSet, setAdd]
    · simp at h

/-- Admissibility: the heuristic never exceeds the length of any legal
sequence that collapses the graph to one region. -/
theorem heuristic_admissible {g : Graph} {seq : List (Nat × Nat)}
    (hWF : GraphWF g) (hvs : ValidSeq g seq) (hgoal : (applySeq g seq).length = 1) :
    heuristic g ≤ seq.length := by
  induction seq generalizing g with
  | nil => simpa [heuristic_of_length_one (show g.length = 1 from hgoal)] using Nat.zero_le 0
  | cons mv rest ih =>
    obtain ⟨⟨tn, ht, -⟩, hrest⟩ := hvs
    calc heuristic g ≤ heuristic (applyMove g mv.1 mv.2) + 1 :=
        heuristic_le_applyMove hWF ht
      _ ≤ rest.length + 1 := by
        have := ih (applyMove_WF hWF mv.1 mv.2) hrest hgoal
        omega
      _ = (mv :: rest).length := by simp

/-- If any move is on offer, two neighbouring nodes with distinct colors
exist, so the heuristic is at least 1. -/
theorem heuristic_pos {g : Graph} {mv : Nat × Nat} (hWF : GraphWF g)
    (h : mv ∈ getPossibleMoves g) : 1 ≤ heuristic g := by
  rw [mem_getPossibleMoves_iff hWF] at h
  obtain ⟨tn, ht, j, hj, nj, hnj, -⟩ := h
  have hne : tn.color ≠ nj.color := GraphWF.proper hWF ht hnj hj
  have h1 : tn.color ∈ colorSet g :=
    mem_colorSet_iff.2 ⟨(mv.1, tn), mem_of_mapGet_eq_some ht, rfl⟩
  have h2 : nj.color ∈ colorSet g :=
    mem_colorSet_iff.2 ⟨(j, nj), mem_of_mapGet_eq_some hnj, rfl⟩
  have hsub : ({tn.color, nj.color} : Finset Nat) ⊆ (colorSet g).toFinset := by
    intro x hx
    rcases Finset.mem_insert.1 hx with rfl | hx
    · exact List.mem_toFinset.2 h1
    · rw [Finset.mem_singleton] at hx
      subst hx
      exact List.mem_toFinset.2 h2
  have hc2 : ({tn.color, nj.color} : Finset Nat).card = 2 := Finset.card_pair hne
  have hcard := Finset.card_le_card hsub
  have e1 : (colorSet g).toFinset.card = (colorSet g).length :=
    List.toFinset_card_of_nodup (colorSet_nodup g)
  unfold heuristic
  omega

/-- Soundness of `dfs`: a returned result extends the incoming path by a
legal goal-reaching suffix whose length accounts for the returned step
count. -/
theorem dfs_sound {res : GraphResult} :
    ∀ (g : Graph) (d L : Nat) (p : List (Nat × Nat)),
      GraphWF g → dfs g d L p = some res →
      ∃ seq, ValidSeq g seq ∧ (applySeq g seq).length = 1 ∧
        res.path = p ++ seq ∧ res.steps = d + seq.length := by
  intro g d L p
  refine dfs.induct
    (fun g d L p => GraphWF g → dfs g d L p = some res →
      ∃ seq, ValidSeq g seq ∧ (applySeq g seq).length = 1 ∧
        res.path = p ++ seq ∧ res.steps = d + seq.length) ?_ ?_ ?_ g d L p
  · intro g d L p hlen hWF hres
    rw [dfs, if_pos hlen] at hres
    have := Option.some.inj hres
    subst this
    exact ⟨[], trivial, hlen, by simp, by simp⟩
  · intro g d L p hlen hlt hWF hres
    rw [dfs, if_neg hlen, dif_pos hlt] at hres
    cases hres
  · intro g d L p hlen hnlt ih hWF hres
    rw [dfs, if_neg hlen, dif_neg hnlt] at hres
    obtain ⟨mv, hmvmem, hmv⟩ := List.exists_of_findSome?_eq_some hres
    obtain ⟨seq', hvs, hgoal, hpath, hsteps⟩ :=
      ih mv (applyMove_WF hWF mv.1 mv.2) hmv
    refine ⟨mv :: seq', ⟨(mem_getPossibleMoves_iff hWF).1 hmvmem, hvs⟩, hgoal, ?_, ?_⟩
    · rw [hpath, List.append_assoc]
      rfl
    · rw [hsteps]
      simp
      omega

/-- Completeness of `dfs`: any legal goal-reaching sequence that fits in the
remaining budget guarantees a result. -/
theorem dfs_complete :
    ∀ (seq : List (Nat × Nat)) (g : Graph) (d L : Nat) (p : List (Nat × Nat)),
      GraphWF g → ValidSeq g seq → (applySeq g seq).length = 1 →
      d + seq.length ≤ L → (dfs g d L p).isSome = true := by
  intro seq
  induction seq with
  | nil =>
    intro g d L p hWF hvs hgoal hle
    rw [dfs, if_pos (show g.length = 1 from hgoal)]
    rfl
  | cons mv rest ih =>
    intro g d L p hWF hvs hgoal hle
    by_cases hlen : g.length = 1
    · rw [dfs, if_pos hlen]
      rfl
    · have hh : heuristic g ≤ rest.length + 1 := by
        simpa using heuristic_admissible hWF hvs hgoal
      have hnlt : ¬ (L < d + heuristic g) := by
        simp only [List.length_cons] at hle
        omega
      rw [dfs, if_neg hlen, dif_neg hnlt, List.findSome?_isSome_iff]
      refine ⟨mv, (mem_getPossibleMoves_iff hWF).2 hvs.1, ?_⟩
      exact ih (applyMove g mv.1 mv.2) (d + 1) L (p ++ [mv])
        (applyMove_WF hWF mv.1 mv.2) hvs.2 hgoal
        (by simp only [List.length_cons] at hle; omega)

/-- A result of `dfs` never exceeds the depth limit it searched under. -/
theorem dfs_le_limit {res : GraphResult} :
    ∀ (g : Graph) (d L : Nat) (p : List (Nat × Nat)),
      GraphWF g → d ≤ L → dfs g d L p = some res → res.steps ≤ L := by
  intro g d L p
  refine dfs.induct
    (fun g d L p => GraphWF g → d ≤ L → dfs g d L p = some res → res.steps ≤ L)
    ?_ ?_ ?_ g d L p
  · intro g d L p hlen hWF hdL hres
    rw [dfs, if_pos hlen] at hres
    have := Option.some.inj hres
    subst this
    exact hdL
  · intro g d L p hlen hlt hWF hdL hres
    rw [dfs, if_neg hlen, dif_pos hlt] at hres
    cases hres
  · intro g d L p hlen hnlt ih hWF hdL hres
    rw [dfs, if_neg hlen, dif_neg hnlt] at hres
    obtain ⟨mv, hmvmem, hmv⟩ := List.exists_of_findSome?_eq_some hres
    have hpos := heuristic_pos hWF hmvmem
    exact ih mv (applyMove_WF hWF mv.1 mv.2) (by omega) hmv

/-- The first success of `findSome?`, by position: everything before it
fails. -/
theorem findSome?_first_idx {α β : Type _} {f : α → Option β} {b : β} :
    ∀ {l : List α}, l.findSome? f = some b →
    ∃ i, ∃ hi : i < l.length, f (l.get ⟨i, hi⟩) = some b ∧
      ∀ j (hj : j < l.length), j < i → f (l.get ⟨j, hj⟩) = none := by
  intro l
  induction l with
  | nil =>
    intro h
    rw [List.findSome?_nil] at h
    cases h
  | cons a l ih =>
    intro h
    rcases hfa : f a with _ | b'
    · simp only [List.findSome?_cons, hfa] at h
      obtain ⟨i, hi, hfi, hprev⟩ := ih h
      refine ⟨i + 1, by simpa using Nat.succ_lt_succ hi, hfi, ?_⟩
      intro j hj hji
      rcases j with _ | j
      · exact hfa
      · exact hprev j (by simpa using Nat.lt_of_succ_lt_succ hj) (by omega)
    · simp only [List.findSome?_cons, hfa] at h
      refine ⟨0, by simp, by show f a = some b; rw [hfa, h], ?_⟩
      intro j hj hji
      omega

/-- Optimality of the iterative-deepening driver: a returned result is itself
a legal goal-reaching sequence, its step count is its length, and no legal
goal-reaching sequence is shorter. -/
theorem solveG_spec {g : Graph} {m : Int} {res : GraphResult}
    (hWF : GraphWF g) (h : solveG g m = some res) :
    ReachesGoal g res.path ∧ res.path.length = res.steps ∧
    ∀ seq, ReachesGoal g seq → res.steps ≤ seq.length := by
  unfold solveG at h
  obtain ⟨i, hi, hfi, hprev⟩ := findSome?_first_idx h
  rw [List.get_range] at hfi
  obtain ⟨seq, hvs, hgoal, hpath, hsteps⟩ := dfs_sound g 0 i [] hWF hfi
  rw [List.nil_append] at hpath
  have hle : res.steps ≤ i := dfs_le_limit g 0 i [] hWF (Nat.zero_le i) hfi
  refine ⟨⟨by rw [hpath]; exact hvs, by rw [hpath]; exact hgoal⟩, ?_, ?_⟩
  · rw [hpath, hsteps]
    omega
  · rintro seq' ⟨hvs', hgoal'⟩
    by_contra hcon
    push_neg at hcon
    have hlen : seq'.length < i := lt_of_lt_of_le hcon hle
    have hsome := dfs_complete seq' g 0 seq'.length [] hWF hvs' hgoal' (by omega)
    have hnone := hprev seq'.length
      (by rw [List.length_range]; rw [List.length_range] at hi; omega) hlen
    rw [List.get_range] at hnone
    rw [hnone] at hsome
    cases hsome

/-- A negative cap empties the limit loop. -/
theorem solveG_neg {g : Graph} {m : Int} (hm : m < 0) : solveG g m = none := by
  unfold solveG
  rw [show (m + 1).toNat = 0 from by omega, List.range_zero, List.findSome?_nil]

/-- With a nonnegative cap, a single-node graph yields the zero-step result
in the very first iteration. -/
theorem solveG_single {g : Graph} {m : Int} (hm : 0 ≤ m) (hg : g.length = 1) :
    solveG g m = some ⟨0, []⟩ := by
  unfold solveG
  have h1 : (m + 1).toNat = ((m + 1).toNat - 1) + 1 := by omega
  rw [h1, List.range_succ_eq_map, List.findSome?_cons]
  have h0 : dfs g 0 0 [] = some ⟨0, []⟩ := by
    rw [dfs, if_pos hg]
  rw [h0]

/-- A branch whose budget is below the heuristic is pruned outright. -/
theorem dfs_prune {g : Graph} {d L : Nat} {p : List (Nat × Nat)}
    (hg : g.length ≠ 1) (hh : L < d + heuristic g) : dfs g d L p = none := by
  rw [dfs, if_neg hg, dif_pos hh]

/-- If even the largest budget of the loop is below the heuristic, the whole
iterative deepening fails. -/
theorem solveG_none_of_heuristic {g : Graph} {m : Int} (hg : g.length ≠ 1)
    (hh : (m + 1).toNat ≤ heuristic g) : solveG g m = none := by
  unfold solveG
  rw [List.findSome?_eq_none_iff]
  intro L hL
  rw [List.mem_range] at hL
  exact dfs_prune hg (by omega)

/-- A two-region graph: two adjacent unit regions of colors 0 and 1. -/
def twoG : Graph :=
  [(0, ⟨0, 0, 1, [1]⟩), (1, ⟨1, 1, 1, [0]⟩)]

/-- A single-region graph. -/
def oneG : Graph := [(0, ⟨0, 0, 1, []⟩)]

/-- A path of 12 unit regions in 12 pairwise distinct colors: any solution
needs 11 moves, one more than the solver's default depth cap. -/
def chain12 : Graph :=
  [(0, ⟨0, 0, 1, [1]⟩),
   (1, ⟨1, 1, 1, [0, 2]⟩),
   (2, ⟨2, 2, 1, [1, 3]⟩),
   (3, ⟨3, 3, 1, [2, 4]⟩),
   (4, ⟨4, 4, 1, [3, 5]⟩),
   (5, ⟨5, 5, 1, [4, 6]⟩),
   (6, ⟨6, 6, 1, [5, 7]⟩),
   (7, ⟨7, 7, 1, [6, 8]⟩),
   (8, ⟨8, 8, 1, [7, 9]⟩),
   (9, ⟨9, 9, 1, [8, 10]⟩),
   (10, ⟨10, 10, 1, [9, 11]⟩),
   (11, ⟨11, 11, 1, [10]⟩)]

/-- Greedily absorbing the chain from its head solves `chain12` in 11
moves. -/
def chainSeq : List (Nat × Nat) :=
  [(0, 1), (0, 2), (0, 3), (0, 4), (0, 5), (0, 6), (0, 7), (0, 8), (0, 9),
   (0, 10), (0, 11)]

instance (g : Graph) (seq : List (Nat × Nat)) : Decidable (ReachesGoal g seq) := by
  unfold ReachesGoal
  infer_instance

theorem chainSeq_reaches : ReachesGoal chain12 chainSeq := by decide

theorem solveG_chain12_15_isSome : (solveG chain12 15).isSome = true := by
  unfold solveG
  rw [List.findSome?_isSome_iff]
  refine ⟨11, ?_, ?_⟩
  · rw [List.mem_range]
    decide
  · exact dfs_complete chainSeq chain12 0 11 [] (by decide) chainSeq_reaches.1
      chainSeq_reaches.2 (by decide)

theorem dfs_twoG_0 : dfs twoG 0 0 [] = none := by
  rw [dfs, if_neg (by decide), dif_pos (by decide)]

theorem dfs_twoG_child : dfs (applyMove twoG 0 1) 1 1 [(0, 1)] = some ⟨1, [(0, 1)]⟩ := by
  rw [dfs, if_pos (by decide)]

theorem dfs_twoG_1 : dfs twoG 0 1 [] = some ⟨1, [(0, 1)]⟩ := by
  rw [dfs, if_neg (by decide), dif_neg (by decide)]
  rw [show getPossibleMoves twoG = [(0, 1), (1, 0)] from by decide]
  simp only [List.findSome?_cons, List.nil_append, Nat.zero_add, dfs_twoG_child]

theorem solveG_twoG : solveG twoG 15 = some ⟨1, [(0, 1)]⟩ := by
  unfold solveG
  rw [show ((15 : Int) + 1).toNat = 16 from by decide]
  rw [show List.range 16 = [0, 1, 2, 3, 4, 5, 6, 7, 8, 9, 10, 11, 12, 13, 14, 15] from by decide]
  simp only [List.findSome?_cons, dfs_twoG_0, dfs_twoG_1]

/-! ### `buildGraph` pass 1: labeling correctness -/

theorem bgIdx_lt {rows cols : Nat} {x : Cell} (hx : inBounds rows cols x) :
    bgIdx rows x < rows * cols := by
  rcases hx with ⟨hr, hc⟩
  unfold bgIdx
  calc x.2 * rows + x.1 < x.2 * rows + rows := by omega
    _ = (x.2 + 1) * rows := by ring
    _ ≤ cols * rows := Nat.mul_le_mul_right rows (by omega)
    _ = rows * cols := Nat.mul_comm _ _

theorem bgIdx_inj {rows cols : Nat} {x y : Cell} (hx : inBounds rows cols x)
    (hy : inBounds rows cols y) (h : bgIdx rows x = bgIdx rows y) : x = y := by
  unfold bgIdx at h
  obtain ⟨hx1, hx2⟩ := hx
  obtain ⟨hy1, hy2⟩ := hy
  have hrows : 0 < rows := by omega
  have e1 : ∀ z : Cell, z.1 < rows → (z.2 * rows + z.1) / rows = z.2 := by
    intro z hz
    rw [Nat.mul_comm z.2 rows, Nat.mul_add_div hrows, Nat.div_eq_of_lt hz]
    omega
  have e2 : ∀ z : Cell, z.1 < rows → (z.2 * rows + z.1) % rows = z.1 := by
    intro z hz
    rw [Nat.add_mod, Nat.mul_mod_left]
    simp [Nat.mod_eq_of_lt hz]
  have h1 : x.2 = y.2 := by
    rw [← e1 x hx1, ← e1 y hy1, h]
  have h2 : x.1 = y.1 := by
    rw [← e2 x hx1, ← e2 y hy1, h]
  exact Prod.ext h2 h1

theorem rmGet_set_self {l : List Int} {i : Nat} (hi : i < l.length) (v : Int) :
    rmGet (l.set i v) i = v := by
  unfold rmGet
  rw [List.getD_eq_getElem?_getD, List.getElem?_set_self hi]
  rfl

theorem rmGet_set_ne {l : List Int} {i j : Nat} (h : i ≠ j) (v : Int) :
    rmGet (l.set i v) j = rmGet l j := by
  unfold rmGet
  rw [List.getD_eq_getElem?_getD, List.getElem?_set_ne h, ← List.getD_eq_getElem?_getD]

theorem cellColor?_eq_some_iff {rows cols : Nat} {grid : List (List Nat)}
    (hG : GridWF rows cols grid) {x : Cell} (hx : inBounds rows cols x) {c : Nat} :
    (cellColor? grid x.1 x.2 = some c) ↔ colorAt grid x = c := by
  obtain ⟨v, hv⟩ := cellColor?_eq_some hG hx
  rw [hv, colorAt_eq_of_cellColor hv]
  constructor
  · intro h
    exact Option.some.inj h
  · intro h
    rw [h]

theorem mapGet_append_single_self {m : Graph} {k : Nat} (h : mapGet m k = none)
    (v : RegionNode) : mapGet (m ++ [(k, v)]) k = some v := by
  unfold mapGet at h ⊢
  rw [List.find?_append]
  have hfind : m.find? (fun p => p.1 == k) = none := by
    cases hf : m.find? (fun p => p.1 == k)
    · rfl
    · rw [hf] at h
      cases h
  rw [hfind]
  simp

theorem mapGet_append_single_ne {m : Graph} {k j : Nat} (hne : j ≠ k)
    (v : RegionNode) : mapGet (m ++ [(k, v)]) j = mapGet m j := by
  unfold mapGet
  rw [List.find?_append]
  have hfind : ([(k, v)] : Graph).find? (fun p => p.1 == j) = none := by
    simp only [List.find?_cons, List.find?_nil]
    rw [show (k == j) = false from beq_eq_false_iff_ne.2 (fun hc => hne hc.symm)]
  rw [hfind]
  cases m.find? (fun p => p.1 == j) <;> rfl

theorem keys_append_single (m : Graph) (k : Nat) (v : RegionNode) :
    keys (m ++ [(k, v)]) = keys m ++ [k] := by
  unfold keys
  rw [List.map_append]
  rfl

theorem mapSet_absent {m : Graph} {k : Nat} (h : mapGet m k = none)
    (v : RegionNode) : mapSet m k v = m ++ [(k, v)] := by
  unfold mapSet
  rw [if_neg]
  intro hc
  unfold mapGet at h
  cases hf : m.find? (fun p => p.1 == k)
  · rw [hf] at hc
    cases hc
  · rw [hf] at h
    cases h

/-- The loop body of `bgBfs` over one neighbour (named for reasoning; it is
definitionally the lambda inside `bgBfs`). -/
def bgStep (rows cols : Nat) (grid : List (List Nat)) (color id : Nat)
    (st : List Int × List Cell × Nat) (n : Cell) : List Int × List Cell × Nat :=
  if ¬(n.1 < rows ∧ n.2 < cols) then st
  else if cellColor? grid n.1 n.2 = some color then
    (if rmGet st.1 (bgIdx rows n) = -1 then
      (st.1.set (bgIdx rows n) (id : Int), st.2.1 ++ [n], st.2.2 + 1)
    else st)
  else st

theorem bgFold_spec (rows cols : Nat) (grid : List (List Nat))
    (hG : GridWF rows cols grid) (color id : Nat) :
    ∀ (ns : List Cell) (rm : List Int) (pend : List Cell) (size : Nat),
    rm.length = rows * cols →
    (ns.foldl (bgStep rows cols grid color id) (rm, (pend, size))).1.length = rm.length ∧
    (∀ i, rmGet (ns.foldl (bgStep rows cols grid color id) (rm, (pend, size))).1 i
        ≠ rmGet rm i →
      rmGet rm i = -1 ∧
      rmGet (ns.foldl (bgStep rows cols grid color id) (rm, (pend, size))).1 i = (id : Int)) ∧
    (∀ x : Cell, inBounds rows cols x → x ∈ ns → colorAt grid x = color →
      rmGet rm (bgIdx rows x) = -1 →
      rmGet (ns.foldl (bgStep rows cols grid color id) (rm, (pend, size))).1 (bgIdx rows x)
        = (id : Int)) ∧
    (∀ x : Cell, inBounds rows cols x →
      ¬(x ∈ ns ∧ colorAt grid x = color ∧ rmGet rm (bgIdx rows x) = -1) →
      rmGet (ns.foldl (bgStep rows cols grid color id) (rm, (pend, size))).1 (bgIdx rows x)
        = rmGet rm (bgIdx rows x)) ∧
    (∀ q : Cell,
      q ∈ (ns.foldl (bgStep rows cols grid color id) (rm, (pend, size))).2.1 ↔
      q ∈ pend ∨ (q ∈ ns ∧ inBounds rows cols q ∧ colorAt grid q = color ∧
        rmGet rm (bgIdx rows q) = -1)) := by
  intro ns
  induction ns with
  | nil =>
    intro rm pend size hlen
    refine ⟨rfl, fun i h => absurd rfl h, ?_, fun x _ _ => rfl, fun q => by simp⟩
    intro x _ hx
    simp at hx
  | cons n ns ih =>
    intro rm pend size hlen
    rw [List.foldl_cons]
    by_cases hb : ¬(n.1 < rows ∧ n.2 < cols)
    · have hstep : bgStep rows cols grid color id (rm, (pend, size)) n = (rm, (pend, size)) := by
        unfold bgStep
        rw [if_pos hb]
      rw [hstep]
      obtain ⟨f1, f2, f3, f4, f5⟩ := ih rm pend size hlen
      refine ⟨f1, f2, ?_, ?_, ?_⟩
      · intro x hx hmem hcol hrm
        rcases List.mem_cons.1 hmem with rfl | hmem'
        · exact absurd (show x.1 < rows ∧ x.2 < cols from hx) hb
        · exact f3 x hx hmem' hcol hrm
      · intro x hx hnot
        refine f4 x hx ?_
        rintro ⟨hmem', hcol, hrm⟩
        exact hnot ⟨List.mem_cons_of_mem _ hmem', hcol, hrm⟩
      · intro q
        rw [f5 q]
        constructor
        · rintro (h | ⟨hmem', hq⟩)
          · exact Or.inl h
          · exact Or.inr ⟨List.mem_cons_of_mem _ hmem', hq⟩
        · rintro (h | ⟨hmem, hq⟩)
          · exact Or.inl h
          · rcases List.mem_cons.1 hmem with rfl | hmem'
            · exact absurd (show q.1 < rows ∧ q.2 < cols from hq.1) hb
            · exact Or.inr ⟨hmem', hq⟩
    · push_neg at hb
      have hbn : inBounds rows cols n := hb
      by_cases hc : cellColor? grid n.1 n.2 = some color
      · by_cases hr : rmGet rm (bgIdx rows n) = -1
        · -- the interesting branch: `n` is labeled and pushed
          have hstep : bgStep rows cols grid color id (rm, (pend, size)) n =
              (rm.set (bgIdx rows n) (id : Int), pend ++ [n], size + 1) := by
            unfold bgStep
            rw [if_neg (by push_neg; exact hb), if_pos hc, if_pos hr]
          rw [hstep]
          have hlt : bgIdx rows n < rm.length := by
            rw [hlen]
            exact bgIdx_lt hbn
          have hlen' : (rm.set (bgIdx rows n) (id : Int)).length = rows * cols := by
            rw [List.length_set, hlen]
          have hself : rmGet (rm.set (bgIdx rows n) (id : Int)) (bgIdx rows n) = (id : Int) :=
            rmGet_set_self hlt _
          have hidne : ((id : Nat) : Int) ≠ -1 := by omega
          have hcoln : colorAt grid n = color := (cellColor?_eq_some_iff hG hbn).1 hc
          obtain ⟨f1, f2, f3, f4, f5⟩ := ih (rm.set (bgIdx rows n) (id : Int))
            (pend ++ [n]) (size + 1) hlen'
          refine ⟨by rw [f1, List.length_set], ?_, ?_, ?_, ?_⟩
          · intro i hchg
            by_cases heq : rmGet (rm.set (bgIdx rows n) (id : Int)) i = rmGet rm i
            · rw [← heq] at hchg ⊢
              exact f2 i hchg
            · have hieq : i = bgIdx rows n := by
                by_contra hcon
                exact heq (rmGet_set_ne (fun h => hcon h.symm) _)
              subst hieq
              refine ⟨hr, ?_⟩
              by_cases hfin : rmGet ((ns.foldl (bgStep rows cols grid color id)
                  (rm.set (bgIdx rows n) (id : Int), pend ++ [n], size + 1))).1 (bgIdx rows n)
                  = rmGet (rm.set (bgIdx rows n) (id : Int)) (bgIdx rows n)
              · rw [hfin, hself]
              · exact absurd ((f2 _ hfin).1.symm.trans hself) (fun h => hidne h.symm)
          · intro x hx hmem hcol hrmx
            by_cases hxn : x = n
            · subst hxn
              by_cases hfin : rmGet ((ns.foldl (bgStep rows cols grid color id)
                  (rm.set (bgIdx rows x) (id : Int), pend ++ [x], size + 1))).1 (bgIdx rows x)
                  = rmGet (rm.set (bgIdx rows x) (id : Int)) (bgIdx rows x)
              · rw [hfin, hself]
              · exact absurd ((f2 _ hfin).1.symm.trans hself) (fun h => hidne h.symm)
            · have hmem' : x ∈ ns := by
                rcases List.mem_cons.1 hmem with h | h
                · exact absurd h hxn
                · exact h
              have hne : bgIdx rows x ≠ bgIdx rows n := by
                intro h
                exact hxn (bgIdx_inj hx hbn h)
              exact f3 x hx hmem' hcol (by rw [rmGet_set_ne (fun h => hne h.symm)]; exact hrmx)
          · intro x hx hnot
            have hxn : x ≠ n := by
              rintro rfl
              exact hnot ⟨List.mem_cons_self _ _, hcoln, hr⟩
            have hne : bgIdx rows x ≠ bgIdx rows n := by
              intro h
              exact hxn (bgIdx_inj hx hbn h)
            have hset : rmGet (rm.set (bgIdx rows n) (id : Int)) (bgIdx rows x)
                = rmGet rm (bgIdx rows x) := rmGet_set_ne (fun h => hne h.symm) _
            rw [← hset]
            refine f4 x hx ?_
            rintro ⟨hmem', hcol, hrmx⟩
            rw [hset] at hrmx
            exact hnot ⟨List.mem_cons_of_mem _ hmem', hcol, hrmx⟩
          · intro q
            rw [f5 q]
            constructor
            · rintro (hq | ⟨hmem', hqb, hqc, hqr⟩)
              · rcases List.mem_append.1 hq with h | h
                · exact Or.inl h
                · have : q = n := List.mem_singleton.1 h
                  subst this
                  exact Or.inr ⟨List.mem_cons_self _ _, hbn, hcoln, hr⟩
              · have hqn : bgIdx rows q ≠ bgIdx rows n := by
                  intro h
                  rw [h, hself] at hqr
                  exact hidne hqr
                rw [rmGet_set_ne (fun h => hqn h.symm)] at hqr
                exact Or.inr ⟨List.mem_cons_of_mem _ hmem', hqb, hqc, hqr⟩
            · rintro (hq | ⟨hmem, hqb, hqc, hqr⟩)
              · exact Or.inl (List.mem_append.2 (Or.inl hq))
              · by_cases hqn : q = n
                · exact Or.inl (List.mem_append.2 (Or.inr (by rw [hqn]; exact List.mem_singleton.2 rfl)))
                · have hne : bgIdx rows q ≠ bgIdx rows n := by
                    intro h
                    exact hqn (bgIdx_inj hqb hbn h)
                  have hmem' : q ∈ ns := by
                    rcases List.mem_cons.1 hmem with h | h
                    · exact absurd h hqn
                    · exact h
                  exact Or.inr ⟨hmem', hqb, hqc,
                    by rw [rmGet_set_ne (fun h => hne h.symm)]; exact hqr⟩
        · have hstep : bgStep rows cols grid color id (rm, (pend, size)) n = (rm, (pend, size)) := by
            unfold bgStep
            rw [if_neg (by push_neg; exact hb), if_pos hc, if_neg hr]
          rw [hstep]
          obtain ⟨f1, f2, f3, f4, f5⟩ := ih rm pend size hlen
          refine ⟨f1, f2, ?_, ?_, ?_⟩
          · intro x hx hmem hcol hrmx
            rcases List.mem_cons.1 hmem with rfl | hmem'
            · exact absurd hrmx hr
            · exact f3 x hx hmem' hcol hrmx
          · intro x hx hnot
            refine f4 x hx ?_
            rintro ⟨hmem', hcol, hrmx⟩
            exact hnot ⟨List.mem_cons_of_mem _ hmem', hcol, hrmx⟩
          · intro q
            rw [f5 q]
            constructor
            · rintro (h | ⟨hmem', hq⟩)
              · exact Or.inl h
              · exact Or.inr ⟨List.mem_cons_of_mem _ hmem', hq⟩
            · rintro (h | ⟨hmem, hqb, hqc, hqr⟩)
              · exact Or.inl h
              · rcases List.mem_cons.1 hmem with rfl | hmem'
                · exact absurd hqr hr
                · exact Or.inr ⟨hmem', hqb, hqc, hqr⟩
      · have hstep : bgStep rows cols grid color id (rm, (pend, size)) n = (rm, (pend, size)) := by
          unfold bgStep
          rw [if_neg (by push_neg; exact hb), if_neg hc]
        rw [hstep]
        obtain ⟨f1, f2, f3, f4, f5⟩ := ih rm pend size hlen
        refine ⟨f1, f2, ?_, ?_, ?_⟩
        · intro x hx hmem hcol hrmx
          rcases List.mem_cons.1 hmem with rfl | hmem'
          · exact absurd ((cellColor?_eq_some_iff hG hx).2 hcol) hc
          · exact f3 x hx hmem' hcol hrmx
        · intro x hx hnot
          refine f4 x hx ?_
          rintro ⟨hmem', hcol, hrmx⟩
          exact hnot ⟨List.mem_cons_of_mem _ hmem', hcol, hrmx⟩
        · intro q
          rw [f5 q]
          constructor
          · rintro (h | ⟨hmem', hq⟩)
            · exact Or.inl h
            · exact Or.inr ⟨List.mem_cons_of_mem _ hmem', hq⟩
          · rintro (h | ⟨hmem, hqb, hqc, hqr⟩)
            · exact Or.inl h
            · rcases List.mem_cons.1 hmem with rfl | hmem'
              · exact absurd ((cellColor?_eq_some_iff hG hqb).2 hqc) hc
              · exact Or.inr ⟨hmem', hqb, hqc, hqr⟩

/-- Invariant of the pass-1 BFS: queue cells are labeled `id`, labeled cells
are exactly explored cells of the seed's region, and unpropagated labeled
cells are still queued; the seed's whole region carries no foreign label. -/
structure BfsInv (rows cols : Nat) (grid : List (List Nat)) (color id : Nat)
    (seed : Cell) (rm : List Int) (queue : List Cell) : Prop where
  len : rm.length = rows * cols
  queue_ok : ∀ q ∈ queue, inBounds rows cols q ∧ colorAt grid q = color ∧
    rmGet rm (bgIdx rows q) = (id : Int)
  sound : ∀ x : Cell, inBounds rows cols x → rmGet rm (bgIdx rows x) = (id : Int) →
    colorAt grid x = color ∧ sameRegion rows cols grid seed x
  frontier : ∀ x : Cell, inBounds rows cols x → rmGet rm (bgIdx rows x) = (id : Int) →
    ∀ n ∈ getNeighbors rows cols x, inBounds rows cols n → colorAt grid n = color →
    (rmGet rm (bgIdx rows n) = (id : Int) ∨ x ∈ queue)
  avail : ∀ x : Cell, inBounds rows cols x → sameRegion rows cols grid seed x →
    rmGet rm (bgIdx rows x) = -1 ∨ rmGet rm (bgIdx rows x) = (id : Int)

theorem bgBfs_spec (rows cols : Nat) (grid : List (List Nat))
    (hG : GridWF rows cols grid) (color id : Nat) (seed : Cell) :
    ∀ (rm : List Int) (queue : List Cell) (size : Nat),
      BfsInv rows cols grid color id seed rm queue →
      (bgBfs rows cols grid color id rm queue size).1.length = rm.length ∧
      (∀ i, rmGet (bgBfs rows cols grid color id rm queue size).1 i ≠ rmGet rm i →
        rmGet rm i = -1 ∧
        rmGet (bgBfs rows cols grid color id rm queue size).1 i = (id : Int)) ∧
      BfsInv rows cols grid color id seed
        (bgBfs rows cols grid color id rm queue size).1 [] := by
  intro rm queue size
  refine bgBfs.induct rows cols grid color id
    (fun rm queue size =>
      BfsInv rows cols grid color id seed rm queue →
      (bgBfs rows cols grid color id rm queue size).1.length = rm.length ∧
      (∀ i, rmGet (bgBfs rows cols grid color id rm queue size).1 i ≠ rmGet rm i →
        rmGet rm i = -1 ∧
        rmGet (bgBfs rows cols grid color id rm queue size).1 i = (id : Int)) ∧
      BfsInv rows cols grid color id seed
        (bgBfs rows cols grid color id rm queue size).1 []) ?_ ?_ rm queue size
  · intro rm size hinv
    rw [bgBfs]
    exact ⟨rfl, fun i h => absurd rfl h, hinv⟩
  · intro rm size curr rest st ih hinv
    have hidne : ((id : Nat) : Int) ≠ -1 := by omega
    have hcurr := hinv.queue_ok curr (List.mem_cons_self _ _)
    obtain ⟨hcb, hccol, hcid⟩ := hcurr
    obtain ⟨hccol2, hcreg⟩ := hinv.sound curr hcb hcid
    obtain ⟨f1, f2, f3, f4, f5⟩ := bgFold_spec rows cols grid hG color id
      (getNeighbors rows cols curr) rm [] size hinv.len
    rw [show (getNeighbors rows cols curr).foldl (bgStep rows cols grid color id)
      (rm, ([], size)) = st from rfl] at f1 f2 f3 f4 f5
    have hkeep : ∀ i, rmGet rm i ≠ -1 → rmGet st.1 i = rmGet rm i := by
      intro i hne
      by_cases h : rmGet st.1 i = rmGet rm i
      · exact h
      · exact absurd (f2 i h).1 hne
    have hreg_of_nbr : ∀ n ∈ getNeighbors rows cols curr, inBounds rows cols n →
        colorAt grid n = color → sameRegion rows cols grid seed n := by
      intro n hn hnb hncol
      exact Relation.EqvGen.trans _ _ _ hcreg
        (Relation.EqvGen.rel _ _ ⟨hcb, hnb, hn, by rw [hccol2, hncol]⟩)
    have hinv' : BfsInv rows cols grid color id seed st.1 (rest ++ st.2.1) := by
      refine ⟨by rw [f1, hinv.len], ?_, ?_, ?_, ?_⟩
      · intro q hq
        rcases List.mem_append.1 hq with hq | hq
        · obtain ⟨hqb, hqc, hqid⟩ := hinv.queue_ok q (List.mem_cons_of_mem _ hq)
          exact ⟨hqb, hqc, by rw [hkeep _ (by rw [hqid]; exact hidne)]; exact hqid⟩
        · rcases (f5 q).1 hq with h | ⟨hqn, hqb, hqc, hqr⟩
          · cases h
          · exact ⟨hqb, hqc, f3 q hqb hqn hqc hqr⟩
      · intro x hx hxid
        by_cases hold : rmGet rm (bgIdx rows x) = (id : Int)
        · exact hinv.sound x hx hold
        · have hnew : x ∈ getNeighbors rows cols curr ∧ colorAt grid x = color ∧
              rmGet rm (bgIdx rows x) = -1 := by
            by_contra hcon
            rw [f4 x hx hcon] at hxid
            exact hold hxid
          exact ⟨hnew.2.1, hreg_of_nbr x hnew.1 hx hnew.2.1⟩
      · intro x hx hxid n hn hnb hncol
        by_cases hold : rmGet rm (bgIdx rows x) = (id : Int)
        · rcases hinv.frontier x hx hold n hn hnb hncol with h | h
          · exact Or.inl (by rw [hkeep _ (by rw [h]; exact hidne)]; exact h)
          · rcases List.mem_cons.1 h with rfl | h
            · -- x is the popped cell: its neighbours are now labeled or were foreign
              rcases hinv.avail n hnb (hreg_of_nbr n hn hnb hncol) with hn1 | hn1
              · exact Or.inl (f3 n hnb hn hncol hn1)
              · exact Or.inl (by rw [hkeep _ (by rw [hn1]; exact hidne)]; exact hn1)
            · exact Or.inr (List.mem_append.2 (Or.inl h))
        · have hnew : x ∈ getNeighbors rows cols curr ∧ colorAt grid x = color ∧
              rmGet rm (bgIdx rows x) = -1 := by
            by_contra hcon
            rw [f4 x hx hcon] at hxid
            exact hold hxid
          exact Or.inr (List.mem_append.2 (Or.inr
            ((f5 x).2 (Or.inr ⟨hnew.1, hx, hnew.2.1, hnew.2.2⟩))))
      · intro x hx hxreg
        rcases hinv.avail x hx hxreg with h | h
        · by_cases hchg : rmGet st.1 (bgIdx rows x) = rmGet rm (bgIdx rows x)
          · exact Or.inl (by rw [hchg]; exact h)
          · exact Or.inr (f2 _ hchg).2
        · exact Or.inr (by rw [hkeep _ (by rw [h]; exact hidne)]; exact h)
    obtain ⟨g1, g2, g3⟩ := ih hinv'
    have heq : bgBfs rows cols grid color id rm (curr :: rest) size =
        bgBfs rows cols grid color id st.1 (rest ++ st.2.1) st.2.2 := by
      conv_lhs => rw [bgBfs]
      rfl
    rw [heq]
    refine ⟨g1.trans (by rw [f1]), ?_, g3⟩
    intro i hchg
    by_cases h1 : rmGet st.1 i = rmGet rm i
    · rw [← h1] at hchg ⊢
      exact g2 i hchg
    · obtain ⟨hrm1, hst1⟩ := f2 i h1
      refine ⟨hrm1, ?_⟩
      by_cases h2 : rmGet (bgBfs rows cols grid color id st.1 (rest ++ st.2.1) st.2.2).1 i
          = rmGet st.1 i
      · rw [h2, hst1]
      · exact absurd ((g2 i h2).1.symm.trans hst1) (fun h => hidne h.symm)

theorem mem_scanCells {rows cols : Nat} {x : Cell} :
    x ∈ scanCells rows cols ↔ inBounds rows cols x := by
  unfold scanCells inBounds
  constructor
  · intro h
    obtain ⟨c, hc, h2⟩ := List.mem_flatMap.1 h
    rw [List.mem_range] at hc
    obtain ⟨r, hr, rfl⟩ := List.mem_map.1 h2
    rw [List.mem_range] at hr
    exact ⟨hr, hc⟩
  · rintro ⟨h1, h2⟩
    exact List.mem_flatMap.2 ⟨x.2, List.mem_range.2 h2,
      List.mem_map.2 ⟨x.1, List.mem_range.2 h1, rfl⟩⟩

theorem rmGet_replicate {n i : Nat} (h : i < n) :
    rmGet (List.replicate n (-1 : Int)) i = -1 := by
  unfold rmGet
  rw [List.getD_eq_getElem?_getD, List.getElem?_replicate, if_pos h]
  rfl

/-- A total labeling of the in-bounds cells whose classes are exactly the
same-color regions, with labels filling `[0, counter)`, forces any consistent
Union-Find to count exactly `counter` components. -/
theorem count_eq_of_labeling {rows cols : Nat} {grid : List (List Nat)}
    {u : UnionFind} (hu : UFConsistent rows cols grid u)
    {counter : Nat} {lab : Cell → Nat}
    (htot : ∀ x : Cell, inBounds rows cols x → lab x < counter)
    (hiff : ∀ x y : Cell, inBounds rows cols x → inBounds rows cols y →
      (lab x = lab y ↔ sameRegion rows cols grid x y))
    (hsurj : ∀ ℓ : Nat, ℓ < counter → ∃ x : Cell, inBounds rows cols x ∧ lab x = ℓ) :
    u.count = counter := by
  obtain ⟨hWF, hsize, hrel⟩ := hu
  by_cases h0 : rows * cols = 0
  · have hc0 : counter = 0 := by
      by_contra hcon
      obtain ⟨x, hxb, -⟩ := hsurj 0 (by omega)
      obtain ⟨hx1, hx2⟩ := hxb
      have h1 : 0 < rows * cols := Nat.mul_pos (by omega) (by omega)
      omega
    rw [hWF.2.2, hsize, h0, hc0]
    simp
  · have hcols : 0 < cols := by
      rcases Nat.eq_zero_or_pos cols with h | h
      · rw [h] at h0
        simp at h0
      · exact h
    rw [hWF.2.2, hsize]
    rw [show counter = (Finset.range counter).card from (Finset.card_range counter).symm]
    refine Finset.card_bij (fun r _ => lab (decodeCell cols r)) ?_ ?_ ?_
    · intro r hr
      simp only [Finset.mem_image, Finset.mem_range] at hr
      obtain ⟨j, hj, rfl⟩ := hr
      rw [Finset.mem_range]
      exact htot _ (decode_inBounds (by rw [← hsize]; exact UnionFind.find_lt hWF (by omega)))
    · intro r1 hr1 r2 hr2 heq
      simp only [Finset.mem_image, Finset.mem_range] at hr1 hr2
      obtain ⟨j1, hj1, rfl⟩ := hr1
      obtain ⟨j2, hj2, rfl⟩ := hr2
      have hb1 : u.find j1 < rows * cols := by
        rw [← hsize]; exact UnionFind.find_lt hWF (by omega)
      have hb2 : u.find j2 < rows * cols := by
        rw [← hsize]; exact UnionFind.find_lt hWF (by omega)
      have hd1 := decode_inBounds hb1
      have hd2 := decode_inBounds hb2
      have hreg : sameRegion rows cols grid (decodeCell cols (u.find j1))
          (decodeCell cols (u.find j2)) := (hiff _ _ hd1 hd2).1 heq
      have hrel2 : u.rel (encodeCell cols (decodeCell cols (u.find j1)))
          (encodeCell cols (decodeCell cols (u.find j2))) :=
        (hrel _ _ hd1 hd2).2 hreg
      rw [encode_decode hcols, encode_decode hcols] at hrel2
      unfold UnionFind.rel at hrel2
      rw [UnionFind.find_idem hWF (by omega), UnionFind.find_idem hWF (by omega)] at hrel2
      exact hrel2
    · intro ℓ hℓ
      rw [Finset.mem_range] at hℓ
      obtain ⟨x, hxb, hxl⟩ := hsurj ℓ hℓ
      have hex : encodeCell cols x < u.size := by
        rw [hsize]
        exact encode_lt hxb
      refine ⟨u.find (encodeCell cols x), ?_, ?_⟩
      · simp only [Finset.mem_image, Finset.mem_range]
        exact ⟨encodeCell cols x, encode_lt hxb, rfl⟩
      · have hfb : u.find (encodeCell cols x) < rows * cols := by
          rw [← hsize]
          exact UnionFind.find_lt hWF hex
        have hdb := decode_inBounds hfb
        have hrel2 : u.rel (encodeCell cols x)
            (encodeCell cols (decodeCell cols (u.find (encodeCell cols x)))) := by
          rw [encode_decode hcols]
          unfold UnionFind.rel
          rw [UnionFind.find_idem hWF hex]
        have hreg := (hrel _ _ hxb hdb).1 hrel2
        rw [← hxl]
        exact ((hiff _ _ hdb hxb).2 hreg.symm)

/-- One iteration of the pass-1 scan (named for reasoning; definitionally the
lambda inside `bgPass1`). -/
def p1Step (rows cols : Nat) (grid : List (List Nat)) (st : BGState) (x : Cell) : BGState :=
  if rmGet st.regionMap (bgIdx rows x) ≠ -1 then st
  else
    let color := colorAt grid x
    let currentId := st.counter
    let rm1 := st.regionMap.set (bgIdx rows x) (currentId : Int)
    let res := bgBfs rows cols grid color currentId rm1 [x] 1
    { regionMap := res.1
      nodes := mapSet st.nodes currentId ⟨currentId, color, res.2, []⟩
      idToCoord := st.idToCoord ++ [(currentId, x)]
      counter := currentId + 1 }

/-- Invariant of pass 1: the partial labeling already assigned partitions the
labeled cells exactly into regions, labels fill `[0, counter)`, and the node
map holds one fresh node per label. -/
structure P1Inv (rows cols : Nat) (grid : List (List Nat)) (st : BGState) : Prop where
  len : st.regionMap.length = rows * cols
  uniform : ∀ x y : Cell, inBounds rows cols x → inBounds rows cols y →
    sameRegion rows cols grid x y →
    rmGet st.regionMap (bgIdx rows x) = rmGet st.regionMap (bgIdx rows y)
  separate : ∀ x y : Cell, inBounds rows cols x → inBounds rows cols y →
    rmGet st.regionMap (bgIdx rows x) ≠ -1 →
    rmGet st.regionMap (bgIdx rows x) = rmGet st.regionMap (bgIdx rows y) →
    sameRegion rows cols grid x y
  range : ∀ x : Cell, inBounds rows cols x →
    rmGet st.regionMap (bgIdx rows x) = -1 ∨
    ∃ ℓ : Nat, ℓ < st.counter ∧ rmGet st.regionMap (bgIdx rows x) = (ℓ : Int)
  surj : ∀ ℓ : Nat, ℓ < st.counter →
    ∃ x : Cell, inBounds rows cols x ∧ rmGet st.regionMap (bgIdx rows x) = (ℓ : Int)
  nodesLen : st.nodes.length = st.counter
  nodesKeys : ∀ ℓ : Nat, (mapGet st.nodes ℓ).isSome = true ↔ ℓ < st.counter
  keysNodup : (keys st.nodes).Nodup
  nodesOk : ∀ ℓ v, mapGet st.nodes ℓ = some v → v.id = ℓ ∧ v.neighbors = [] ∧
    ∀ x : Cell, inBounds rows cols x →
      rmGet st.regionMap (bgIdx rows x) = (ℓ : Int) → colorAt grid x = v.color

theorem p1Step_spec (rows cols : Nat) (grid : List (List Nat))
    (hG : GridWF rows cols grid) {st : BGState} (hinv : P1Inv rows cols grid st)
    {x : Cell} (hx : inBounds rows cols x) :
    P1Inv rows cols grid (p1Step rows cols grid st x) ∧
    (∀ i, rmGet st.regionMap i ≠ -1 →
      rmGet (p1Step rows cols grid st x).regionMap i = rmGet st.regionMap i) ∧
    rmGet (p1Step rows cols grid st x).regionMap (bgIdx rows x) ≠ -1 := by
  by_cases hlab : rmGet st.regionMap (bgIdx rows x) ≠ -1
  · have hstep : p1Step rows cols grid st x = st := by
      unfold p1Step
      rw [if_pos hlab]
    rw [hstep]
    exact ⟨hinv, fun i _ => rfl, hlab⟩
  · push_neg at hlab
    have hstep : p1Step rows cols grid st x =
        { regionMap := (bgBfs rows cols grid (colorAt grid x) st.counter
            (st.regionMap.set (bgIdx rows x) (st.counter : Int)) [x] 1).1
          nodes := mapSet st.nodes st.counter
            ⟨st.counter, colorAt grid x,
              (bgBfs rows cols grid (colorAt grid x) st.counter
                (st.regionMap.set (bgIdx rows x) (st.counter : Int)) [x] 1).2, []⟩
          idToCoord := st.idToCoord ++ [(st.counter, x)]
          counter := st.counter + 1 } := by
      unfold p1Step
      rw [if_neg (not_not_intro hlab)]
    rw [hstep]
    have hidx : bgIdx rows x < st.regionMap.length := by
      rw [hinv.len]
      exact bgIdx_lt hx
    have hbinv : BfsInv rows cols grid (colorAt grid x) st.counter x
        (st.regionMap.set (bgIdx rows x) (st.counter : Int)) [x] := by
      refine ⟨by rw [List.length_set, hinv.len], ?_, ?_, ?_, ?_⟩
      · intro q hq
        have hqx : q = x := List.mem_singleton.1 hq
        subst hqx
        exact ⟨hx, rfl, rmGet_set_self hidx _⟩
      · intro y hy hyid
        by_cases hyx : y = x
        · subst hyx
          exact ⟨rfl, sameRegion.refl _ _ _ _⟩
        · exfalso
          have hne : bgIdx rows y ≠ bgIdx rows x := fun h => hyx (bgIdx_inj hy hx h)
          rw [rmGet_set_ne (fun h => hne h.symm)] at hyid
          rcases hinv.range y hy with h | ⟨ℓ, hℓ, h⟩
          · rw [h] at hyid
            omega
          · rw [h] at hyid
            have : ℓ = st.counter := by exact_mod_cast hyid
            omega
      · intro y hy hyid n hn hnb hncol
        by_cases hyx : y = x
        · exact Or.inr (by rw [hyx]; exact List.mem_singleton.2 rfl)
        · exfalso
          have hne : bgIdx rows y ≠ bgIdx rows x := fun h => hyx (bgIdx_inj hy hx h)
          rw [rmGet_set_ne (fun h => hne h.symm)] at hyid
          rcases hinv.range y hy with h | ⟨ℓ, hℓ, h⟩
          · rw [h] at hyid
            omega
          · rw [h] at hyid
            have : ℓ = st.counter := by exact_mod_cast hyid
            omega
      · intro y hy hreg
        have holdy : rmGet st.regionMap (bgIdx rows y) = -1 := by
          rw [hinv.uniform y x hy hx hreg.symm]
          exact hlab
        by_cases hyx : y = x
        · subst hyx
          exact Or.inr (rmGet_set_self hidx _)
        · have hne : bgIdx rows y ≠ bgIdx rows x := fun h => hyx (bgIdx_inj hy hx h)
          rw [rmGet_set_ne (fun h => hne h.symm)]
          exact Or.inl holdy
    obtain ⟨b1, b2, binv⟩ := bgBfs_spec rows cols grid hG (colorAt grid x) st.counter x
      (st.regionMap.set (bgIdx rows x) (st.counter : Int)) [x] 1 hbinv
    set res1 := (bgBfs rows cols grid (colorAt grid x) st.counter
      (st.regionMap.set (bgIdx rows x) (st.counter : Int)) [x] 1).1 with hres1
    have hcastne : ((st.counter : Nat) : Int) ≠ -1 := by omega
    have hmono : ∀ i, rmGet st.regionMap i ≠ -1 →
        rmGet res1 i = rmGet st.regionMap i := by
      intro i hne
      have hix : i ≠ bgIdx rows x := by
        intro h
        rw [h] at hne
        exact hne hlab
      have hsetv : rmGet (st.regionMap.set (bgIdx rows x) (st.counter : Int)) i
          = rmGet st.regionMap i := rmGet_set_ne (fun h => hix h.symm) _
      by_cases hch : rmGet res1 i
          = rmGet (st.regionMap.set (bgIdx rows x) (st.counter : Int)) i
      · rw [hch, hsetv]
      · exfalso
        have h1 := (b2 i hch).1
        rw [hsetv] at h1
        exact hne h1
    have hxid : rmGet res1 (bgIdx rows x) = (st.counter : Int) := by
      have hsetv : rmGet (st.regionMap.set (bgIdx rows x) (st.counter : Int)) (bgIdx rows x)
          = (st.counter : Int) := rmGet_set_self hidx _
      by_cases hch : rmGet res1 (bgIdx rows x)
          = rmGet (st.regionMap.set (bgIdx rows x) (st.counter : Int)) (bgIdx rows x)
      · rw [hch, hsetv]
      · exfalso
        have h1 := (b2 _ hch).1
        rw [hsetv] at h1
        exact hcastne h1
    have hchg : ∀ i, rmGet res1 i ≠ rmGet st.regionMap i →
        rmGet st.regionMap i = -1 ∧ rmGet res1 i = (st.counter : Int) := by
      intro i hne
      by_cases hix : i = bgIdx rows x
      · subst hix
        exact ⟨hlab, hxid⟩
      · have hsetv : rmGet (st.regionMap.set (bgIdx rows x) (st.counter : Int)) i
            = rmGet st.regionMap i := rmGet_set_ne (fun h => hix h.symm) _
        have hch : rmGet res1 i
            ≠ rmGet (st.regionMap.set (bgIdx rows x) (st.counter : Int)) i := by
          rw [hsetv]
          exact hne
        obtain ⟨h1, h2⟩ := b2 i hch
        rw [hsetv] at h1
        exact ⟨h1, h2⟩
    have hsound : ∀ y : Cell, inBounds rows cols y →
        rmGet res1 (bgIdx rows y) = (st.counter : Int) →
        colorAt grid y = colorAt grid x ∧ sameRegion rows cols grid x y :=
      fun y hy hyid => ⟨(binv.sound y hy hyid).1, (binv.sound y hy hyid).2⟩
    have hcomplete : ∀ y : Cell, inBounds rows cols y → sameRegion rows cols grid x y →
        rmGet res1 (bgIdx rows y) = (st.counter : Int) := by
      have key : ∀ y z : Cell, sameRegion rows cols grid y z →
          ((inBounds rows cols y ∧ rmGet res1 (bgIdx rows y) = (st.counter : Int)) ↔
           (inBounds rows cols z ∧ rmGet res1 (bgIdx rows z) = (st.counter : Int))) := by
        intro y z h
        induction h with
        | rel a b hab =>
          obtain ⟨hab1, hab2, hab3, hab4⟩ := hab
          constructor
          · rintro ⟨-, haid⟩
            obtain ⟨hacol, -⟩ := binv.sound a hab1 haid
            rcases binv.frontier a hab1 haid b hab3 hab2 (by rw [← hab4]; exact hacol)
              with h | h
            · exact ⟨hab2, h⟩
            · cases h
          · rintro ⟨-, hbid⟩
            obtain ⟨hbcol, -⟩ := binv.sound b hab2 hbid
            rcases binv.frontier b hab2 hbid a (getNeighbors_symm hab1 hab2 hab3) hab1
              (by rw [hab4]; exact hbcol) with h | h
            · exact ⟨hab1, h⟩
            · cases h
        | refl a => exact Iff.rfl
        | symm a b hab ih => exact ih.symm
        | trans a b c hab hbc ih1 ih2 => exact ih1.trans ih2
      intro y hy hreg
      exact ((key x y hreg).1 ⟨hx, hxid⟩).2
    have hnotnew : ∀ y : Cell, inBounds rows cols y → ¬ sameRegion rows cols grid x y →
        rmGet res1 (bgIdx rows y) = rmGet st.regionMap (bgIdx rows y) := by
      intro y hy hnreg
      by_cases hch : rmGet res1 (bgIdx rows y) = rmGet st.regionMap (bgIdx rows y)
      · exact hch
      · exact absurd (hsound y hy (hchg _ hch).2).2 hnreg
    have habsent : mapGet st.nodes st.counter = none := by
      cases hm : mapGet st.nodes st.counter
      · rfl
      · exfalso
        have h1 := (hinv.nodesKeys st.counter).1 (by rw [hm]; rfl)
        omega
    refine ⟨⟨?_, ?_, ?_, ?_, ?_, ?_, ?_, ?_, ?_⟩, ?_, ?_⟩
    · show res1.length = rows * cols
      rw [b1, List.length_set, hinv.len]
    · intro y z hy hz hyz
      show rmGet res1 (bgIdx rows y) = rmGet res1 (bgIdx rows z)
      by_cases hxy : sameRegion rows cols grid x y
      · rw [hcomplete y hy hxy, hcomplete z hz (hxy.trans hyz)]
      · have hxz : ¬ sameRegion rows cols grid x z := fun h => hxy (h.trans hyz.symm)
        rw [hnotnew y hy hxy, hnotnew z hz hxz]
        exact hinv.uniform y z hy hz hyz
    · intro y z hy hz hne heq
      by_cases hxy : sameRegion rows cols grid x y
      · by_cases hxz : sameRegion rows cols grid x z
        · exact hxy.symm.trans hxz
        · exfalso
          rw [hcomplete y hy hxy, hnotnew z hz hxz] at heq
          rcases hinv.range z hz with h | ⟨ℓ, hℓ, h⟩
          · rw [h] at heq
            omega
          · rw [h] at heq
            have : st.counter = ℓ := by exact_mod_cast heq
            omega
      · by_cases hxz : sameRegion rows cols grid x z
        · exfalso
          rw [hnotnew y hy hxy, hcomplete z hz hxz] at heq
          rcases hinv.range y hy with h | ⟨ℓ, hℓ, h⟩
          · rw [h] at heq
            omega
          · rw [h] at heq
            have : ℓ = st.counter := by exact_mod_cast heq
            omega
        · rw [hnotnew y hy hxy] at hne heq
          rw [hnotnew z hz hxz] at heq
          exact hinv.separate y z hy hz hne heq
    · intro y hy
      show rmGet res1 (bgIdx rows y) = -1 ∨ _
      by_cases hxy : sameRegion rows cols grid x y
      · refine Or.inr ⟨st.counter, ?_, hcomplete y hy hxy⟩
        show st.counter < st.counter + 1
        omega
      · rw [hnotnew y hy hxy]
        rcases hinv.range y hy with h | ⟨ℓ, hℓ, h⟩
        · exact Or.inl h
        · refine Or.inr ⟨ℓ, ?_, h⟩
          show ℓ < st.counter + 1
          omega
    · intro ℓ hℓ
      have hℓ2 : ℓ < st.counter + 1 := hℓ
      by_cases hℓc : ℓ < st.counter
      · obtain ⟨y, hy, hyl⟩ := hinv.surj ℓ hℓc
        refine ⟨y, hy, ?_⟩
        show rmGet res1 (bgIdx rows y) = (ℓ : Int)
        rw [hmono _ (by rw [hyl]; omega)]
        exact hyl
      · have : ℓ = st.counter := by omega
        subst this
        exact ⟨x, hx, hxid⟩
    · show (mapSet st.nodes st.counter _).length = st.counter + 1
      rw [mapSet_absent habsent, List.length_append, hinv.nodesLen]
      rfl
    · intro ℓ
      rw [mapSet_absent habsent]
      by_cases hℓc : ℓ = st.counter
      · subst hℓc
        rw [mapGet_append_single_self habsent]
        constructor
        · intro _
          show st.counter < st.counter + 1
          omega
        · intro _
          rfl
      · rw [mapGet_append_single_ne hℓc]
        rw [hinv.nodesKeys ℓ]
        show ℓ < st.counter ↔ ℓ < st.counter + 1
        omega
    · rw [mapSet_absent habsent, keys_append_single]
      rw [List.nodup_append]
      refine ⟨hinv.keysNodup, List.nodup_singleton _, ?_⟩
      intro a ha hamem
      have hac : a = st.counter := List.mem_singleton.1 hamem
      rw [← mapGet_isSome_iff] at ha
      have h2 := (hinv.nodesKeys a).1 ha
      omega
    · intro ℓ v hget
      rw [mapSet_absent habsent] at hget
      by_cases hℓc : ℓ = st.counter
      · subst hℓc
        rw [mapGet_append_single_self habsent] at hget
        have hv := Option.some.inj hget
        subst hv
        refine ⟨rfl, rfl, ?_⟩
        intro y hy hyl
        exact (hsound y hy hyl).1
      · rw [mapGet_append_single_ne hℓc] at hget
        obtain ⟨hid, hnb, hcol⟩ := hinv.nodesOk ℓ v hget
        refine ⟨hid, hnb, ?_⟩
        intro y hy hyl
        have hyold : rmGet st.regionMap (bgIdx rows y) = (ℓ : Int) := by
          by_cases hch : rmGet res1 (bgIdx rows y) = rmGet st.regionMap (bgIdx rows y)
          · rw [← hch]
            exact hyl
          · exfalso
            have h2 := (hchg _ hch).2
            rw [hyl] at h2
            have : ℓ = st.counter := by exact_mod_cast h2
            exact hℓc this
        exact hcol y hy hyold
    · exact hmono
    · show rmGet res1 (bgIdx rows x) ≠ -1
      rw [hxid]
      exact hcastne

theorem p1Fold_spec (rows cols : Nat) (grid : List (List Nat))
    (hG : GridWF rows cols grid) :
    ∀ (cs : List Cell) (st : BGState), (∀ x ∈ cs, inBounds rows cols x) →
      P1Inv rows cols grid st →
      P1Inv rows cols grid (cs.foldl (p1Step rows cols grid) st) ∧
      (∀ i, rmGet st.regionMap i ≠ -1 →
        rmGet (cs.foldl (p1Step rows cols grid) st).regionMap i
          = rmGet st.regionMap i) ∧
      (∀ x ∈ cs, rmGet (cs.foldl (p1Step rows cols grid) st).regionMap (bgIdx rows x) ≠ -1) := by
  intro cs
  induction cs with
  | nil =>
    intro st _ hinv
    exact ⟨hinv, fun i _ => rfl, fun x hx => absurd hx (List.not_mem_nil x)⟩
  | cons c cs ih =>
    intro st hb hinv
    have hcb : inBounds rows cols c := hb c (List.mem_cons_self _ _)
    obtain ⟨s1, s2, s3⟩ := p1Step_spec rows cols grid hG hinv hcb
    rw [List.foldl_cons]
    obtain ⟨g1, g2, g3⟩ := ih (p1Step rows cols grid st c)
      (fun x hx => hb x (List.mem_cons_of_mem _ hx)) s1
    refine ⟨g1, ?_, ?_⟩
    · intro i hne
      rw [g2 i (by rw [s2 i hne]; exact hne), s2 i hne]
    · intro x hx
      rcases List.mem_cons.1 hx with rfl | hx'
      · rw [g2 _ s3]
        exact s3
      · exact g3 x hx'

/-- The initial pass-1 state satisfies the invariant. -/
theorem p1Init_inv (rows cols : Nat) (grid : List (List Nat)) :
    P1Inv rows cols grid ⟨List.replicate (rows * cols) (-1), [], [], 0⟩ := by
  have hlab : ∀ x : Cell, inBounds rows cols x →
      rmGet (List.replicate (rows * cols) (-1 : Int)) (bgIdx rows x) = -1 :=
    fun x hx => rmGet_replicate (bgIdx_lt hx)
  refine ⟨by simp, ?_, ?_, ?_, ?_, rfl, ?_, List.nodup_nil, ?_⟩
  · intro x y hx hy _
    rw [hlab x hx, hlab y hy]
  · intro x y hx hy hne _
    exact absurd (hlab x hx) hne
  · intro x hx
    exact Or.inl (hlab x hx)
  · intro ℓ hℓ
    exact absurd hℓ (Nat.not_lt_zero ℓ)
  · intro ℓ
    constructor
    · intro h
      cases h
    · intro h
      exact absurd h (Nat.not_lt_zero ℓ)
  · intro ℓ v hget
    cases hget

/-- Pass-1 labeling correctness: the final region map is a total labeling of
the in-bounds cells by `[0, counter)` whose classes are exactly the maximal
same-color regions, and the node map holds one edge-less node per label with
the region's color. -/
theorem bgPass1_spec (rows cols : Nat) (grid : List (List Nat))
    (hG : GridWF rows cols grid) :
    P1Inv rows cols grid (bgPass1 rows cols grid) ∧
    (∀ x : Cell, inBounds rows cols x →
      rmGet (bgPass1 rows cols grid).regionMap (bgIdx rows x) ≠ -1) := by
  have heq : bgPass1 rows cols grid =
      (scanCells rows cols).foldl (p1Step rows cols grid)
        ⟨List.replicate (rows * cols) (-1), [], [], 0⟩ := rfl
  obtain ⟨g1, g2, g3⟩ := p1Fold_spec rows cols grid hG (scanCells rows cols)
    ⟨List.replicate (rows * cols) (-1), [], [], 0⟩
    (fun x hx => mem_scanCells.1 hx) (p1Init_inv rows cols grid)
  rw [heq]
  exact ⟨g1, fun x hx => g3 x (mem_scanCells.2 hx)⟩

/-! ### `buildGraph` pass 2: edges -/

/-- Invariant of pass 2 relative to the pass-1 labeling `rm`: nodes are in
bijection with labels, carry their region's color, and every recorded edge is
irreflexive, in-range, mutual, and properly colored. -/
structure P2Inv (rows cols : Nat) (grid : List (List Nat)) (rm : List Int)
    (counter : Nat) (nodes : Graph) : Prop where
  len : nodes.length = counter
  keysIff : ∀ ℓ : Nat, (mapGet nodes ℓ).isSome = true ↔ ℓ < counter
  keysNodup : (keys nodes).Nodup
  nodesOk : ∀ ℓ v, mapGet nodes ℓ = some v →
    v.id = ℓ ∧ v.neighbors.Nodup ∧
    (∀ y : Cell, inBounds rows cols y → rmGet rm (bgIdx rows y) = (ℓ : Int) →
      colorAt grid y = v.color) ∧
    (∀ j ∈ v.neighbors, j < counter ∧ j ≠ ℓ ∧
      ∃ w, mapGet nodes j = some w ∧ ℓ ∈ w.neighbors ∧ v.color ≠ w.color)

theorem p2AddEdge {rows cols : Nat} {grid : List (List Nat)} {rm : List Int}
    {counter : Nat} {nodes : Graph}
    (hinv : P2Inv rows cols grid rm counter nodes)
    {a b : Nat} (ha : a < counter) (hb : b < counter) (hne : a ≠ b)
    (hcolne : ∀ va vb, mapGet nodes a = some va → mapGet nodes b = some vb →
      va.color ≠ vb.color) :
    P2Inv rows cols grid rm counter
      (mapUpdate (mapUpdate nodes a
          (fun nd => { nd with neighbors := setAdd nd.neighbors b }))
        b (fun nd => { nd with neighbors := setAdd nd.neighbors a })) := by
  obtain ⟨va, hva⟩ : ∃ va, mapGet nodes a = some va := by
    cases hm : mapGet nodes a
    · exfalso
      have h1 := (hinv.keysIff a).2 ha
      rw [hm] at h1
      cases h1
    · exact ⟨_, rfl⟩
  obtain ⟨vb, hvb⟩ : ∃ vb, mapGet nodes b = some vb := by
    cases hm : mapGet nodes b
    · exfalso
      have h1 := (hinv.keysIff b).2 hb
      rw [hm] at h1
      cases h1
    · exact ⟨_, rfl⟩
  have hcol : va.color ≠ vb.color := hcolne va vb hva hvb
  set f1 : RegionNode → RegionNode :=
    fun nd => { nd with neighbors := setAdd nd.neighbors b } with hf1
  set f2 : RegionNode → RegionNode :=
    fun nd => { nd with neighbors := setAdd nd.neighbors a } with hf2
  have hnd1 : (keys (mapUpdate nodes a f1)).Nodup := by
    rw [keys_mapUpdate]
    exact hinv.keysNodup
  have hgeta : mapGet (mapUpdate (mapUpdate nodes a f1) b f2) a = some (f1 va) := by
    rw [mapGet_mapUpdate_ne _ _ _ hne.symm]
    exact mapGet_mapUpdate_self hinv.keysNodup hva f1
  have hgetb : mapGet (mapUpdate (mapUpdate nodes a f1) b f2) b = some (f2 vb) := by
    apply mapGet_mapUpdate_self hnd1
    rw [mapGet_mapUpdate_ne _ _ _ hne]
    exact hvb
  have hgeto : ∀ j, j ≠ a → j ≠ b →
      mapGet (mapUpdate (mapUpdate nodes a f1) b f2) j = mapGet nodes j := by
    intro j hja hjb
    rw [mapGet_mapUpdate_ne _ _ _ (fun h => hjb h.symm),
      mapGet_mapUpdate_ne _ _ _ (fun h => hja h.symm)]
  have hkeys : keys (mapUpdate (mapUpdate nodes a f1) b f2) = keys nodes := by
    rw [keys_mapUpdate, keys_mapUpdate]
  have hget' : ∀ ℓ v, mapGet (mapUpdate (mapUpdate nodes a f1) b f2) ℓ = some v →
      (ℓ = a ∧ v = f1 va) ∨ (ℓ = b ∧ v = f2 vb) ∨
      (ℓ ≠ a ∧ ℓ ≠ b ∧ mapGet nodes ℓ = some v) := by
    intro ℓ v hv
    by_cases hℓa : ℓ = a
    · subst hℓa
      rw [hgeta] at hv
      exact Or.inl ⟨rfl, (Option.some.inj hv).symm⟩
    · by_cases hℓb : ℓ = b
      · subst hℓb
        rw [hgetb] at hv
        exact Or.inr (Or.inl ⟨rfl, (Option.some.inj hv).symm⟩)
      · rw [hgeto ℓ hℓa hℓb] at hv
        exact Or.inr (Or.inr ⟨hℓa, hℓb, hv⟩)
  -- the old node behind a new entry, and the membership change of its list
  have hmem' : ∀ ℓ v, mapGet (mapUpdate (mapUpdate nodes a f1) b f2) ℓ = some v →
      ∃ v0, mapGet nodes ℓ = some v0 ∧ v.id = v0.id ∧ v.color = v0.color ∧
        (v0.neighbors.Nodup → v.neighbors.Nodup) ∧
        (∀ j, j ∈ v.neighbors ↔ (j ∈ v0.neighbors ∨ (ℓ = a ∧ j = b) ∨ (ℓ = b ∧ j = a))) := by
    intro ℓ v hv
    rcases hget' ℓ v hv with ⟨rfl, rfl⟩ | ⟨rfl, rfl⟩ | ⟨hℓa, hℓb, hv0⟩
    · refine ⟨va, hva, rfl, rfl, fun h => nodup_setAdd h, ?_⟩
      intro j
      show j ∈ setAdd va.neighbors b ↔ _
      rw [mem_setAdd]
      constructor
      · rintro (h | rfl)
        · exact Or.inl h
        · exact Or.inr (Or.inl ⟨rfl, rfl⟩)
      · rintro (h | ⟨-, rfl⟩ | ⟨hab, -⟩)
        · exact Or.inl h
        · exact Or.inr rfl
        · exact absurd hab hne
    · refine ⟨vb, hvb, rfl, rfl, fun h => nodup_setAdd h, ?_⟩
      intro j
      show j ∈ setAdd vb.neighbors a ↔ _
      rw [mem_setAdd]
      constructor
      · rintro (h | rfl)
        · exact Or.inl h
        · exact Or.inr (Or.inr ⟨rfl, rfl⟩)
      · rintro (h | ⟨hba, -⟩ | ⟨-, rfl⟩)
        · exact Or.inl h
        · exact absurd hba.symm hne
        · exact Or.inr rfl
    · refine ⟨v, hv0, rfl, rfl, fun h => h, ?_⟩
      intro j
      constructor
      · intro h
        exact Or.inl h
      · rintro (h | ⟨rfl, -⟩ | ⟨rfl, -⟩)
        · exact h
        · exact absurd rfl hℓa
        · exact absurd rfl hℓb
  refine ⟨?_, ?_, ?_, ?_⟩
  · rw [length_eq_keys_length, hkeys, ← length_eq_keys_length]
    exact hinv.len
  · intro ℓ
    rw [mapGet_isSome_iff, hkeys, ← mapGet_isSome_iff]
    exact hinv.keysIff ℓ
  · rw [hkeys]
    exact hinv.keysNodup
  · intro ℓ v hv
    obtain ⟨v0, hv0, hid, hcolv, hndv, hmemv⟩ := hmem' ℓ v hv
    obtain ⟨hid0, hnd0, hcol0, hnbr0⟩ := hinv.nodesOk ℓ v0 hv0
    refine ⟨by rw [hid, hid0], hndv hnd0, ?_, ?_⟩
    · intro y hy hly
      rw [hcolv]
      exact hcol0 y hy hly
    · intro j hj
      rcases (hmemv j).1 hj with hj0 | ⟨hℓa, hjb⟩ | ⟨hℓb, hja⟩
      · obtain ⟨hjc, hjl, w0, hw0, hlw0, hcw0⟩ := hnbr0 j hj0
        obtain ⟨w, hw⟩ : ∃ w, mapGet (mapUpdate (mapUpdate nodes a f1) b f2) j = some w := by
          cases hm : mapGet (mapUpdate (mapUpdate nodes a f1) b f2) j
          · exfalso
            have h1 : j ∈ keys nodes := (mapGet_isSome_iff).1 (by rw [hw0]; rfl)
            rw [← hkeys, ← mapGet_isSome_iff, hm] at h1
            cases h1
          · exact ⟨_, rfl⟩
        obtain ⟨w0', hw0', -, hwc, -, hwmem⟩ := hmem' j w hw
        have hw0e : w0' = w0 := Option.some.inj (hw0'.symm.trans hw0)
        subst hw0e
        refine ⟨hjc, hjl, w, hw, ?_, ?_⟩
        · rw [hwmem ℓ]
          exact Or.inl hlw0
        · rw [hcolv, hwc]
          exact hcw0
      · subst hjb
        have hv0a : v0 = va := by
          rw [hℓa] at hv0
          exact Option.some.inj (hv0.symm.trans hva)
        refine ⟨hb, ?_, f2 vb, hgetb, ?_, ?_⟩
        · rw [hℓa]
          exact fun h => hne h.symm
        · show ℓ ∈ setAdd vb.neighbors a
          rw [hℓa]
          exact mem_setAdd.2 (Or.inr rfl)
        · rw [hcolv, hv0a]
          exact hcol
      · subst hja
        have hv0b : v0 = vb := by
          rw [hℓb] at hv0
          exact Option.some.inj (hv0.symm.trans hvb)
        refine ⟨ha, ?_, f1 va, hgeta, ?_, ?_⟩
        · rw [hℓb]
          exact hne
        · show ℓ ∈ setAdd va.neighbors b
          rw [hℓb]
          exact mem_setAdd.2 (Or.inr rfl)
        · rw [hcolv, hv0b]
          exact hcol.symm

/-- The loop body of pass 2 over one neighbour (definitionally the inner
lambda of `bgPass2`). -/
def p2Step (rows : Nat) (rm : List Int) (x : Cell) (nodes : Graph) (n : Cell)
    (cols : Nat) : Graph :=
  if ¬(n.1 < rows ∧ n.2 < cols) then nodes
  else
    let cI := rmGet rm (bgIdx rows x)
    let nI := rmGet rm (bgIdx rows n)
    if cI ≠ nI then
      mapUpdate (mapUpdate nodes cI.toNat
        (fun nd => { nd with neighbors := setAdd nd.neighbors nI.toNat }))
        nI.toNat
        (fun nd => { nd with neighbors := setAdd nd.neighbors cI.toNat })
    else nodes

theorem p2InnerFold_spec {rows cols : Nat} {grid : List (List Nat)} {rm : List Int}
    {counter : Nat} (hG : GridWF rows cols grid)
    (htot : ∀ y : Cell, inBounds rows cols y →
      ∃ ℓ : Nat, ℓ < counter ∧ rmGet rm (bgIdx rows y) = (ℓ : Int))
    (huni : ∀ y z : Cell, inBounds rows cols y → inBounds rows cols z →
      sameRegion rows cols grid y z →
      rmGet rm (bgIdx rows y) = rmGet rm (bgIdx rows z))
    {x : Cell} (hx : inBounds rows cols x) :
    ∀ (ns : List Cell), (∀ n ∈ ns, n ∈ getNeighbors rows cols x) →
    ∀ (nodes : Graph), P2Inv rows cols grid rm counter nodes →
    P2Inv rows cols grid rm counter
      (ns.foldl (fun nodes n => p2Step rows rm x nodes n cols) nodes) := by
  intro ns
  induction ns with
  | nil => exact fun _ nodes hinv => hinv
  | cons n ns ih =>
    intro hns nodes hinv
    rw [List.foldl_cons]
    refine ih (fun m hm => hns m (List.mem_cons_of_mem _ hm)) _ ?_
    by_cases hb : ¬(n.1 < rows ∧ n.2 < cols)
    · have hstep : p2Step rows rm x nodes n cols = nodes := by
        unfold p2Step
        rw [if_pos hb]
      rw [hstep]
      exact hinv
    · push_neg at hb
      have hnb : inBounds rows cols n := hb
      by_cases hne : rmGet rm (bgIdx rows x) ≠ rmGet rm (bgIdx rows n)
      · have hstep : p2Step rows rm x nodes n cols =
            mapUpdate (mapUpdate nodes (rmGet rm (bgIdx rows x)).toNat
              (fun nd => { nd with
                neighbors := setAdd nd.neighbors (rmGet rm (bgIdx rows n)).toNat }))
              (rmGet rm (bgIdx rows n)).toNat
              (fun nd => { nd with
                neighbors := setAdd nd.neighbors (rmGet rm (bgIdx rows x)).toNat }) := by
          unfold p2Step
          rw [if_neg (by push_neg; exact hb), if_pos hne]
        rw [hstep]
        obtain ⟨ℓx, hℓx, hlabx⟩ := htot x hx
        obtain ⟨ℓn, hℓn, hlabn⟩ := htot n hnb
        have htx : (rmGet rm (bgIdx rows x)).toNat = ℓx := by
          rw [hlabx]
          exact Int.toNat_natCast ℓx
        have htn : (rmGet rm (bgIdx rows n)).toNat = ℓn := by
          rw [hlabn]
          exact Int.toNat_natCast ℓn
        have hxy : ℓx ≠ ℓn := by
          intro h
          apply hne
          rw [hlabx, hlabn, h]
        refine p2AddEdge hinv (by rw [htx]; exact hℓx) (by rw [htn]; exact hℓn)
          (by rw [htx, htn]; exact hxy) ?_
        intro va vb hva hvb
        obtain ⟨-, -, hcola, -⟩ := hinv.nodesOk _ va hva
        obtain ⟨-, -, hcolb, -⟩ := hinv.nodesOk _ vb hvb
        have hca : colorAt grid x = va.color :=
          hcola x hx (by rw [htx]; exact hlabx)
        have hcb : colorAt grid n = vb.color :=
          hcolb n hnb (by rw [htn]; exact hlabn)
        rw [← hca, ← hcb]
        intro hcc
        apply hne
        apply huni x n hx hnb
        exact Relation.EqvGen.rel _ _ ⟨hx, hnb, hns n (List.mem_cons_self _ _), hcc⟩
      · have hstep : p2Step rows rm x nodes n cols = nodes := by
          unfold p2Step
          rw [if_neg (by push_neg; exact hb), if_neg hne]
        rw [hstep]
        exact hinv

theorem p2Fold_spec {rows cols : Nat} {grid : List (List Nat)} {rm : List Int}
    {counter : Nat} (hG : GridWF rows cols grid)
    (htot : ∀ y : Cell, inBounds rows cols y →
      ∃ ℓ : Nat, ℓ < counter ∧ rmGet rm (bgIdx rows y) = (ℓ : Int))
    (huni : ∀ y z : Cell, inBounds rows cols y → inBounds rows cols z →
      sameRegion rows cols grid y z →
      rmGet rm (bgIdx rows y) = rmGet rm (bgIdx rows z)) :
    ∀ (cs : List Cell), (∀ c ∈ cs, inBounds rows cols c) →
    ∀ (nodes : Graph), P2Inv rows cols grid rm counter nodes →
    P2Inv rows cols grid rm counter
      (cs.foldl (fun nodes x =>
        (getNeighbors rows cols x).foldl
          (fun nodes n => p2Step rows rm x nodes n cols) nodes) nodes) := by
  intro cs
  induction cs with
  | nil => exact fun _ nodes hinv => hinv
  | cons c cs ih =>
    intro hcs nodes hinv
    rw [List.foldl_cons]
    refine ih (fun m hm => hcs m (List.mem_cons_of_mem _ hm)) _ ?_
    exact p2InnerFold_spec hG htot huni (hcs c (List.mem_cons_self _ _))
      (getNeighbors rows cols c) (fun n hn => hn) nodes hinv

theorem P2Inv_GraphWF {rows cols : Nat} {grid : List (List Nat)} {rm : List Int}
    {counter : Nat} {nodes : Graph}
    (hinv : P2Inv rows cols grid rm counter nodes) : GraphWF nodes := by
  refine GraphWF_of_get hinv.keysNodup ?_ ?_ ?_ ?_ ?_ ?_
  · intro k v hv
    exact (hinv.nodesOk k v hv).1
  · intro k v hv
    exact (hinv.nodesOk k v hv).2.1
  · intro k v hv x hx
    obtain ⟨hlt, -, w, hw, -, -⟩ := (hinv.nodesOk k v hv).2.2.2 x hx
    exact mapGet_isSome_iff.1 (by rw [hw]; rfl)
  · intro k v hv hk
    exact ((hinv.nodesOk k v hv).2.2.2 k hk).2.1 rfl
  · intro k v j w hv hw hjv
    obtain ⟨-, -, w0, hw0, hmem, -⟩ := (hinv.nodesOk k v hv).2.2.2 j hjv
    have : w0 = w := Option.some.inj (hw0.symm.trans hw)
    subst this
    exact hmem
  · intro k v j w hv hw hjv
    obtain ⟨-, -, w0, hw0, -, hcol⟩ := (hinv.nodesOk k v hv).2.2.2 j hjv
    have : w0 = w := Option.some.inj (hw0.symm.trans hw)
    subst this
    exact hcol

/-- Full correctness of `buildGraph` as run by the `GraphSolver` constructor:
the region graph is well-formed and its node count — as well as the recorded
`initialRegionCount` — equals the grid's `getRegionCount()`. -/
theorem GraphSolver.make_spec {g : GameGrid} (hWF : g.WF) :
    GraphWF (GraphSolver.make g).nodes ∧
    (GraphSolver.make g).nodes.length = g.getRegionCount ∧
    (GraphSolver.make g).initialRegionCount = g.getRegionCount := by
  obtain ⟨hG, hU⟩ := hWF
  obtain ⟨p1inv, p1tot⟩ := bgPass1_spec g.rows g.cols g.grid hG
  have htot : ∀ y : Cell, inBounds g.rows g.cols y →
      ∃ ℓ : Nat, ℓ < (bgPass1 g.rows g.cols g.grid).counter ∧
        rmGet (bgPass1 g.rows g.cols g.grid).regionMap (bgIdx g.rows y) = (ℓ : Int) := by
    intro y hy
    rcases p1inv.range y hy with h | h
    · exact absurd h (p1tot y hy)
    · exact h
  have hinv2 : P2Inv g.rows g.cols g.grid (bgPass1 g.rows g.cols g.grid).regionMap
      (bgPass1 g.rows g.cols g.grid).counter (bgPass1 g.rows g.cols g.grid).nodes := by
    refine ⟨p1inv.nodesLen, p1inv.nodesKeys, p1inv.keysNodup, ?_⟩
    intro ℓ v hv
    obtain ⟨hid, hnb, hcol⟩ := p1inv.nodesOk ℓ v hv
    refine ⟨hid, by rw [hnb]; exact List.nodup_nil, hcol, ?_⟩
    intro j hj
    rw [hnb] at hj
    cases hj
  have hfinal := p2Fold_spec hG htot p1inv.uniform (scanCells g.rows g.cols)
    (fun c hc => mem_scanCells.1 hc) (bgPass1 g.rows g.cols g.grid).nodes hinv2
  have heq : (GraphSolver.make g).nodes =
      (scanCells g.rows g.cols).foldl
        (fun nodes x => (getNeighbors g.rows g.cols x).foldl
          (fun nodes n =>
            p2Step g.rows (bgPass1 g.rows g.cols g.grid).regionMap x nodes n g.cols) nodes)
        (bgPass1 g.rows g.cols g.grid).nodes := rfl
  have hcount : g.uf.count = (bgPass1 g.rows g.cols g.grid).counter := by
    refine @count_eq_of_labeling g.rows g.cols g.grid g.uf hU
      (bgPass1 g.rows g.cols g.grid).counter
      (fun y => (rmGet (bgPass1 g.rows g.cols g.grid).regionMap (bgIdx g.rows y)).toNat)
      ?_ ?_ ?_
    · intro y hy
      obtain ⟨ℓ, hℓ, hlab⟩ := htot y hy
      show (rmGet (bgPass1 g.rows g.cols g.grid).regionMap (bgIdx g.rows y)).toNat
        < (bgPass1 g.rows g.cols g.grid).counter
      rw [hlab, Int.toNat_natCast]
      exact hℓ
    · intro y z hy hz
      obtain ⟨ℓy, hℓy, hlaby⟩ := htot y hy
      obtain ⟨ℓz, hℓz, hlabz⟩ := htot z hz
      constructor
      · intro h
        have h2 : (rmGet (bgPass1 g.rows g.cols g.grid).regionMap (bgIdx g.rows y)).toNat
            = (rmGet (bgPass1 g.rows g.cols g.grid).regionMap (bgIdx g.rows z)).toNat := h
        apply p1inv.separate y z hy hz
        · rw [hlaby]
          omega
        · rw [hlaby, hlabz, Int.toNat_natCast, Int.toNat_natCast] at h2
          rw [hlaby, hlabz, h2]
      · intro h
        have := p1inv.uniform y z hy hz h
        show (rmGet (bgPass1 g.rows g.cols g.grid).regionMap (bgIdx g.rows y)).toNat = _
        rw [this]
    · intro ℓ hℓ
      obtain ⟨y, hy, hlab⟩ := p1inv.surj ℓ hℓ
      refine ⟨y, hy, ?_⟩
      show (rmGet (bgPass1 g.rows g.cols g.grid).regionMap (bgIdx g.rows y)).toNat = ℓ
      rw [hlab, Int.toNat_natCast]
  refine ⟨?_, ?_, ?_⟩
  · rw [heq] at *
    exact P2Inv_GraphWF hfinal
  · rw [heq]
    show _ = g.uf.count
    rw [hcount]
    exact hfinal.len
  · show (bgPass1 g.rows g.cols g.grid).counter = g.uf.count
    rw [hcount]

/-! ### A heap-instrumented model of `applyMove` for the frame property

The value-semantics translation above cannot even express mutation of the
input, so the source's claim that `applyMove` is pure is checked against an
object-store model: JS objects (`RegionNode` literals and their neighbour
`Set`s) live at addresses in a heap with a fresh-allocation counter, a
`Map<number, RegionNode>` is an id-to-address table, and every statement of
the source that mutates an object becomes a write at that object's
address. -/

/-- Lookup in an address-keyed store (first matching cell). -/
def alookup {α : Type _} (m : List (Nat × α)) (k : Nat) : Option α :=
  (m.find? (fun p => p.1 == k)).map (fun p => p.2)

/-- In-place mutation of the cell at an address (no-op when absent). -/
def aupdate {α : Type _} (m : List (Nat × α)) (k : Nat) (v : α) : List (Nat × α) :=
  m.map (fun p => if p.1 = k then (k, v) else p)

/-- A `RegionNode` object: scalar fields inline, the `neighbors` `Set` is a
separate heap object referenced by address (as in JS). -/
structure HNode where
  id : Nat
  color : Nat
  size : Nat
  nbrsAddr : Nat
deriving Repr, DecidableEq

/-- The object store: node objects and neighbour-set objects, with a
fresh-allocation counter. -/
structure Heap where
  next : Nat
  nodeCells : List (Nat × HNode)
  setCells : List (Nat × List Nat)
deriving Repr

def hreadNode (h : Heap) (a : Nat) : Option HNode := alookup h.nodeCells a

def hreadSet (h : Heap) (a : Nat) : Option (List Nat) := alookup h.setCells a

def hwriteNode (h : Heap) (a : Nat) (v : HNode) : Heap :=
  { h with nodeCells := aupdate h.nodeCells a v }

def hwriteSet (h : Heap) (a : Nat) (v : List Nat) : Heap :=
  { h with setCells := aupdate h.setCells a v }

def hallocNode (h : Heap) (v : HNode) : Nat × Heap :=
  (h.next, { h with next := h.next + 1, nodeCells := h.nodeCells ++ [(h.next, v)] })

def hallocSet (h : Heap) (v : List Nat) : Nat × Heap :=
  (h.next, { h with next := h.next + 1, setCells := h.setCells ++ [(h.next, v)] })

/-- A `Map<number, RegionNode>` in the heap model: id-to-address table. -/
abbrev HGraph := List (Nat × Nat)

def mapGetA (m : HGraph) (k : Nat) : Option Nat :=
  (m.find? (fun p => p.1 == k)).map (fun p => p.2)

def mapDeleteA (m : HGraph) (k : Nat) : HGraph := m.filter (fun p => p.1 != k)

theorem alookup_aupdate_ne {α : Type _} {m : List (Nat × α)} {k j : Nat}
    (h : j ≠ k) (v : α) : alookup (aupdate m k v) j = alookup m j := by
  unfold alookup aupdate
  induction m with
  | nil => rfl
  | cons p m ih =>
    rw [List.map_cons, List.find?_cons, List.find?_cons]
    by_cases hp : p.1 = k
    · rw [if_pos hp]
      have h1 : (((k, v) : Nat × α).1 == j) = false :=
        beq_eq_false_iff_ne.2 (fun hc => h hc.symm)
      have h2 : (p.1 == j) = false := beq_eq_false_iff_ne.2 (by rw [hp]; exact fun hc => h hc.symm)
      rw [h1, h2]
      exact ih
    · rw [if_neg hp]
      cases hpj : (p.1 == j)
      · exact ih
      · rfl

theorem alookup_aupdate_map {α : Type _} (m : List (Nat × α)) (k : Nat) (v : α) :
    alookup (aupdate m k v) k = (alookup m k).map (fun _ => v) := by
  unfold alookup aupdate
  induction m with
  | nil => rfl
  | cons p m ih =>
    rw [List.map_cons, List.find?_cons, List.find?_cons]
    by_cases hp : p.1 = k
    · rw [if_pos hp]
      have h1 : (((k, v) : Nat × α).1 == k) = true := beq_self_eq_true k
      have h2 : (p.1 == k) = true := by rw [hp]; exact beq_self_eq_true k
      rw [h1, h2]
      rfl
    · rw [if_neg hp]
      have h2 : (p.1 == k) = false := beq_eq_false_iff_ne.2 hp
      rw [h2]
      exact ih

theorem alookup_append_ne {α : Type _} {m : List (Nat × α)} {k j : Nat}
    (h : j ≠ k) (v : α) : alookup (m ++ [(k, v)]) j = alookup m j := by
  unfold alookup
  rw [List.find?_append]
  have h1 : ([((k, v))] : List (Nat × α)).find? (fun p => p.1 == j) = none := by
    simp only [List.find?_cons, List.find?_nil]
    rw [show (k == j) = false from beq_eq_false_iff_ne.2 (fun hc => h hc.symm)]
  rw [h1]
  cases m.find? (fun p => p.1 == j) <;> rfl

theorem alookup_append_self {α : Type _} {m : List (Nat × α)} {k : Nat}
    (h : alookup m k = none) (v : α) : alookup (m ++ [(k, v)]) k = some v := by
  unfold alookup at h ⊢
  rw [List.find?_append]
  have h1 : m.find? (fun p => p.1 == k) = none := by
    cases hf : m.find? (fun p => p.1 == k)
    · rfl
    · rw [hf] at h
      cases h
  rw [h1]
  simp [List.find?_cons, beq_self_eq_true]

theorem alookup_none_of_lt {α : Type _} {m : List (Nat × α)} {n : Nat}
    (h : ∀ p ∈ m, p.1 < n) : alookup m n = none := by
  unfold alookup
  induction m with
  | nil => rfl
  | cons p m ih =>
    rw [List.find?_cons]
    have h1 : (p.1 == n) = false :=
      beq_eq_false_iff_ne.2 (by have := h p (List.mem_cons_self _ _); omega)
    rw [h1]
    exact ih (fun q hq => h q (List.mem_cons_of_mem _ hq))

theorem aupdate_keys_sub {α : Type _} {m : List (Nat × α)} {k : Nat} {v : α}
    {q : Nat × α} (hq : q ∈ aupdate m k v) : ∃ p ∈ m, q.1 = p.1 := by
  unfold aupdate at hq
  obtain ⟨p, hp, hpq⟩ := List.mem_map.1 hq
  refine ⟨p, hp, ?_⟩
  by_cases hpk : p.1 = k
  · rw [if_pos hpk] at hpq
    rw [← hpq, hpk]
  · rw [if_neg hpk] at hpq
    rw [← hpq]

theorem mem_of_mapGetA {m : HGraph} {k a : Nat} (h : mapGetA m k = some a) :
    (k, a) ∈ m := by
  unfold mapGetA at h
  rcases Option.map_eq_some'.1 h with ⟨p, hp, rfl⟩
  have hk : p.1 = k := by
    have := List.find?_some hp
    simpa using this
  have hm := List.mem_of_find?_eq_some hp
  rw [show (k, p.2) = p from by rw [← hk]] at *
  exact hm

/-- All pre-existing addresses read identically in the two heaps. -/
def AgreeBelow (N : Nat) (h h' : Heap) : Prop :=
  ∀ a, a < N → hreadNode h' a = hreadNode h a ∧ hreadSet h' a = hreadSet h a

theorem agreeBelow_refl (N : Nat) (h : Heap) : AgreeBelow N h h :=
  fun _ _ => ⟨rfl, rfl⟩

theorem agreeBelow_trans {N : Nat} {h1 h2 h3 : Heap}
    (a1 : AgreeBelow N h1 h2) (a2 : AgreeBelow N h2 h3) : AgreeBelow N h1 h3 :=
  fun a ha => ⟨(a2 a ha).1.trans (a1 a ha).1, (a2 a ha).2.trans (a1 a ha).2⟩

/-- Every allocated cell's address is below the allocation counter. -/
def HeapWF (h : Heap) : Prop :=
  (∀ p ∈ h.nodeCells, p.1 < h.next) ∧ (∀ p ∈ h.setCells, p.1 < h.next)

/-- A node address allocated by the copy phase: at least `N`, in range, and
its stored object's neighbour set is also a copy-phase allocation. -/
def AddrOK (N : Nat) (h : Heap) (a : Nat) : Prop :=
  N ≤ a ∧ a < h.next ∧
  ∀ nd, hreadNode h a = some nd → N ≤ nd.nbrsAddr ∧ nd.nbrsAddr < h.next

/-- Invariant of the mutation phase: the heap is well-formed, and every
address reachable through the copied map was allocated at or after `N`. -/
def CopyOK (N : Nat) (m : HGraph) (h : Heap) : Prop :=
  HeapWF h ∧ N ≤ h.next ∧ ∀ p ∈ m, AddrOK N h p.2

theorem hwriteNode_agree {N a : Nat} (ha : N ≤ a) (h : Heap) (v : HNode) :
    AgreeBelow N h (hwriteNode h a v) := by
  intro b hb
  exact ⟨alookup_aupdate_ne (by omega) v, rfl⟩

theorem hwriteSet_agree {N a : Nat} (ha : N ≤ a) (h : Heap) (v : List Nat) :
    AgreeBelow N h (hwriteSet h a v) := by
  intro b hb
  exact ⟨rfl, alookup_aupdate_ne (by omega) v⟩

theorem hallocNode_agree {N : Nat} {h : Heap} (hN : N ≤ h.next) (v : HNode) :
    AgreeBelow N h (hallocNode h v).2 := by
  intro b hb
  exact ⟨alookup_append_ne (by omega) v, rfl⟩

theorem hallocSet_agree {N : Nat} {h : Heap} (hN : N ≤ h.next) (v : List Nat) :
    AgreeBelow N h (hallocSet h v).2 := by
  intro b hb
  exact ⟨rfl, alookup_append_ne (by omega) v⟩

theorem CopyOK_writeSet {N : Nat} {m : HGraph} {h : Heap} (hok : CopyOK N m h)
    (a : Nat) (v : List Nat) : CopyOK N m (hwriteSet h a v) := by
  obtain ⟨⟨hw1, hw2⟩, hN, hm⟩ := hok
  refine ⟨⟨hw1, ?_⟩, hN, ?_⟩
  · intro p hp
    obtain ⟨q, hq, hpq⟩ := aupdate_keys_sub hp
    rw [hpq]
    exact hw2 q hq
  · intro p hp
    exact hm p hp

theorem AddrOK_writeSet {N : Nat} {h : Heap} {a : Nat} (hok : AddrOK N h a)
    (b : Nat) (v : List Nat) : AddrOK N (hwriteSet h b v) a :=
  ⟨hok.1, hok.2.1, fun nd hnd => hok.2.2 nd hnd⟩

theorem CopyOK_writeNode {N : Nat} {m : HGraph} {h : Heap} (hok : CopyOK N m h)
    {a : Nat} {v : HNode} (hv : N ≤ v.nbrsAddr ∧ v.nbrsAddr < h.next) :
    CopyOK N m (hwriteNode h a v) := by
  obtain ⟨⟨hw1, hw2⟩, hN, hm⟩ := hok
  refine ⟨⟨?_, hw2⟩, hN, ?_⟩
  · intro p hp
    obtain ⟨q, hq, hpq⟩ := aupdate_keys_sub hp
    rw [hpq]
    exact hw1 q hq
  · intro p hp
    obtain ⟨h1, h2, h3⟩ := hm p hp
    refine ⟨h1, h2, ?_⟩
    intro nd hnd
    by_cases hpa : p.2 = a
    · rw [hpa] at hnd
      rw [show hreadNode (hwriteNode h a v) a = (hreadNode h a).map (fun _ => v) from
        alookup_aupdate_map _ _ _] at hnd
      rcases Option.map_eq_some'.1 hnd with ⟨-, -, rfl⟩
      exact hv
    · rw [show hreadNode (hwriteNode h a v) p.2 = hreadNode h p.2 from
        alookup_aupdate_ne hpa v] at hnd
      exact h3 nd hnd

theorem AddrOK_writeNode {N : Nat} {h : Heap} {a b : Nat} (hok : AddrOK N h a)
    {v : HNode} (hv : N ≤ v.nbrsAddr ∧ v.nbrsAddr < h.next) :
    AddrOK N (hwriteNode h b v) a := by
  refine ⟨hok.1, hok.2.1, ?_⟩
  intro nd hnd
  by_cases hab : a = b
  · rw [hab] at hnd
    rw [show hreadNode (hwriteNode h b v) b = (hreadNode h b).map (fun _ => v) from
      alookup_aupdate_map _ _ _] at hnd
    rcases Option.map_eq_some'.1 hnd with ⟨-, -, rfl⟩
    exact hv
  · rw [show hreadNode (hwriteNode h b v) a = hreadNode h a from
      alookup_aupdate_ne hab v] at hnd
    exact hok.2.2 nd hnd

theorem CopyOK_delete {N : Nat} {m : HGraph} {h : Heap} (hok : CopyOK N m h)
    (k : Nat) : CopyOK N (mapDeleteA m k) h := by
  refine ⟨hok.1, hok.2.1, ?_⟩
  intro p hp
  exact hok.2.2 p (List.mem_of_mem_filter hp)


/-- Mutate the set object at an address (`someSet.add/delete` in JS; no-op on
a dangling address, consistently with the value model). -/
def hmodifySet (h : Heap) (a : Nat) (f : List Nat → List Nat) : Heap :=
  match hreadSet h a with
  | some s => hwriteSet h a (f s)
  | none => h

/-- Mutate the node object at an address (field assignment in JS). -/
def hmodifyNode (h : Heap) (a : Nat) (f : HNode → HNode) : Heap :=
  match hreadNode h a with
  | some nd => hwriteNode h a (f nd)
  | none => h

/-- Mutate the neighbour set belonging to the node at an address
(`node.neighbors.add/delete`). -/
def htouchNbrs (h : Heap) (a : Nat) (f : List Nat → List Nat) : Heap :=
  match hreadNode h a with
  | some nd => hmodifySet h nd.nbrsAddr f
  | none => h

/-- The neighbour id list of the node at an address (pure read). -/
def targetNbrsH (h : Heap) (a : Nat) : List Nat :=
  ((hreadNode h a).bind (fun tn => hreadSet h tn.nbrsAddr)).getD []

/-- The deep-neighbour transfer of one merged node (`for deepNeighborId of
mergeNode.neighbors` body): skip the target itself; otherwise link the deep
neighbour into the target's set and repoint it from the merged id to the
target. -/
def deepStepH (newNodes : HGraph) (targetId mergeId ta : Nat) (h : Heap) (d : Nat) : Heap :=
  if d ≠ targetId then
    let h1 := htouchNbrs h ta (fun ts => setAdd ts d)
    match mapGetA newNodes d with
    | none => h1
    | some da => htouchNbrs h1 da (fun ds => setAdd (setDelete ds mergeId) targetId)
  else h

/-- Body of one merge iteration once the merged node object has been
resolved: accumulate its size into the target, unlink it from the target's
set, transfer its neighbours, and remove its map entry. -/
def mergeBodyH (newNodes : HGraph) (targetId mergeId ta : Nat) (h : Heap)
    (mn : HNode) : HGraph × Heap :=
  let h1 := hmodifyNode h ta (fun tn => { tn with size := tn.size + mn.size })
  let h2 := htouchNbrs h1 ta (fun ts => setDelete ts mergeId)
  let h3 := match hreadSet h2 mn.nbrsAddr with
    | some ms => ms.foldl (deepStepH newNodes targetId mergeId ta) h2
    | none => h2
  (mapDeleteA newNodes mergeId, h3)

/-- One iteration of the merge loop of `applyMove` against the heap
(`newNodes.get(mergeId)!` resolved through the live map). -/
def mergeStepH (targetId ta : Nat) (st : HGraph × Heap) (mergeId : Nat) : HGraph × Heap :=
  match (mapGetA st.1 mergeId).bind (fun ma => hreadNode st.2 ma) with
  | none => st
  | some mn => mergeBodyH st.1 targetId mergeId ta st.2 mn

/-- The copy loop of `applyMove`
(`newNodes.set(id, { ...node, neighbors: new Set(node.neighbors) })`): a
fresh set cell and a fresh node cell per input node. -/
def copyNodeH (acc : HGraph × Heap) (p : Nat × Nat) : HGraph × Heap :=
  match (hreadNode acc.2 p.2).bind (fun nd =>
      (hreadSet acc.2 nd.nbrsAddr).map (fun s => (nd, s))) with
  | none => acc
  | some (nd, s) =>
    let sa := hallocSet acc.2 s
    let na := hallocNode sa.2 { nd with nbrsAddr := sa.1 }
    (acc.1 ++ [(p.1, na.1)], na.2)

/-- The phase of `applyMove` run once the target's copied address `ta` is
resolved: recolor the target object, collect the matching neighbours, run the
merge loop, and unlink the target from its own set. -/
def applyMoveTail (cp : HGraph × Heap) (targetId newColor ta : Nat) : HGraph × Heap :=
  let h2 := hmodifyNode cp.2 ta (fun tn => { tn with color := newColor })
  let neighborsToMerge := (targetNbrsH h2 ta).filter (fun nId =>
    match (mapGetA cp.1 nId).bind (fun na => hreadNode h2 na) with
    | some nb => nb.color == newColor
    | none => false)
  let fin := neighborsToMerge.foldl (mergeStepH targetId ta) (cp.1, h2)
  let h3 := htouchNbrs fin.2 ta (fun ts => setDelete ts targetId)
  (fin.1, h3)

/-- Heap-level translation of `applyMove`: copy every node object and its
neighbour set into fresh cells, then recolor, merge and unlink only through
the copies' addresses.  The input id-to-address table `nodes` is a pure value
here (JS would not mutate the `Map` either); the mutation claim to check is
about the objects behind the input's addresses. -/
def applyMoveH (h0 : Heap) (nodes : HGraph) (targetId newColor : Nat) : HGraph × Heap :=
  match mapGetA (nodes.foldl copyNodeH ([], h0)).1 targetId with
  | none => nodes.foldl copyNodeH ([], h0)
  | some ta => applyMoveTail (nodes.foldl copyNodeH ([], h0)) targetId newColor ta

theorem hmodifySet_frame {N : Nat} {m : HGraph} {h : Heap} (hok : CopyOK N m h)
    {a : Nat} (ha : N ≤ a) (f : List Nat → List Nat) :
    CopyOK N m (hmodifySet h a f) ∧
    (∀ b, AddrOK N h b → AddrOK N (hmodifySet h a f) b) ∧
    AgreeBelow N h (hmodifySet h a f) ∧ (hmodifySet h a f).next = h.next := by
  rcases hs : hreadSet h a with _ | s
  · have hstep : hmodifySet h a f = h := by
      unfold hmodifySet
      rw [hs]
    rw [hstep]
    exact ⟨hok, fun b hb => hb, agreeBelow_refl N h, rfl⟩
  · have hstep : hmodifySet h a f = hwriteSet h a (f s) := by
      unfold hmodifySet
      rw [hs]
    rw [hstep]
    exact ⟨CopyOK_writeSet hok _ _, fun b hb => AddrOK_writeSet hb _ _,
      hwriteSet_agree ha h _, rfl⟩

theorem hmodifyNode_frame {N : Nat} {m : HGraph} {h : Heap} (hok : CopyOK N m h)
    {a : Nat} (ha : AddrOK N h a) (f : HNode → HNode)
    (hf : ∀ nd, (f nd).nbrsAddr = nd.nbrsAddr) :
    CopyOK N m (hmodifyNode h a f) ∧
    (∀ b, AddrOK N h b → AddrOK N (hmodifyNode h a f) b) ∧
    AgreeBelow N h (hmodifyNode h a f) ∧ (hmodifyNode h a f).next = h.next := by
  rcases hn : hreadNode h a with _ | nd
  · have hstep : hmodifyNode h a f = h := by
      unfold hmodifyNode
      rw [hn]
    rw [hstep]
    exact ⟨hok, fun b hb => hb, agreeBelow_refl N h, rfl⟩
  · have hstep : hmodifyNode h a f = hwriteNode h a (f nd) := by
      unfold hmodifyNode
      rw [hn]
    rw [hstep]
    have hb := ha.2.2 nd hn
    have hbv : N ≤ (f nd).nbrsAddr ∧ (f nd).nbrsAddr < h.next := by
      rw [hf nd]
      exact hb
    exact ⟨CopyOK_writeNode hok hbv, fun b hbk => AddrOK_writeNode hbk hbv,
      hwriteNode_agree ha.1 h _, rfl⟩

theorem htouchNbrs_frame {N : Nat} {m : HGraph} {h : Heap} (hok : CopyOK N m h)
    {a : Nat} (ha : AddrOK N h a) (f : List Nat → List Nat) :
    CopyOK N m (htouchNbrs h a f) ∧
    (∀ b, AddrOK N h b → AddrOK N (htouchNbrs h a f) b) ∧
    AgreeBelow N h (htouchNbrs h a f) ∧ (htouchNbrs h a f).next = h.next := by
  rcases hn : hreadNode h a with _ | nd
  · have hstep : htouchNbrs h a f = h := by
      unfold htouchNbrs
      rw [hn]
    rw [hstep]
    exact ⟨hok, fun b hb => hb, agreeBelow_refl N h, rfl⟩
  · have hstep : htouchNbrs h a f = hmodifySet h nd.nbrsAddr f := by
      unfold htouchNbrs
      rw [hn]
    rw [hstep]
    exact hmodifySet_frame hok (ha.2.2 nd hn).1 f

theorem deepStepH_frame {N : Nat} {m : HGraph} {targetId mergeId ta : Nat} {h : Heap}
    (hok : CopyOK N m h) (hta : AddrOK N h ta) (d : Nat) :
    CopyOK N m (deepStepH m targetId mergeId ta h d) ∧
    AddrOK N (deepStepH m targetId mergeId ta h d) ta ∧
    AgreeBelow N h (deepStepH m targetId mergeId ta h d) ∧
    (deepStepH m targetId mergeId ta h d).next = h.next := by
  by_cases hd : d ≠ targetId
  · obtain ⟨c1, c2, c3, c4⟩ := htouchNbrs_frame hok hta (fun ts => setAdd ts d)
    rcases hda : mapGetA m d with _ | da
    · have hstep : deepStepH m targetId mergeId ta h d =
          htouchNbrs h ta (fun ts => setAdd ts d) := by
        unfold deepStepH
        rw [if_pos hd, hda]
      rw [hstep]
      exact ⟨c1, c2 ta hta, c3, c4⟩
    · have hstep : deepStepH m targetId mergeId ta h d =
          htouchNbrs (htouchNbrs h ta (fun ts => setAdd ts d)) da
            (fun ds => setAdd (setDelete ds mergeId) targetId) := by
        unfold deepStepH
        rw [if_pos hd, hda]
      rw [hstep]
      have hdaok : AddrOK N (htouchNbrs h ta (fun ts => setAdd ts d)) da := by
        apply c2
        obtain ⟨-, -, hbound⟩ := hok.2.2 (d, da) (mem_of_mapGetA hda)
        exact ⟨(hok.2.2 (d, da) (mem_of_mapGetA hda)).1,
          (hok.2.2 (d, da) (mem_of_mapGetA hda)).2.1, hbound⟩
      obtain ⟨g1, g2, g3, g4⟩ := htouchNbrs_frame c1 hdaok
        (fun ds => setAdd (setDelete ds mergeId) targetId)
      exact ⟨g1, g2 ta (c2 ta hta), agreeBelow_trans c3 g3, g4.trans c4⟩
  · have hstep : deepStepH m targetId mergeId ta h d = h := by
      unfold deepStepH
      rw [if_neg hd]
    rw [hstep]
    exact ⟨hok, hta, agreeBelow_refl N h, rfl⟩

theorem deepFoldH_frame {N : Nat} {m : HGraph} {targetId mergeId ta : Nat} :
    ∀ (l : List Nat) (h : Heap), CopyOK N m h → AddrOK N h ta →
    CopyOK N m (l.foldl (deepStepH m targetId mergeId ta) h) ∧
    AddrOK N (l.foldl (deepStepH m targetId mergeId ta) h) ta ∧
    AgreeBelow N h (l.foldl (deepStepH m targetId mergeId ta) h) ∧
    (l.foldl (deepStepH m targetId mergeId ta) h).next = h.next := by
  intro l
  induction l with
  | nil => exact fun h hok hta => ⟨hok, hta, agreeBelow_refl N h, rfl⟩
  | cons d l ih =>
    intro h hok hta
    rw [List.foldl_cons]
    obtain ⟨c1, c2, c3, c4⟩ := deepStepH_frame hok hta d
    obtain ⟨g1, g2, g3, g4⟩ := ih _ c1 c2
    exact ⟨g1, g2, agreeBelow_trans c3 g3, g4.trans c4⟩

theorem mergeBodyH_frame {N : Nat} {m : HGraph} {targetId mergeId ta : Nat} {h : Heap}
    (hok : CopyOK N m h) (hta : AddrOK N h ta) (mn : HNode) :
    CopyOK N (mergeBodyH m targetId mergeId ta h mn).1
      (mergeBodyH m targetId mergeId ta h mn).2 ∧
    AddrOK N (mergeBodyH m targetId mergeId ta h mn).2 ta ∧
    AgreeBelow N h (mergeBodyH m targetId mergeId ta h mn).2 ∧
    (mergeBodyH m targetId mergeId ta h mn).2.next = h.next := by
  obtain ⟨c1, c2, c3, c4⟩ := hmodifyNode_frame hok hta
    (fun tn => { tn with size := tn.size + mn.size }) (fun nd => rfl)
  obtain ⟨d1, d2, d3, d4⟩ := htouchNbrs_frame c1 (c2 ta hta) (fun ts => setDelete ts mergeId)
  have hstep : mergeBodyH m targetId mergeId ta h mn =
      (mapDeleteA m mergeId,
        match hreadSet (htouchNbrs
            (hmodifyNode h ta (fun tn => { tn with size := tn.size + mn.size }))
            ta (fun ts => setDelete ts mergeId)) mn.nbrsAddr with
        | some ms => ms.foldl (deepStepH m targetId mergeId ta)
            (htouchNbrs
              (hmodifyNode h ta (fun tn => { tn with size := tn.size + mn.size }))
              ta (fun ts => setDelete ts mergeId))
        | none => htouchNbrs
            (hmodifyNode h ta (fun tn => { tn with size := tn.size + mn.size }))
            ta (fun ts => setDelete ts mergeId)) := by
    unfold mergeBodyH
    rfl
  rw [hstep]
  rcases hms : hreadSet (htouchNbrs
      (hmodifyNode h ta (fun tn => { tn with size := tn.size + mn.size }))
      ta (fun ts => setDelete ts mergeId)) mn.nbrsAddr with _ | ms
  · exact ⟨CopyOK_delete d1 _, d2 ta (c2 ta hta), agreeBelow_trans c3 d3,
      d4.trans c4⟩
  · obtain ⟨g1, g2, g3, g4⟩ := deepFoldH_frame ms _ d1 (d2 ta (c2 ta hta))
    exact ⟨CopyOK_delete g1 _, g2, agreeBelow_trans (agreeBelow_trans c3 d3) g3,
      (g4.trans d4).trans c4⟩

theorem mergeStepH_frame {N targetId ta : Nat} {st : HGraph × Heap}
    (hok : CopyOK N st.1 st.2) (hta : AddrOK N st.2 ta) (mergeId : Nat) :
    CopyOK N (mergeStepH targetId ta st mergeId).1 (mergeStepH targetId ta st mergeId).2 ∧
    AddrOK N (mergeStepH targetId ta st mergeId).2 ta ∧
    AgreeBelow N st.2 (mergeStepH targetId ta st mergeId).2 ∧
    (mergeStepH targetId ta st mergeId).2.next = st.2.next := by
  rcases hmn : (mapGetA st.1 mergeId).bind (fun ma => hreadNode st.2 ma) with _ | mn
  · have hstep : mergeStepH targetId ta st mergeId = st := by
      unfold mergeStepH
      rw [hmn]
    rw [hstep]
    exact ⟨hok, hta, agreeBelow_refl N st.2, rfl⟩
  · have hstep : mergeStepH targetId ta st mergeId =
        mergeBodyH st.1 targetId mergeId ta st.2 mn := by
      unfold mergeStepH
      rw [hmn]
    rw [hstep]
    exact mergeBodyH_frame hok hta mn

theorem mergeFoldH_frame {N targetId ta : Nat} :
    ∀ (l : List Nat) (st : HGraph × Heap), CopyOK N st.1 st.2 → AddrOK N st.2 ta →
    CopyOK N (l.foldl (mergeStepH targetId ta) st).1 (l.foldl (mergeStepH targetId ta) st).2 ∧
    AddrOK N (l.foldl (mergeStepH targetId ta) st).2 ta ∧
    AgreeBelow N st.2 (l.foldl (mergeStepH targetId ta) st).2 := by
  intro l
  induction l with
  | nil => exact fun st hok hta => ⟨hok, hta, agreeBelow_refl N st.2⟩
  | cons mergeId l ih =>
    intro st hok hta
    rw [List.foldl_cons]
    obtain ⟨c1, c2, c3, c4⟩ := mergeStepH_frame hok hta mergeId
    obtain ⟨g1, g2, g3⟩ := ih _ c1 c2
    exact ⟨g1, g2, agreeBelow_trans c3 g3⟩

theorem copyNodeH_frame {N : Nat} {acc : HGraph × Heap}
    (hok : CopyOK N acc.1 acc.2) (p : Nat × Nat) :
    CopyOK N (copyNodeH acc p).1 (copyNodeH acc p).2 ∧
    AgreeBelow N acc.2 (copyNodeH acc p).2 := by
  rcases hrd : (hreadNode acc.2 p.2).bind (fun nd =>
      (hreadSet acc.2 nd.nbrsAddr).map (fun s => (nd, s))) with _ | nds
  · have hstep : copyNodeH acc p = acc := by
      unfold copyNodeH
      rw [hrd]
    rw [hstep]
    exact ⟨hok, agreeBelow_refl N acc.2⟩
  · obtain ⟨nd, s⟩ := nds
    have hstep : copyNodeH acc p =
        (acc.1 ++ [(p.1, (hallocNode (hallocSet acc.2 s).2
            { nd with nbrsAddr := (hallocSet acc.2 s).1 }).1)],
          (hallocNode (hallocSet acc.2 s).2
            { nd with nbrsAddr := (hallocSet acc.2 s).1 }).2) := by
      unfold copyNodeH
      rw [hrd]
    rw [hstep]
    obtain ⟨⟨hw1, hw2⟩, hN, hm⟩ := hok
    have hagree : AgreeBelow N acc.2
        (hallocNode (hallocSet acc.2 s).2 { nd with nbrsAddr := (hallocSet acc.2 s).1 }).2 :=
      agreeBelow_trans (hallocSet_agree hN s)
        (hallocNode_agree (by show N ≤ acc.2.next + 1; omega) _)
    refine ⟨⟨⟨?_, ?_⟩, ?_, ?_⟩, hagree⟩
    · -- node cells well-formed after both allocations
      intro q hq
      show q.1 < acc.2.next + 2
      rcases List.mem_append.1 hq with hq | hq
      · have := hw1 q hq
        omega
      · have : q = (acc.2.next + 1, { nd with nbrsAddr := (hallocSet acc.2 s).1 }) := by
          simpa using hq
        rw [this]
        show acc.2.next + 1 < acc.2.next + 2
        omega
    · intro q hq
      show q.1 < acc.2.next + 2
      rcases List.mem_append.1 hq with hq | hq
      · have := hw2 q hq
        omega
      · have : q = (acc.2.next, s) := by simpa using hq
        rw [this]
        show acc.2.next < acc.2.next + 2
        omega
    · show N ≤ acc.2.next + 2
      omega
    · intro q hq
      rcases List.mem_append.1 hq with hq | hq
      · obtain ⟨h1, h2, h3⟩ := hm q hq
        refine ⟨h1, by show q.2 < acc.2.next + 2; omega, ?_⟩
        intro nd' hnd'
        have hread : hreadNode (hallocNode (hallocSet acc.2 s).2
            { nd with nbrsAddr := (hallocSet acc.2 s).1 }).2 q.2 = hreadNode acc.2 q.2 := by
          show alookup (acc.2.nodeCells ++ [(acc.2.next + 1, _)]) q.2 = _
          exact alookup_append_ne (by omega) _
        rw [hread] at hnd'
        obtain ⟨h4, h5⟩ := h3 nd' hnd'
        exact ⟨h4, by show nd'.nbrsAddr < acc.2.next + 2; omega⟩
      · have hqe : q = (p.1, acc.2.next + 1) := by simpa using hq
        rw [hqe]
        refine ⟨by show N ≤ acc.2.next + 1; omega,
          by show acc.2.next + 1 < acc.2.next + 2; omega, ?_⟩
        intro nd' hnd'
        have hread : hreadNode (hallocNode (hallocSet acc.2 s).2
            { nd with nbrsAddr := (hallocSet acc.2 s).1 }).2 (acc.2.next + 1)
            = some { nd with nbrsAddr := acc.2.next } := by
          show alookup (acc.2.nodeCells ++ [(acc.2.next + 1, _)]) (acc.2.next + 1) = _
          apply alookup_append_self
          apply alookup_none_of_lt
          intro r hr
          have := hw1 r hr
          omega
        rw [hread] at hnd'
        have : nd' = { nd with nbrsAddr := acc.2.next } := Option.some.inj hnd'.symm
        rw [this]
        show N ≤ acc.2.next ∧ acc.2.next < acc.2.next + 2
        omega

theorem copyFoldH_frame {N : Nat} :
    ∀ (l : List (Nat × Nat)) (acc : HGraph × Heap), CopyOK N acc.1 acc.2 →
    CopyOK N (l.foldl copyNodeH acc).1 (l.foldl copyNodeH acc).2 ∧
    AgreeBelow N acc.2 (l.foldl copyNodeH acc).2 := by
  intro l
  induction l with
  | nil => exact fun acc hok => ⟨hok, agreeBelow_refl N acc.2⟩
  | cons p l ih =>
    intro acc hok
    rw [List.foldl_cons]
    obtain ⟨c1, c2⟩ := copyNodeH_frame hok p
    obtain ⟨g1, g2⟩ := ih _ c1
    exact ⟨g1, agreeBelow_trans c2 g2⟩

theorem applyMoveTail_agree {N : Nat} {cp : HGraph × Heap} {t c ta : Nat}
    (hok : CopyOK N cp.1 cp.2) (hta : AddrOK N cp.2 ta) :
    AgreeBelow N cp.2 (applyMoveTail cp t c ta).2 := by
  obtain ⟨d1, d2, d3, d4⟩ := hmodifyNode_frame hok hta
    (fun tn => { tn with color := c }) (fun nd => rfl)
  obtain ⟨g1, g2, g3⟩ := mergeFoldH_frame
    ((targetNbrsH (hmodifyNode cp.2 ta (fun tn => { tn with color := c })) ta).filter
      (fun nId =>
        match (mapGetA cp.1 nId).bind (fun na =>
            hreadNode (hmodifyNode cp.2 ta (fun tn => { tn with color := c })) na) with
        | some nb => nb.color == c
        | none => false))
    (cp.1, hmodifyNode cp.2 ta (fun tn => { tn with color := c }))
    d1 (d2 ta hta)
  obtain ⟨e1, e2, e3, e4⟩ := htouchNbrs_frame g1 g2 (fun ts => setDelete ts t)
  exact agreeBelow_trans (agreeBelow_trans d3 g3) e3

/-- The frame property of `applyMove` in the heap model: every heap cell that
existed before the call reads exactly the same after it; in particular no
object of the input graph is mutated. -/
theorem applyMoveH_agree (h0 : Heap) (nodes : HGraph) (t c : Nat)
    (hWF : HeapWF h0) :
    AgreeBelow h0.next h0 (applyMoveH h0 nodes t c).2 := by
  have hok0 : CopyOK h0.next [] h0 :=
    ⟨hWF, Nat.le_refl _, fun p hp => absurd hp (List.not_mem_nil p)⟩
  obtain ⟨c1, c2⟩ := copyFoldH_frame nodes ([], h0) hok0
  rcases hta : mapGetA (nodes.foldl copyNodeH ([], h0)).1 t with _ | ta
  · have hstep : applyMoveH h0 nodes t c = nodes.foldl copyNodeH ([], h0) := by
      unfold applyMoveH
      rw [hta]
    rw [hstep]
    exact c2
  · have hstep : applyMoveH h0 nodes t c =
        applyMoveTail (nodes.foldl copyNodeH ([], h0)) t c ta := by
      unfold applyMoveH
      rw [hta]
    rw [hstep]
    have htaok : AddrOK h0.next (nodes.foldl copyNodeH ([], h0)).2 ta :=
      c1.2.2 (t, ta) (mem_of_mapGetA hta)
    exact agreeBelow_trans c2 (applyMoveTail_agree c1 htaok)

instance (rows cols : Nat) (grid : List (List Nat)) : Decidable (GridWF rows cols grid) := by
  unfold GridWF
  infer_instance

instance (h : Heap) : Decidable (HeapWF h) := by
  unfold HeapWF
  infer_instance

/-! ### The claims -/

/-- C1: for every well-formed region graph and nonnegative depth cap, a
result returned by `solve` is optimal: its path legally collapses the graph
to one node, its `steps` equals the path length, and no shorter legal
sequence in the move space (one region recolored to a neighbour's color per
move, with `applyMove` merge semantics) reaches the goal. -/
theorem C1_solve_optimal {g : Graph} {m : Int} {res : GraphResult}
    (hWF : GraphWF g) (hm : 0 ≤ m) (h : solveG g m = some res) :
    ReachesGoal g res.path ∧ res.path.length = res.steps ∧
    ∀ seq, ReachesGoal g seq → res.steps ≤ seq.length :=
  solveG_spec hWF h

theorem C1_solve_optimal_witness :
    ReachesGoal twoG [(0, 1)] ∧ ([(0, 1)] : List (Nat × Nat)).length = 1 ∧
    ∀ seq, ReachesGoal twoG seq → 1 ≤ seq.length :=
  C1_solve_optimal (by decide) (by decide) solveG_twoG

/-- C2: after any sequence of in-bounds flood-fill calls on a well-formed
grid, the incrementally maintained Union-Find is still consistent with the
color array (it induces exactly the same-color connectivity partition a full
rebuild induces), and `getRegionCount` equals the component count of a
from-scratch `buildUnionFind` on the current grid. -/
theorem C2_incremental_uf_eq_rebuild {g : GameGrid} (hWF : g.WF)
    {calls : List (Nat × Nat × Nat)}
    (hc : ∀ call ∈ calls, inBounds g.rows g.cols (call.1, call.2.1)) :
    UFConsistent (applyFloodFills g calls).rows (applyFloodFills g calls).cols
      (applyFloodFills g calls).grid (applyFloodFills g calls).uf ∧
    (applyFloodFills g calls).getRegionCount
      = (applyFloodFills g calls).buildUnionFind.count :=
  ⟨(applyFloodFills_WF hWF hc).1.2,
   regionCount_eq_rebuild (applyFloodFills_WF hWF hc).1⟩

theorem C2_incremental_uf_eq_rebuild_witness :
    UFConsistent (applyFloodFills (GameGrid.make 1 2 3 none) [(0, 0, 1), (1, 1, 2)]).rows
      (applyFloodFills (GameGrid.make 1 2 3 none) [(0, 0, 1), (1, 1, 2)]).cols
      (applyFloodFills (GameGrid.make 1 2 3 none) [(0, 0, 1), (1, 1, 2)]).grid
      (applyFloodFills (GameGrid.make 1 2 3 none) [(0, 0, 1), (1, 1, 2)]).uf ∧
    (applyFloodFills (GameGrid.make 1 2 3 none) [(0, 0, 1), (1, 1, 2)]).getRegionCount
      = (applyFloodFills (GameGrid.make 1 2 3 none) [(0, 0, 1), (1, 1, 2)]).buildUnionFind.count :=
  C2_incremental_uf_eq_rebuild (make_WF_default 1 2 3) (by decide)

/-- C3 (amended): when the caller does not supply a maximum depth, the
iterative deepening searches depth limits 0, 1, …, 10: the signature default
of `solve` is 10, not 15 (the game store passes 15 explicitly at its call
site). -/
theorem C3_default_depth_cap (g : Graph) :
    solveGDefault g = (List.range 11).findSome? (fun limit => dfs g 0 limit []) := rfl

/-- C3 counterexample: a 12-region chain in 12 distinct colors needs 11
moves; the default search gives up (its cap is 10) while an explicit cap of
15 finds a solution, so the default cap is not 15. -/
theorem C3_default_not_15 :
    solveGDefault chain12 = none ∧ solveG chain12 15 ≠ none := by
  constructor
  · exact solveG_none_of_heuristic (by decide) (by decide)
  · have h := solveG_chain12_15_isSome
    intro hc
    rw [hc] at h
    cases h

/-- A fully single-colored 3 × 2 board: one region. -/
def oneRegionGrid : GameGrid := GameGrid.make 1 2 3 none

/-- C4 (amended): on a grid whose region count is already 1 the solve flow
does return the zero-step solution `{ steps := 0, path := [] }`, but only
after constructing the region graph: the single-node graph makes the first
depth-0 search succeed immediately; there is no short-circuit before graph
construction. -/
theorem C4_single_region_solution {g : GameGrid} (hWF : g.WF)
    (h1 : g.getRegionCount = 1) :
    ∀ colors, solvePuzzle g colors = some ⟨0, []⟩ := by
  intro colors
  have hm := GraphSolver.make_spec hWF
  have hlen : (GraphSolver.make g).nodes.length = 1 := by rw [hm.2.1, h1]
  have hs : solveG (GraphSolver.make g).nodes 15 = some ⟨0, []⟩ :=
    solveG_single (by decide) hlen
  simp only [solvePuzzle, hs]
  rfl

/-- C4 counterexample: the solve flow constructs a region graph even when
the grid's region count is already 1 — the instrumented flow counts one
`buildGraph` run, not zero; `new GraphSolver(grid)` is unconditional. -/
theorem C4_no_graphless_shortcircuit :
    oneRegionGrid.getRegionCount = 1 ∧
    (solvePuzzleCounting oneRegionGrid ["#fff"]).2 ≠ 0 := by
  exact ⟨by decide, by decide⟩

theorem C4_single_region_solution_witness :
    solvePuzzle oneRegionGrid ["#fff"] = some ⟨0, []⟩ :=
  C4_single_region_solution (make_WF_default 1 2 3) (by decide) ["#fff"]

/-- A two-column board with two colors interleaved (six unit regions). -/
def checkerGrid : GameGrid := GameGrid.make 1 2 3 (some [[0, 1, 0], [1, 0, 1]])

/-- C5: the region graph `buildGraph` produces from a well-formed grid, and
every graph obtained from it by a sequence of `applyMove` steps, satisfies
the node invariants: keys are unique, each node's `id` is its key, neighbour
sets are duplicate-free, every neighbour id is a key of the map, no node
lists itself, the neighbour relation is symmetric, and no two neighbours
share a color. -/
theorem C5_graph_invariants {g : GameGrid} (hWF : g.WF) :
    ∀ moves : List (Nat × Nat), GraphWF (applySeq (GraphSolver.make g).nodes moves) :=
  fun moves => applySeq_WF (GraphSolver.make_spec hWF).1 moves

theorem C5_graph_invariants_witness :
    GraphWF (applySeq (GraphSolver.make checkerGrid).nodes [(0, 1)]) :=
  C5_graph_invariants (make_WF_of_grid (by decide)) [(0, 1)]

/-- C6: for a grid with a consistent Union-Find, the number of nodes the
graph builder creates, and the recorded `initialRegionCount`, both equal the
grid's `getRegionCount()` at the time of the snapshot. -/
theorem C6_node_count {g : GameGrid} (hWF : g.WF) :
    (GraphSolver.make g).nodes.length = g.getRegionCount ∧
    (GraphSolver.make g).initialRegionCount = g.getRegionCount :=
  ⟨(GraphSolver.make_spec hWF).2.1, (GraphSolver.make_spec hWF).2.2⟩

theorem C6_node_count_witness :
    (GraphSolver.make checkerGrid).nodes.length = checkerGrid.getRegionCount ∧
    (GraphSolver.make checkerGrid).initialRegionCount = checkerGrid.getRegionCount :=
  C6_node_count (make_WF_of_grid (by decide))

/-- C7: `applyMove` never mutates its input graph.  In the heap model every
input node object and its neighbour-set object live at addresses allocated
before the call, and after the call every such pre-existing cell reads
exactly as before: the recoloring, the merge and the self-unlink touch only
the copies. -/
theorem C7_applyMove_no_input_mutation (h0 : Heap) (nodes : HGraph) (t c : Nat)
    (hWF : HeapWF h0)
    (halloc : ∀ p ∈ nodes, p.2 < h0.next ∧
      ∀ nd ∈ (hreadNode h0 p.2).toList, nd.nbrsAddr < h0.next) :
    ∀ p ∈ nodes,
      hreadNode (applyMoveH h0 nodes t c).2 p.2 = hreadNode h0 p.2 ∧
      ∀ nd, hreadNode h0 p.2 = some nd →
        hreadSet (applyMoveH h0 nodes t c).2 nd.nbrsAddr = hreadSet h0 nd.nbrsAddr := by
  have hag := applyMoveH_agree h0 nodes t c hWF
  intro p hp
  obtain ⟨hpn, hnb⟩ := halloc p hp
  refine ⟨(hag p.2 hpn).1, ?_⟩
  intro nd hnd
  have hmem : nd ∈ (hreadNode h0 p.2).toList := by
    rw [hnd]
    simp
  exact (hag nd.nbrsAddr (hnb nd hmem)).2

/-- A concrete two-node heap: node objects at addresses 0 and 2, their
neighbour sets at 1 and 3. -/
def twoNodeHeap : Heap :=
  { next := 4,
    nodeCells := [(0, ⟨0, 0, 1, 1⟩), (2, ⟨1, 1, 1, 3⟩)],
    setCells := [(1, [1]), (3, [0])] }

def twoNodeHG : HGraph := [(0, 0), (1, 2)]

theorem C7_applyMove_no_input_mutation_witness :
    hreadNode (applyMoveH twoNodeHeap twoNodeHG 0 1).2 0 = hreadNode twoNodeHeap 0 ∧
    ∀ nd, hreadNode twoNodeHeap 0 = some nd →
      hreadSet (applyMoveH twoNodeHeap twoNodeHG 0 1).2 nd.nbrsAddr
        = hreadSet twoNodeHeap nd.nbrsAddr :=
  C7_applyMove_no_input_mutation twoNodeHeap twoNodeHG 0 1 (by decide) (by decide)
    (0, 0) (by decide)

/-- C8: for every well-formed grid the serialization round trip
`fromJSON(toJSON(g))` yields a grid with an equal color array and an equal
`getRegionCount()`. -/
theorem C8_roundtrip {g : GameGrid} (hWF : g.WF) :
    (GameGrid.fromJSON (GameGrid.toJSON g)).grid = g.grid ∧
    (GameGrid.fromJSON (GameGrid.toJSON g)).getRegionCount = g.getRegionCount := by
  obtain ⟨hgrid, hv, hc, hcc, huf⟩ := fromJSON_toJSON_fields g
  refine ⟨hgrid, ?_⟩
  show (GameGrid.fromJSON (GameGrid.toJSON g)).uf.count = g.getRegionCount
  rw [huf]
  exact (regionCount_eq_rebuild hWF).symm

theorem C8_roundtrip_witness :
    (GameGrid.fromJSON (GameGrid.toJSON checkerGrid)).grid = checkerGrid.grid ∧
    (GameGrid.fromJSON (GameGrid.toJSON checkerGrid)).getRegionCount
      = checkerGrid.getRegionCount :=
  C8_roundtrip (make_WF_of_grid (by decide))

/-- C9: reading any out-of-bounds coordinate (negative, or at least the row
or column count) through `getColorIndex` returns the defensive default color
index 0. -/
theorem C9_oob_read_defaults {g : GameGrid} (hWF : g.WF) {r c : Int}
    (h : r < 0 ∨ (g.rows : Int) ≤ r ∨ c < 0 ∨ (g.cols : Int) ≤ c) :
    g.getColorIndex r c = 0 :=
  getColorIndex_oob hWF.1 h

theorem C9_oob_read_defaults_witness :
    oneRegionGrid.getColorIndex (-1) 0 = 0 :=
  C9_oob_read_defaults (make_WF_default 1 2 3) (Or.inl (by decide))

/-- C10: a negative depth cap empties the iterative-deepening loop, so
`solve` returns null without any search — even on a one-node graph; the
zero-step result appears exactly when the loop runs at least once, i.e. when
the cap is nonnegative. -/
theorem C10_negative_cap (g : Graph) (m : Int) :
    (m < 0 → solveG g m = none) ∧
    (0 ≤ m → g.length = 1 → solveG g m = some ⟨0, []⟩) :=
  ⟨fun hm => solveG_neg hm, fun hm hg => solveG_single hm hg⟩

theorem C10_negative_cap_witness :
    solveG oneG (-1) = none ∧ solveG oneG 0 = some ⟨0, []⟩ :=
  ⟨(C10_negative_cap oneG (-1)).1 (by decide),
   (C10_negative_cap oneG 0).2 (by decide) (by decide)⟩

end Kami2
